import Mathlib

/-!
# The frugal encoder compiler: instruction words, programs and the type-driven code generator

A shallow embedding of `internal/binary/encoder/compiler.go`.

* An instruction word (`Instr`) is the value of a Go `uint64`, kept as a natural number
  below `2 ^ 64`; the arithmetic of `mkins`, `Instr.Iv` and `Program.pin` is spelled out with
  explicit reductions modulo `2 ^ 64`.
* A `panic` is an outcome of its own which carries the panic value and the state reached when
  it was raised: the program and the tracker are mutated in place by the Go code, so whatever
  was written before the panic stays written.
* The recursion of `compileOne` runs on a fuel counter that drops by one at every call of
  `compileOne`; `Outcome.stuck` is the answer of an exhausted counter and stands for a run
  that has not finished.
-/

namespace Frugal

/-! ## Declarations that live outside the three visible source files -/

/-- Modelled from the spec: `defs.MaxInt56`, the largest immediate, the top of
"the signed range representable by 56 bits". -/
def MaxInt56 : Int := 2 ^ 55 - 1

/-- Modelled from the spec: `defs.MinInt56`, the smallest immediate, the bottom of
"the signed range representable by 56 bits". -/
def MinInt56 : Int := -(2 ^ 55)

/-- Modelled from the spec: `defs.MaxUint56`, the top of "the unsigned 56-bit
address/identifier space". -/
def MaxUint56 : Nat := 2 ^ 56 - 1

/-- The names of the opcode enumeration that `compiler.go` mentions. The enumeration itself
is declared in a file that is not among the visible sources; its numbering is the field
`Decls.opv`. -/
inductive OpCode where
  | OP_size | OP_byte | OP_word | OP_long | OP_copy | OP_seek | OP_vstr
  | OP_deref | OP_defer | OP_goto | OP_if_nil | OP_if_true
  | OP_map_begin | OP_map_is_end | OP_map_key | OP_map_value | OP_map_end
  | OP_list_begin | OP_list_is_end | OP_list_next | OP_list_end
  deriving DecidableEq, Repr, Fintype

/-- The type kinds (`defs.Tag`) that `compiler.go` mentions, and `T_other n` for every kind it
does not mention. The numbering of the kinds is the field `Decls.tagv`. -/
inductive Tag where
  | T_bool | T_i8 | T_i16 | T_i32 | T_i64 | T_double | T_string | T_binary
  | T_struct | T_map | T_set | T_list | T_pointer
  | T_other (n : Nat)
  deriving DecidableEq, Repr

/-! The identity of a type is the address `uintptr(unsafe.Pointer(rt.UnpackType(v)))` of the
runtime type behind a `reflect.Type`, a natural number; the nil type has identity `0`. An
instruction word (`Instr`) is the value of its `uint64`, a natural number as well. -/

/-- A `*defs.Type`: either the nil pointer or a descriptor with its kind `T`, its key and
value/element descriptors `K` and `V`, and the identity `S` of its Go type. -/
inductive Ty where
  | null
  | node (T : Tag) (K V : Ty) (S : Nat)
  deriving DecidableEq, Repr

/-- A `defs.Field`, as far as the compiler reads it: the numeric identifier `ID`, the byte
offset `F` in the host structure and the descriptor `Type` of the field type (`Typ` here). -/
structure Field where
  ID : Nat
  F : Nat
  Typ : Ty
  deriving DecidableEq, Repr

/-- The `error` values that can be thrown as a panic during code generation: an error made by
the field resolver, or one of the two run-time errors of the Go runtime (which implement
`error`). -/
inductive GoError where
  | resolve (msg : String)
  | nilDereference
  | indexOutOfRange
  deriving DecidableEq, Repr

/-- The value carried by a panic: a string (`panic("...")`) or an `error` (`panic(err)`, and
the run-time errors). -/
inductive PanicVal where
  | str (msg : String)
  | err (e : GoError)
  deriving DecidableEq, Repr

/-- A program: the instruction words in order. -/
abbrev Program := List Nat

/-- The recursion tracker `map[reflect.Type]bool`: the set of keys present in the map. -/
abbrev Compiler := Finset Nat

/-- The constants and tables that `compiler.go` uses and that are declared elsewhere in the
repository: the nesting budget `defs.MaxStack`, the numeric values of the opcodes (8 bits) and
of the type kinds, and the table `_OpBranches` of the branch-class opcodes. -/
structure Decls where
  MaxStack : Nat
  opv : OpCode → Fin 256
  tagv : Tag → Nat
  OpBranches : Fin 256 → Bool

/-- The field resolver `defs.ResolveFields`: the ordered field list of a struct type, or an
error. -/
abbrev Resolver := Nat → Except GoError (List Field)

deriving instance DecidableEq for Except

/-- The value of `int64(x)`: the signed reading of the low 64 bits of `x`. -/
def toInt64 (x : Int) : Int := (x + 2 ^ 63) % 2 ^ 64 - 2 ^ 63

/-! ## Instruction words -/

/-- The function `mkiv64`. -/
def mkiv64 (v : Int) : Except PanicVal Nat :=
  if v < MinInt56 ∨ v > MaxInt56 then
    .error (.str "value exceeds 56-bit integer range")
  else
    .ok (v % 2 ^ 64).toNat

/-- The function `mktype`; the argument is the identity of the type. -/
def mktype (v : Nat) : Except PanicVal Nat :=
  if v > MaxUint56 then
    .error (.str "pointer exceeds 56-bit address space")
  else
    .ok v

/-- The function `mkins`: the two operand parts are made first, left to right, then the word
is assembled in 64-bit arithmetic. -/
def mkins (op : Fin 256) (iv : Int) (vt : Nat) : Except PanicVal Nat :=
  match mkiv64 iv with
  | .error e => .error e
  | .ok a =>
    match mktype vt with
    | .error e => .error e
    | .ok b => .ok (((a <<< 8) % 2 ^ 64) ||| ((b <<< 8) % 2 ^ 64) ||| op.val)

/-- The function `gettype`: the pointer whose address is the given word. -/
def gettype (v : Nat) : Nat := v

/-- The method `Instr.Op`: the conversion to the 8-bit opcode type keeps the low byte. -/
def Instr.Op (self : Nat) : Fin 256 := ⟨self % 256, Nat.mod_lt _ (by decide)⟩

/-- The method `Instr.Iv`: the word read as an `int64` and divided by 256, where the division
of Go rounds towards zero. -/
def Instr.Iv (self : Nat) : Int := Int.tdiv (toInt64 self) 256

/-- The method `Instr.Vt`. -/
def Instr.Vt (self : Nat) : Nat := gettype (self >>> 8)

/-- The 56-bit operand field of a word, `self >> 8`, before any interpretation. -/
def Instr.operand (self : Nat) : Nat := self >>> 8

/-- The word with opcode `op` in its low byte and `x` in its operand field. -/
def word (op : Fin 256) (x : Nat) : Nat := 2 ^ 8 * x + op.val

/-- The 56-bit pattern of an immediate (the two-complement reading of a negative one). -/
def imm56 (iv : Int) : Nat := (iv % 2 ^ 56).toNat

/-! ## Programs -/

/-- The method `Program.pc`. -/
def Program.pc (self : Program) : Nat := self.length

/-- The method `Program.pin`; an index outside the program is the run-time error of Go. -/
def Program.pin (self : Program) (i : Nat) : Except PanicVal Program :=
  match self.get? i with
  | none => .error (.err .indexOutOfRange)
  | some w => .ok (self.set i ((w &&& 0xff) ||| ((Program.pc self <<< 8) % 2 ^ 64)))

/-- The method `Program.tag`. -/
def Program.tag (d : Decls) (_self : Program) (n : Nat) : Except PanicVal Unit :=
  if n ≥ d.MaxStack then .error (.str "type nesting too deep") else .ok ()

/-- The method `Program.ins`. -/
def Program.ins (self : Program) (iv : Nat) : Except PanicVal Program :=
  if self.length ≥ MaxUint56 then .error (.str "program too long") else .ok (self ++ [iv])

/-- The method `Program.add`. -/
def Program.add (self : Program) (op : Fin 256) : Except PanicVal Program :=
  match mkins op 0 0 with
  | .error e => .error e
  | .ok w => Program.ins self w

/-- The method `Program.i64`. -/
def Program.i64 (self : Program) (op : Fin 256) (iv : Int) : Except PanicVal Program :=
  match mkins op iv 0 with
  | .error e => .error e
  | .ok w => Program.ins self w

/-- The method `Program.rtt`. -/
def Program.rtt (self : Program) (op : Fin 256) (vt : Nat) : Except PanicVal Program :=
  match mkins op 0 vt with
  | .error e => .error e
  | .ok w => Program.ins self w

/-! ## The state of a compilation and its outcomes -/

/-- What a call of the generator works on: the program behind the pointer `p` and the tracker
behind the receiver `self`. -/
structure CState where
  prog : Program
  trk : Compiler
  deriving DecidableEq

/-- How a call ends: it returns, it panics with a value (the state is what had been written
by then), or the fuel ran out before it ended. -/
inductive Outcome (α : Type) where
  | ok (a : α) (s : CState)
  | panic (v : PanicVal) (s : CState)
  | stuck
  deriving DecidableEq

/-- A piece of generator code. -/
def Gen (α : Type) : Type := CState → Outcome α

/-- Return a value, leaving the state alone. -/
def Gen.ret {α : Type} (a : α) : Gen α := fun s => .ok a s

/-- Run one piece of code after another; a panic or an exhausted counter ends the run. -/
def Gen.andThen {α β : Type} (m : Gen α) (k : α → Gen β) : Gen β := fun s =>
  match m s with
  | .ok a s' => k a s'
  | .panic v s' => .panic v s'
  | .stuck => .stuck

instance : Monad Gen where
  pure := Gen.ret
  bind := Gen.andThen

/-- Raise a panic. -/
def Gen.raise {α : Type} (v : PanicVal) : Gen α := fun s => .panic v s

/-- Run a method of `Program` on the program of the state. -/
def Gen.onProg (f : Program → Except PanicVal Program) : Gen Unit := fun s =>
  match f s.prog with
  | .ok p => .ok () { s with prog := p }
  | .error v => .panic v s

/-- The statement `p.pc()`. -/
def Gen.pc : Gen Nat := fun s => .ok (Program.pc s.prog) s

/-- The statement `p.pin(i)`. -/
def Gen.pin (i : Nat) : Gen Unit := Gen.onProg (fun p => Program.pin p i)

/-- The statement `p.tag(n)`. -/
def Gen.tag (d : Decls) (n : Nat) : Gen Unit := fun s =>
  match Program.tag d s.prog n with
  | .ok _ => .ok () s
  | .error v => .panic v s

/-- The statement `p.add(op)`. -/
def Gen.add (d : Decls) (op : OpCode) : Gen Unit := Gen.onProg (fun p => Program.add p (d.opv op))

/-- The statement `p.i64(op, iv)`. -/
def Gen.i64 (d : Decls) (op : OpCode) (iv : Int) : Gen Unit :=
  Gen.onProg (fun p => Program.i64 p (d.opv op) iv)

/-- The statement `p.rtt(op, vt)`. -/
def Gen.rtt (d : Decls) (op : OpCode) (vt : Nat) : Gen Unit :=
  Gen.onProg (fun p => Program.rtt p (d.opv op) vt)

/-- The expression `int64(vt.T)` for a pointer `vt`: the nil pointer cannot be read. -/
def Gen.kindOf (d : Decls) (vt : Ty) : Gen Int :=
  match vt with
  | .null => Gen.raise (.err .nilDereference)
  | .node T _ _ _ => Gen.ret (d.tagv T : Int)

/-- The test `_, ok := self[S]`. -/
def Gen.marked (S : Nat) : Gen Bool := fun s => .ok (decide (S ∈ s.trk)) s

/-- The statement `self[S] = true`. -/
def Gen.mark (S : Nat) : Gen Unit := fun s => .ok () { s with trk := insert S s.trk }

/-- The statement `delete(self, S)`. -/
def Gen.unmark (S : Nat) : Gen Unit := fun s => .ok () { s with trk := s.trk.erase S }

/-! ## The structural code generator

Every function below that calls `compileOne` takes that call as its argument `self`; the knot
is tied in `compileOne`, which hands them `compileOne` with one unit of fuel less. A
descriptor that has been read once (`vt.T` in `compileOne`) is passed on as its fields. -/

/-- The method `Compiler.compilePtr`. -/
def compilePtr (d : Decls) (self : Nat → Ty → Gen Unit) (sp : Nat) (et : Ty) : Gen Unit := do
  let i ← Gen.pc
  Gen.add d .OP_deref
  self sp et
  Gen.pin i

/-- The method `Compiler.compileMap`, for a descriptor with key `K`, value `V` and identity `S`. -/
def compileMap (d : Decls) (self : Nat → Ty → Gen Unit) (sp : Nat) (K V : Ty) (S : Nat) :
    Gen Unit := do
  Gen.tag d sp
  Gen.i64 d .OP_size 6
  let kt ← Gen.kindOf d K
  Gen.i64 d .OP_byte kt
  let vk ← Gen.kindOf d V
  Gen.i64 d .OP_byte vk
  Gen.rtt d .OP_map_begin S
  let i ← Gen.pc
  Gen.add d .OP_map_is_end
  let j ← Gen.pc
  Gen.add d .OP_if_true
  Gen.add d .OP_map_key
  self (sp + 1) K
  Gen.add d .OP_map_value
  self (sp + 1) V
  Gen.i64 d .OP_goto (i : Int)
  Gen.pin j
  Gen.add d .OP_map_end

/-- The method `Compiler.compileSetList`. -/
def compileSetList (d : Decls) (self : Nat → Ty → Gen Unit) (sp : Nat) (et : Ty) : Gen Unit := do
  Gen.tag d sp
  Gen.i64 d .OP_size 5
  let ek ← Gen.kindOf d et
  Gen.i64 d .OP_byte ek
  Gen.add d .OP_list_begin
  let i ← Gen.pc
  Gen.add d .OP_list_is_end
  let j ← Gen.pc
  Gen.add d .OP_if_true
  self (sp + 1) et
  Gen.add d .OP_list_next
  Gen.i64 d .OP_goto (i : Int)
  Gen.pin j
  Gen.add d .OP_list_end

/-- The loop `for i, fv := range fvs[1:]` of `compileStruct`; `prev` is the offset `fvs[i].F`
of the field before `fv`. -/
def compileFields (d : Decls) (self : Nat → Ty → Gen Unit) (sp : Nat) :
    Nat → List Field → Gen Unit
  | _, [] => Gen.ret ()
  | prev, fv :: rest => do
    Gen.i64 d .OP_size 3
    Gen.i64 d .OP_seek (toInt64 ((fv.F : Int) - (prev : Int)))
    let k ← Gen.kindOf d fv.Typ
    Gen.i64 d .OP_byte k
    Gen.i64 d .OP_word (fv.ID : Int)
    self (sp + 1) fv.Typ
    compileFields d self sp fv.F rest

/-- The method `Compiler.compileStruct`, for a descriptor with identity `S`. -/
def compileStruct (d : Decls) (rf : Resolver) (self : Nat → Ty → Gen Unit) (sp : Nat)
    (S : Nat) : Gen Unit :=
  match rf S with
  | .error err => Gen.raise (.err err)
  | .ok [] => Gen.i64 d .OP_byte 0
  | .ok (f0 :: rest) => do
    Gen.tag d sp
    Gen.i64 d .OP_size 3
    let k ← Gen.kindOf d f0.Typ
    Gen.i64 d .OP_byte k
    Gen.i64 d .OP_word (f0.ID : Int)
    self (sp + 1) f0.Typ
    compileFields d self sp f0.F rest
    Gen.i64 d .OP_byte 0

/-- The method `Compiler.compileRec`, for a descriptor with the fields `T`, `K`, `V`, `S`. -/
def compileRec (d : Decls) (rf : Resolver) (self : Nat → Ty → Gen Unit) (sp : Nat)
    (T : Tag) (K V : Ty) (S : Nat) : Gen Unit :=
  match T with
  | .T_bool => do Gen.i64 d .OP_size 1; Gen.i64 d .OP_copy 1
  | .T_i8 => do Gen.i64 d .OP_size 1; Gen.i64 d .OP_copy 1
  | .T_i16 => do Gen.i64 d .OP_size 2; Gen.i64 d .OP_copy 2
  | .T_i32 => do Gen.i64 d .OP_size 4; Gen.i64 d .OP_copy 4
  | .T_i64 => do Gen.i64 d .OP_size 8; Gen.i64 d .OP_copy 8
  | .T_double => do Gen.i64 d .OP_size 8; Gen.i64 d .OP_copy 8
  | .T_string => Gen.add d .OP_vstr
  | .T_binary => Gen.add d .OP_vstr
  | .T_struct => compileStruct d rf self sp S
  | .T_map => compileMap d self sp K V S
  | .T_set => compileSetList d self sp V
  | .T_list => compileSetList d self sp V
  | _ => Gen.raise (.str "unreachable")

/-- The method `Compiler.compileSet`. -/
def compileSet (d : Decls) (rf : Resolver) (self : Nat → Ty → Gen Unit) (sp : Nat)
    (T : Tag) (K V : Ty) (S : Nat) : Gen Unit := do
  Gen.mark S
  compileRec d rf self sp T K V S
  Gen.unmark S

/-- The method `Compiler.compileOne`. The first argument is the fuel. -/
def compileOne (d : Decls) (rf : Resolver) : Nat → Nat → Ty → Gen Unit
  | 0, _, _ => fun _ => .stuck
  | fuel + 1, sp, vt =>
    match vt with
    | .null => Gen.raise (.err .nilDereference)
    | .node T K V S =>
      if T = .T_pointer then
        compilePtr d (compileOne d rf fuel) sp V
      else do
        let ok ← Gen.marked S
        if !ok then
          compileSet d rf (compileOne d rf fuel) sp T K V S
        else
          Gen.rtt d .OP_defer S

/-! ## The entry point -/

/-- How `Compile` ends: it returns its two results (the tracker is the receiver after the
call), or a panic leaves it, or the fuel ran out. -/
inductive CompileResult where
  | returned (ret : Program) (err : Option GoError) (trk : Compiler)
  | panicked (v : PanicVal) (trk : Compiler)
  | stuck
  deriving DecidableEq

/-- The method `Compiler.rescue`, run as a deferred call: `val` is what `recover()` yields and
`ep` the error result so far. It gives the new error result, or panics again. -/
def Compiler.rescue (val : Option PanicVal) (ep : Option GoError) :
    Except PanicVal (Option GoError) :=
  match val with
  | none => .ok ep
  | some (.err err) => .ok (some err)
  | some v => .error v

/-- The method `Compiler.Compile`, from the parsed descriptor `vtp` on. `newProgram()` is the
empty program, `Optimize` is the optimization pass of the repository, and `trk` is the
receiver when the call starts. The named result `ret` is the program that `compileOne`
writes to. -/
def Compile (d : Decls) (rf : Resolver) (Optimize : Program → Program) (fuel : Nat) (vtp : Ty)
    (trk : Compiler) : CompileResult :=
  match compileOne d rf fuel 0 vtp { prog := [], trk := trk } with
  | .ok _ s =>
    match Compiler.rescue none none with
    | .ok err => .returned (Optimize s.prog) err s.trk
    | .error v => .panicked v s.trk
  | .panic v s =>
    match Compiler.rescue (some v) none with
    | .ok err => .returned s.prog err s.trk
    | .error v' => .panicked v' s.trk
  | .stuck => .stuck

/-! ## Sample values for the declarations, for running the definitions -/

/-- A numbering of the opcodes, in the order of the enumeration above. -/
def sampleOpv : OpCode → Fin 256
  | .OP_size => 0 | .OP_byte => 1 | .OP_word => 2 | .OP_long => 3 | .OP_copy => 4
  | .OP_seek => 5 | .OP_vstr => 6 | .OP_deref => 7 | .OP_defer => 8 | .OP_goto => 9
  | .OP_if_nil => 10 | .OP_if_true => 11 | .OP_map_begin => 12 | .OP_map_is_end => 13
  | .OP_map_key => 14 | .OP_map_value => 15 | .OP_map_end => 16 | .OP_list_begin => 17
  | .OP_list_is_end => 18 | .OP_list_next => 19 | .OP_list_end => 20

/-- A numbering of the type kinds. -/
def sampleTagv : Tag → Nat
  | .T_bool => 2 | .T_i8 => 3 | .T_double => 4 | .T_i16 => 6 | .T_i32 => 8 | .T_i64 => 10
  | .T_string => 11 | .T_struct => 12 | .T_map => 13 | .T_set => 14 | .T_list => 15
  | .T_binary => 129 | .T_pointer => 130 | .T_other n => n

/-- Sample declarations with a nesting budget of `ms`. -/
def sampleDecls (ms : Nat) : Decls where
  MaxStack := ms
  opv := sampleOpv
  tagv := sampleTagv
  OpBranches := fun op => decide (op = 7 ∨ op = 9 ∨ op = 10 ∨ op = 11)

/-! ## Sample inputs -/

/-- A descriptor without children. -/
def leafTy (T : Tag) (S : Nat) : Ty := .node T .null .null S

/-- A pointer descriptor. -/
def ptrTo (V : Ty) (S : Nat) : Ty := .node .T_pointer .null V S

/-- A list descriptor. -/
def listOf (V : Ty) (S : Nat) : Ty := .node .T_list .null V S

/-- A map descriptor. -/
def mapOf (K V : Ty) (S : Nat) : Ty := .node .T_map K V S

/-- A small table of struct types. `100` has a `bool` field and a field of the struct type
`200`, whose fields cannot be resolved; `300` is a list cell with a pointer to itself; `400`
has two fields of the struct type `500`; the second field of `600` lies before the first one;
the two fields of `700` are `2 ^ 55` bytes apart. -/
def sampleResolver : Resolver := fun S =>
  if S = 100 then .ok [⟨1, 0, leafTy .T_bool 1⟩, ⟨2, 8, leafTy .T_struct 200⟩]
  else if S = 300 then .ok [⟨1, 0, leafTy .T_i32 3⟩, ⟨2, 8, ptrTo (leafTy .T_struct 300) 301⟩]
  else if S = 400 then .ok [⟨1, 0, leafTy .T_struct 500⟩, ⟨2, 16, leafTy .T_struct 500⟩]
  else if S = 500 then .ok [⟨1, 0, leafTy .T_i64 5⟩, ⟨2, 8, listOf (leafTy .T_string 6) 7⟩]
  else if S = 600 then .ok [⟨1, 8, leafTy .T_bool 1⟩, ⟨2, 0, leafTy .T_bool 1⟩]
  else if S = 700 then .ok [⟨1, 0, leafTy .T_bool 1⟩, ⟨2, 2 ^ 55, leafTy .T_bool 1⟩]
  else .error (.resolve "cannot resolve fields")

/-! ## The layout of the emitted code

The functions below assemble, from the code of the parts, the instruction sequence that each
construct is shown to emit; `k` is the position at which the sequence starts. -/

/-- The numeric kind of a descriptor (`0` for the nil pointer, which has none). -/
def Ty.kind (d : Decls) : Ty → Nat
  | .null => 0
  | .node T _ _ _ => d.tagv T

/-- A pointer: the guard, whose operand is the position after the referent, then the referent. -/
def ptrCode (d : Decls) (k : Nat) (c : List Nat) : List Nat :=
  word (d.opv .OP_deref) (k + 1 + c.length) :: c

/-- The instructions of a set or a list in front of the element code, as first written: the
exit branch has no target yet. -/
def listHead (d : Decls) (ek : Nat) : List Nat :=
  [word (d.opv .OP_size) 5, word (d.opv .OP_byte) ek, word (d.opv .OP_list_begin) 0,
    word (d.opv .OP_list_is_end) 0, word (d.opv .OP_if_true) 0]

/-- The instructions of a map in front of the key code, as first written: the exit branch has
no target yet. -/
def mapHead (d : Decls) (kt vk S : Nat) : List Nat :=
  [word (d.opv .OP_size) 6, word (d.opv .OP_byte) kt, word (d.opv .OP_byte) vk,
    word (d.opv .OP_map_begin) S, word (d.opv .OP_map_is_end) 0,
    word (d.opv .OP_if_true) 0, word (d.opv .OP_map_key) 0]

/-- The three instructions in front of the code of the first field of a struct. -/
def structHead (d : Decls) (f0 : Field) : List Nat :=
  [word (d.opv .OP_size) 3, word (d.opv .OP_byte) (Ty.kind d f0.Typ),
    word (d.opv .OP_word) f0.ID]

/-- A set or a list with elements of kind `ek` and element code `c`. -/
def listCode (d : Decls) (k ek : Nat) (c : List Nat) : List Nat :=
  [word (d.opv .OP_size) 5, word (d.opv .OP_byte) ek, word (d.opv .OP_list_begin) 0,
    word (d.opv .OP_list_is_end) 0, word (d.opv .OP_if_true) (k + 7 + c.length)] ++ c ++
  [word (d.opv .OP_list_next) 0, word (d.opv .OP_goto) (k + 3), word (d.opv .OP_list_end) 0]

/-- A map of identity `S` with keys of kind `kt` and code `cK`, values of kind `vk` and code
`cV`. -/
def mapCode (d : Decls) (k kt vk S : Nat) (cK cV : List Nat) : List Nat :=
  [word (d.opv .OP_size) 6, word (d.opv .OP_byte) kt, word (d.opv .OP_byte) vk,
    word (d.opv .OP_map_begin) S, word (d.opv .OP_map_is_end) 0,
    word (d.opv .OP_if_true) (k + 9 + cK.length + cV.length), word (d.opv .OP_map_key) 0] ++ cK ++
  [word (d.opv .OP_map_value) 0] ++ cV ++
  [word (d.opv .OP_goto) (k + 4), word (d.opv .OP_map_end) 0]

/-- The four instructions in front of the code of a field that is not the first one; `prev`
is the offset of the field before it. -/
def fieldHead (d : Decls) (prev : Nat) (fv : Field) : List Nat :=
  [word (d.opv .OP_size) 3,
    word (d.opv .OP_seek) (imm56 (toInt64 ((fv.F : Int) - (prev : Int)))),
    word (d.opv .OP_byte) (Ty.kind d fv.Typ), word (d.opv .OP_word) fv.ID]

/-- The fields after the first one, with their codes `cs` in order. -/
def fieldsCode (d : Decls) : Nat → List Field → List (List Nat) → List Nat
  | prev, fv :: rest, c :: cs => fieldHead d prev fv ++ c ++ fieldsCode d fv.F rest cs
  | _, _, _ => []

/-- A struct with the fields `fvs` and their codes `cs` in order. -/
def structCode (d : Decls) : List Field → List (List Nat) → List Nat
  | f0 :: rest, c0 :: cs =>
    structHead d f0 ++ c0 ++ fieldsCode d f0.F rest cs ++ [word (d.opv .OP_byte) 0]
  | _, _ => [word (d.opv .OP_byte) 0]

/-- A scalar, a string or a binary blob. -/
def scalarCode (d : Decls) : Tag → List Nat
  | .T_bool => [word (d.opv .OP_size) 1, word (d.opv .OP_copy) 1]
  | .T_i8 => [word (d.opv .OP_size) 1, word (d.opv .OP_copy) 1]
  | .T_i16 => [word (d.opv .OP_size) 2, word (d.opv .OP_copy) 2]
  | .T_i32 => [word (d.opv .OP_size) 4, word (d.opv .OP_copy) 4]
  | .T_i64 => [word (d.opv .OP_size) 8, word (d.opv .OP_copy) 8]
  | .T_double => [word (d.opv .OP_size) 8, word (d.opv .OP_copy) 8]
  | .T_string => [word (d.opv .OP_vstr) 0]
  | .T_binary => [word (d.opv .OP_vstr) 0]
  | _ => []

/-- The kinds that `compileRec` compiles without a further call. -/
def Tag.isScalar : Tag → Bool
  | .T_bool | .T_i8 | .T_i16 | .T_i32 | .T_i64 | .T_double | .T_string | .T_binary => true
  | _ => false

/-! ## Properties of a generator used in the statements -/

/-- A run of `self` that returns leaves the tracker as it found it and the program as it found
it with some code appended, within the capacity of a program. -/
def Grows (self : Nat → Ty → Gen Unit) : Prop :=
  ∀ sp vt s u s', self sp vt s = .ok u s' →
    s'.trk = s.trk ∧ s'.prog.length ≤ MaxUint56 ∧ ∃ c, s'.prog = s.prog ++ c

/-- The runs of `self` on the fields after the first one of a struct: the field `fv` is
compiled at depth `sp + 1` under the tracker `t`, starting right after its four head
instructions, and appends its code. -/
def FieldRuns (d : Decls) (self : Nat → Ty → Gen Unit) (sp : Nat) (t : Compiler) :
    Program → Nat → List Field → List (List Nat) → Prop
  | _, _, [], [] => True
  | q, prev, fv :: rest, c :: cs =>
    self (sp + 1) fv.Typ { prog := q ++ fieldHead d prev fv, trk := t }
        = .ok () { prog := q ++ fieldHead d prev fv ++ c, trk := t } ∧
      FieldRuns d self sp t (q ++ fieldHead d prev fv ++ c) fv.F rest cs
  | _, _, _, _ => False

/-- A loop sits in the program `prog` with its is-end check (opcode `isEnd`) at position `L`:
the exit branch `OP_if_true` is at `L + 1`, the closing `OP_goto` at some later position `G`
is the last but one instruction and the last one has the opcode `fin`; the operand of the
`OP_goto` is `L` and that of the exit branch is `G + 1`. `Iv` decodes the first operand to
`L`, and the second one to `G + 1` when `G + 1` is below `2 ^ 55`. -/
def LoopAt (d : Decls) (isEnd fin : OpCode) (L : Nat) (prog : Program) : Prop :=
  ∃ G wL wJ wG wE,
    prog.get? L = some wL ∧ Instr.Op wL = d.opv isEnd ∧
    prog.get? (L + 1) = some wJ ∧ Instr.Op wJ = d.opv .OP_if_true ∧
    L + 1 < G ∧
    prog.get? G = some wG ∧ Instr.Op wG = d.opv .OP_goto ∧
    prog.get? (G + 1) = some wE ∧ Instr.Op wE = d.opv fin ∧
    prog.length = G + 2 ∧
    Instr.operand wG = L ∧ Instr.Iv wG = (L : Int) ∧
    Instr.operand wJ = G + 1 ∧ (G + 1 < 2 ^ 55 → Instr.Iv wJ = ((G + 1 : Nat) : Int))

/-- The runs of `self` on the fields of a struct compiled from the program `p` on: the first
field after the three head instructions, the others as in `FieldRuns`. -/
def StructRuns (d : Decls) (self : Nat → Ty → Gen Unit) (sp : Nat) (t : Compiler)
    (p : Program) : List Field → List (List Nat) → Prop
  | [], [] => True
  | f0 :: rest, c0 :: cs =>
    self (sp + 1) f0.Typ { prog := p ++ structHead d f0, trk := t }
        = .ok () { prog := p ++ structHead d f0 ++ c0, trk := t } ∧
      FieldRuns d self sp t (p ++ structHead d f0 ++ c0) f0.F rest cs
  | _, _ => False

/-- From every state with the tracker `t`, the code `m` ends (it does not run out of fuel),
and when it returns the tracker is `t` again. -/
def NoStuck {α : Type} (t : Compiler) (m : Gen α) : Prop :=
  ∀ s, s.trk = t → m s ≠ .stuck ∧ ∀ a s', m s = .ok a s' → s'.trk = t

/-- The descriptor leads to a struct descriptor of identity `S` through pointers, lists, sets
and maps; `t` is the tracker under which the descriptor is compiled, and the identity of
every list, set and map on the way is one that is not being expanded when it is reached. -/
inductive LeadsTo (S : Nat) : Compiler → Ty → Prop where
  | here (t : Compiler) (K V : Ty) : LeadsTo S t (.node .T_struct K V S)
  | ptr (t : Compiler) (K V : Ty) (id : Nat) :
      LeadsTo S t V → LeadsTo S t (.node .T_pointer K V id)
  | list (t : Compiler) (K V : Ty) (id : Nat) :
      id ∉ t → LeadsTo S (insert id t) V → LeadsTo S t (.node .T_list K V id)
  | set (t : Compiler) (K V : Ty) (id : Nat) :
      id ∉ t → LeadsTo S (insert id t) V → LeadsTo S t (.node .T_set K V id)
  | mapKey (t : Compiler) (K V : Ty) (id : Nat) :
      id ∉ t → LeadsTo S (insert id t) K → LeadsTo S t (.node .T_map K V id)
  | mapVal (t : Compiler) (K V : Ty) (id : Nat) :
      id ∉ t → LeadsTo S (insert id t) V → LeadsTo S t (.node .T_map K V id)

/-- The opcodes whose operand is a position in the program. -/
def isJump (d : Decls) (op : Fin 256) : Prop :=
  op = d.opv .OP_goto ∨ op = d.opv .OP_if_true ∨ op = d.opv .OP_deref

/-- Two words, of codes that start at the positions `k1` and `k2`, are the same instruction:
they have the same opcode, which is not `OP_defer`; if it is a jump their operands are the same
position relative to the start of the code, and if not the words are equal. -/
def SameWord (d : Decls) (k1 k2 : Nat) (w1 w2 : Nat) : Prop :=
  Instr.Op w1 = Instr.Op w2 ∧ Instr.Op w1 ≠ d.opv .OP_defer ∧
    (isJump d (Instr.Op w1) → Instr.operand w1 + k2 = Instr.operand w2 + k1) ∧
    (¬ isJump d (Instr.Op w1) → w1 = w2)

/-- Two codes that start at the positions `k1` and `k2` are the same instruction sequence up
to the absolute positions in their jump operands, and hold no `OP_defer`. -/
def SameCode (d : Decls) (k1 k2 : Nat) (c1 c2 : List Nat) : Prop :=
  List.Forall₂ (SameWord d k1 k2) c1 c2

/-- The rank of every identity that the compiler marks when it compiles the descriptor is
below `b`, and the ranks go down from a set, list or map to its parts. -/
def Ranked (rk : Nat → Nat) : Nat → Ty → Prop
  | _, .null => True
  | b, .node T K V S =>
    match T with
    | .T_pointer => Ranked rk b V
    | .T_map => rk S < b ∧ Ranked rk (rk S) K ∧ Ranked rk (rk S) V
    | .T_set => rk S < b ∧ Ranked rk (rk S) V
    | .T_list => rk S < b ∧ Ranked rk (rk S) V
    | _ => rk S < b

/-- The struct types of rank below `b` are acyclic: the ranks go down from a struct to the
types of its fields. -/
def RankedEnv (rf : Resolver) (rk : Nat → Nat) (b : Nat) : Prop :=
  ∀ S fvs, rk S < b → rf S = .ok fvs → ∀ fv ∈ fvs, Ranked rk (rk S) fv.Typ

/-- With enough fuel, whatever the declarations, the depth and the program, `compileOne` on
`vt` under the tracker `t` ends: it returns or it panics. -/
def EndsUnder (rf : Resolver) (t : Compiler) (vt : Ty) : Prop :=
  ∃ N, ∀ (d : Decls) (fuel : Nat), N ≤ fuel → ∀ sp p,
    compileOne d rf fuel sp vt { prog := p, trk := t } ≠ .stuck

/-- The code `c` of the field `fv` was written by a run of `compileOne` at depth `sp` under
the tracker `t`, and it is the same code as that of every returning run of `compileOne` on
the type of the field on its own, from the empty program and the empty tracker. -/
def ExpandedLike (d : Decls) (rf : Resolver) (fuel sp : Nat) (t : Compiler) (fv : Field)
    (c : List Nat) : Prop :=
  ∃ q, compileOne d rf fuel sp fv.Typ { prog := q, trk := t }
      = .ok () { prog := q ++ c, trk := t } ∧
    ∀ (f0 sp0 : Nat) (u0 : Unit) (s0 : CState),
      compileOne d rf f0 sp0 fv.Typ { prog := [], trk := ∅ } = .ok u0 s0 →
      SameCode d q.length 0 c s0.prog

/-- Ranks for the sample table under which the struct `500` and what it is made of are
acyclic. -/
def sampleRank (S : Nat) : Nat :=
  if S = 500 then 2 else if S = 7 then 1 else if S = 5 ∨ S = 6 then 0 else 10

/-- The program of the struct `400` of the sample table. -/
def sampleProg400 : Program :=
  [768, 3073, 258, 768, 2561, 258, 2048, 2052, 768, 2053, 3841, 514, 1280, 2817, 17, 18,
    5131, 6, 19, 3849, 20, 1, 768, 4101, 3073, 514, 768, 2561, 258, 2048, 2052, 768, 2053,
    3841, 514, 1280, 2817, 17, 18, 11019, 6, 19, 9737, 20, 1, 1]

/-- The code `m2` does what `m1` does wherever `m1` ends. -/
def Gen.Below {α : Type} (m1 m2 : Gen α) : Prop :=
  ∀ s, m1 s ≠ .stuck → m2 s = m1 s

/-! ## The disassembly listing -/

/-- The first loop of `Program.Disassemble`, the prescan for the labels: `tab[ins.Iv()] = true`
for every instruction whose opcode is in `_OpBranches`. An index that is negative or not below
the length of the table is the run-time error of Go. -/
def disLabels (d : Decls) : List Nat → List Bool → Except PanicVal (List Bool)
  | [], tab => .ok tab
  | ins :: rest, tab =>
    if d.OpBranches (Instr.Op ins) = true then
      if 0 ≤ Instr.Iv ins ∧ (Instr.Iv ins).toNat < tab.length then
        disLabels d rest (tab.set (Instr.Iv ins).toNat true)
      else .error (.err .indexOutOfRange)
    else disLabels d rest tab

/-- The second loop of `Program.Disassemble`, from the index `i` on: one entry of `ret` for
each instruction. The text of an instruction, `ins.Disassemble()`, is the argument `dis`: it
is made by `fmt.Sprintf` from `OpCode.String`, which is declared elsewhere. The index `i` is
inside the table, which has one entry more than the program. -/
def disLines (dis : Nat → String) (tab : List Bool) : Nat → List Nat → List String
  | _, [] => []
  | i, ins :: rest =>
    (if !(tab.getD i false) then "\t" ++ dis ins
     else "L_" ++ toString i ++ ":\n\t" ++ dis ins) :: disLines dis tab (i + 1) rest

/-- The slice that `Program.Disassemble` joins: the entries of the instructions, the last
label if needed, and the end indicator. -/
def Program.disassembleLines (d : Decls) (dis : Nat → String) (self : Program) :
    Except PanicVal (List String) :=
  let nb := self.length
  match disLabels d self (List.replicate (nb + 1) false) with
  | .error e => .error e
  | .ok tab =>
    let ret := disLines dis tab 0 self
    let ret := if tab.getD nb false then ret ++ ["L_" ++ toString nb ++ ":"] else ret
    .ok (ret ++ ["\tend"])

/-- The method `Program.Disassemble`. -/
def Program.Disassemble (d : Decls) (dis : Nat → String) (self : Program) :
    Except PanicVal String :=
  match Program.disassembleLines d dis self with
  | .error e => .error e
  | .ok ret => .ok (String.intercalate "\n" ret)

/-! ## More sample inputs -/

/-- A chain of `n + 1` directly nested struct types: the struct `S` for `S < n` has one field,
of the struct type `S + 1`, and the struct `n` has one field of kind `bool`; nothing else
resolves. -/
def chainResolver (n : Nat) : Resolver := fun S =>
  if S < n then .ok [⟨1, 0, leafTy .T_struct (S + 1)⟩]
  else if S = n then .ok [⟨1, 0, leafTy .T_bool (n + 1)⟩]
  else .error (.resolve "cannot resolve fields")

/-- A descriptor behind `k` levels of pointer. -/
def ptrN : Nat → Ty → Ty
  | 0, vt => vt
  | k + 1, vt => .node .T_pointer .null (ptrN k vt) 0

/-- The fields with the constant `c` added to the offset of each. -/
def shiftFields (c : Nat) (fvs : List Field) : List Field :=
  fvs.map (fun fv => { fv with F := fv.F + c })

/-- The resolver that gives the fields of `rf` with the constant `c S` added to every offset
of the struct `S`. -/
def shiftResolver (rf : Resolver) (c : Nat → Nat) : Resolver := fun S =>
  match rf S with
  | .ok fvs => .ok (shiftFields (c S) fvs)
  | .error e => .error e

/-! ## More properties used in the statements -/

/-- The word is a STOP marker: its opcode is `OP_byte` and its operand is `0`. -/
def isStop (d : Decls) (w : Nat) : Bool :=
  decide (Instr.Op w = d.opv .OP_byte ∧ Instr.operand w = 0)

/-- The number of STOP markers in a piece of code. -/
def stops (d : Decls) (c : List Nat) : Nat := c.countP (isStop d)

/-- The seek deltas of the fields after the first one fit the 56-bit immediate; `prev` is the
offset of the field before the first of `fvs`. -/
def SeeksFit : Nat → List Field → Prop
  | _, [] => True
  | prev, fv :: rest =>
    MinInt56 ≤ toInt64 ((fv.F : Int) - (prev : Int)) ∧
      toInt64 ((fv.F : Int) - (prev : Int)) ≤ MaxInt56 ∧ SeeksFit fv.F rest

/-- What the head instructions of a field need: a descriptor to read the kind from, and a kind
and an identifier within the immediate range. -/
def HeadFits (d : Decls) (fv : Field) : Prop :=
  fv.Typ ≠ .null ∧ (Ty.kind d fv.Typ : Int) ≤ MaxInt56 ∧ (fv.ID : Int) ≤ MaxInt56

/-- Some instruction of the program with a branch-class opcode has the operand `i`, as `Iv`
decodes it. -/
def isTarget (d : Decls) (p : Program) (i : Nat) : Bool :=
  p.any (fun w => d.OpBranches (Instr.Op w) && decide (Instr.Iv w = (i : Int)))

/-- The emission table for the scalar kinds as the specification words it: the opcode and the
operand of each instruction, in order; `none` for the kinds that are not in the table. -/
def specScalarTable : Tag → Option (List (OpCode × Nat))
  | .T_bool => some [(.OP_size, 1), (.OP_copy, 1)]
  | .T_i8 => some [(.OP_size, 1), (.OP_copy, 1)]
  | .T_i16 => some [(.OP_size, 2), (.OP_copy, 2)]
  | .T_i32 => some [(.OP_size, 4), (.OP_copy, 4)]
  | .T_i64 => some [(.OP_size, 8), (.OP_copy, 8)]
  | .T_double => some [(.OP_size, 8), (.OP_copy, 8)]
  | .T_string => some [(.OP_vstr, 0)]
  | .T_binary => some [(.OP_vstr, 0)]
  | _ => none

/-- The opcodes whose operand is not a position: all but the three jumps that the generator
writes and `OP_if_nil`, which it never writes. -/
def PlainOp (o : OpCode) : Prop :=
  o ≠ .OP_if_nil ∧ o ≠ .OP_if_true ∧ o ≠ .OP_deref ∧ o ≠ .OP_goto

/-- Every word of the list is an instruction whose operand is not a position. -/
def PlainList (d : Decls) (l : List Nat) : Prop :=
  ∀ w ∈ l, ∃ (o : OpCode) (x : Nat), w = word (d.opv o) x ∧ PlainOp o

/-- The word `w` at index `i` of the code `C`, which starts at the position `k`, is a
well-placed instruction: it is made of an opcode of the enumeration other than `OP_if_nil`;
if it is an `OP_if_true` or an `OP_deref` its operand is a position after the word and not
beyond the end of the code; if it is an `OP_goto` its operand is a position of the code before
the word, and the word there is an is-end check. -/
def WordOk (d : Decls) (k : Nat) (C : List Nat) (i : Nat) (w : Nat) : Prop :=
  ∃ (o : OpCode) (x : Nat), w = word (d.opv o) x ∧ o ≠ .OP_if_nil ∧
    (o = .OP_if_true ∨ o = .OP_deref → k + i < x ∧ x ≤ k + C.length) ∧
    (o = .OP_goto → k ≤ x ∧ x < k + i ∧
      ∃ oe, (oe = .OP_map_is_end ∨ oe = .OP_list_is_end) ∧
        C.get? (x - k) = some (word (d.opv oe) 0))

/-- The words of `c`, taken as the words of the code `C` from the index `a` on, are well
placed in `C`. -/
def SegAt (d : Decls) (k : Nat) (C : List Nat) (a : Nat) (c : List Nat) : Prop :=
  ∀ i w, c.get? i = some w → WordOk d k C (a + i) w

/-- Every word of the code `c`, which starts at the position `k`, is well placed in it. -/
def JumpsIn (d : Decls) (k : Nat) (c : List Nat) : Prop := SegAt d k c 0 c

/-- The signed number that a 56-bit operand field stands for. -/
def sext56 (x : Nat) : Int := if x < 2 ^ 55 then (x : Int) else (x : Int) - 2 ^ 56

/-- The part of the span of a struct that belongs to the field at index `i`, as the
specification words it: the first field has the three head instructions, a later one has a
seek by the difference of its offset to the offset of the field before it as well; then comes
the code of the field. -/
def specFieldSpan (d : Decls) (fvs : List Field) (cs : List (List Nat)) (i : Nat) : List Nat :=
  (if i = 0 then
    [word (d.opv .OP_size) 3, word (d.opv .OP_byte) (Ty.kind d (fvs.getD i ⟨0, 0, .null⟩).Typ),
      word (d.opv .OP_word) (fvs.getD i ⟨0, 0, .null⟩).ID]
  else
    [word (d.opv .OP_size) 3,
      word (d.opv .OP_seek) (imm56 (toInt64 (((fvs.getD i ⟨0, 0, .null⟩).F : Int) -
        ((fvs.getD (i - 1) ⟨0, 0, .null⟩).F : Int)))),
      word (d.opv .OP_byte) (Ty.kind d (fvs.getD i ⟨0, 0, .null⟩).Typ),
      word (d.opv .OP_word) (fvs.getD i ⟨0, 0, .null⟩).ID]) ++ cs.getD i []

/-- The span of a struct as the specification words it: the parts of the fields in order,
then the STOP marker. -/
def specStructSpan (d : Decls) (fvs : List Field) (cs : List (List Nat)) : List Nat :=
  ((List.range fvs.length).map (specFieldSpan d fvs cs)).flatten ++ [word (d.opv .OP_byte) 0]

/-! ## Instruction words: encoding and decoding -/

theorem word_Op (op : Fin 256) (x : Nat) : Instr.Op (word op x) = op := by
  apply Fin.ext
  have h := op.isLt
  simp only [Instr.Op, word]
  omega

theorem word_operand (op : Fin 256) (x : Nat) : Instr.operand (word op x) = x := by
  have h := op.isLt
  simp only [Instr.operand, word, Nat.shiftRight_eq_div_pow]
  omega

theorem word_Vt (op : Fin 256) (x : Nat) : Instr.Vt (word op x) = x := by
  have h := op.isLt
  simp only [Instr.Vt, gettype, word, Nat.shiftRight_eq_div_pow]
  omega

theorem tdiv_of_nonneg (a : Int) (h : 0 ≤ a) : Int.tdiv a 256 = a / 256 :=
  Int.tdiv_eq_ediv h (by norm_num)

theorem tdiv_of_neg (a : Int) (h : a < 0) : Int.tdiv a 256 = -((-a) / 256) := by
  have h1 := Int.neg_tdiv (-a) 256
  rw [neg_neg] at h1
  rw [h1, Int.tdiv_eq_ediv (by omega) (by norm_num)]

/-- A word whose operand field is below `2 ^ 55` decodes to that operand. -/
theorem word_Iv (op : Fin 256) (x : Nat) (hx : x < 2 ^ 55) : Instr.Iv (word op x) = (x : Int) := by
  have h := op.isLt
  have h1 : toInt64 ((word op x : Nat) : Int) = 256 * (x : Int) + (op.val : Int) := by
    simp only [toInt64, word]
    push_cast
    omega
  rw [Instr.Iv, h1, tdiv_of_nonneg _ (by omega)]
  omega

/-- A word whose operand field has its top bit set decodes, with a non-zero opcode, to one more
than the negative immediate it stands for, and with opcode zero to that immediate. -/
theorem word_Iv_neg (op : Fin 256) (x : Nat) (hx : 2 ^ 55 ≤ x) (hx2 : x < 2 ^ 56) :
    Instr.Iv (word op x) = if op.val = 0 then (x : Int) - 2 ^ 56 else (x : Int) - 2 ^ 56 + 1 := by
  have h := op.isLt
  have h1 : toInt64 ((word op x : Nat) : Int) = 256 * ((x : Int) - 2 ^ 56) + (op.val : Int) := by
    simp only [toInt64, word]
    push_cast
    omega
  rw [Instr.Iv, h1, tdiv_of_neg _ (by omega)]
  split <;> omega

theorem mkiv64_ok (iv : Int) (h1 : MinInt56 ≤ iv) (h2 : iv ≤ MaxInt56) :
    mkiv64 iv = .ok (iv % 2 ^ 64).toNat := by
  unfold mkiv64
  rw [if_neg]
  omega

theorem mkiv64_error (iv : Int) (h : iv < MinInt56 ∨ iv > MaxInt56) :
    mkiv64 iv = .error (.str "value exceeds 56-bit integer range") := by
  unfold mkiv64
  rw [if_pos h]

theorem mkins_imm (op : Fin 256) (iv : Int) (h1 : MinInt56 ≤ iv) (h2 : iv ≤ MaxInt56) :
    mkins op iv 0 = .ok (word op (imm56 iv)) := by
  have h := op.isLt
  have e1 : ((iv % 2 ^ 64).toNat <<< 8) % 2 ^ 64 = 2 ^ 8 * imm56 iv := by
    simp only [MinInt56, MaxInt56] at h1 h2
    simp only [Nat.shiftLeft_eq, imm56]
    omega
  have e2 : mktype 0 = .ok 0 := by simp [mktype]
  simp only [mkins, mkiv64_ok iv h1 h2, e2, e1, word]
  simp only [Nat.zero_shiftLeft, Nat.zero_mod, Nat.or_zero]
  rw [← Nat.mul_add_lt_is_or (by simp)]

theorem mkins_type (op : Fin 256) (S : Nat) (hS : S ≤ MaxUint56) :
    mkins op 0 S = .ok (word op S) := by
  have h := op.isLt
  have e0 : mkiv64 0 = .ok 0 := by decide
  have e2 : mktype S = .ok S := by
    unfold mktype
    rw [if_neg (Nat.not_lt.mpr hS)]
  have e1 : (S <<< 8) % 2 ^ 64 = 2 ^ 8 * S := by
    simp only [MaxUint56] at hS
    simp only [Nat.shiftLeft_eq]
    omega
  simp only [mkins, e0, e2, e1, word]
  simp only [Nat.zero_shiftLeft, Nat.zero_mod, Nat.zero_or]
  rw [← Nat.mul_add_lt_is_or (by simp)]

theorem imm56_ofNat (n : Nat) (h : n < 2 ^ 56) : imm56 (n : Int) = n := by
  simp only [imm56]
  omega

theorem pinned_eq (w pc : Nat) (h : pc ≤ MaxUint56) :
    (w &&& 0xff) ||| ((pc <<< 8) % 2 ^ 64) = word (Instr.Op w) pc := by
  have h1 : w &&& 0xff = w % 2 ^ 8 := Nat.and_pow_two_sub_one_eq_mod w 8
  have h2 : pc * 2 ^ 8 % 2 ^ 64 = 2 ^ 8 * pc := by
    simp only [MaxUint56] at h
    omega
  rw [h1, Nat.shiftLeft_eq, h2, Nat.lor_comm, ← Nat.mul_add_lt_is_or (Nat.mod_lt _ (by norm_num))]
  simp [word, Instr.Op]

/-- For every opcode and every immediate in the 56-bit range, `mkins` makes a word whose opcode
decodes exactly, and whose immediate decodes exactly unless the immediate is negative and the
opcode is not zero: then `Iv` gives the immediate plus one. -/
theorem mkins_decode (op : Fin 256) (iv : Int) (h1 : MinInt56 ≤ iv) (h2 : iv ≤ MaxInt56) :
    ∃ w, mkins op iv 0 = .ok w ∧ Instr.Op w = op ∧
      Instr.Iv w = if iv < 0 ∧ op.val ≠ 0 then iv + 1 else iv := by
  refine ⟨_, mkins_imm op iv h1 h2, word_Op _ _, ?_⟩
  simp only [MinInt56, MaxInt56] at h1 h2
  by_cases hneg : iv < 0
  · rw [word_Iv_neg _ _ (by simp only [imm56]; omega) (by simp only [imm56]; omega)]
    have e : ((imm56 iv : Nat) : Int) = iv + 2 ^ 56 := by
      simp only [imm56]
      omega
    by_cases hop : op.val = 0
    · simp [hop, e]
    · simp [hop, hneg, e]
  · rw [word_Iv _ _ (by simp only [imm56]; omega)]
    have e : ((imm56 iv : Nat) : Int) = iv := by
      simp only [imm56]
      omega
    simp [hneg, e]

/-- C1, at the input `op = 1`, `iv = -1`: `mkins` succeeds and the opcode of the word decodes
to `1`, but `Iv` decodes the immediate to `0`, not to `-1`. -/
theorem C1_negative_immediate_decodes_wrong :
    mkins 1 (-1) 0 = .ok 18446744073709551361 ∧
      Instr.Op 18446744073709551361 = 1 ∧ Instr.Iv 18446744073709551361 = 0 := by
  decide

/-- The sample numbering of the opcodes gives different opcodes different numbers. -/
theorem sampleOpv_injective : Function.Injective (sampleDecls 10).opv := by
  decide

/-! ## Operand range rejection -/

/-- C2: `mkiv64` fails exactly on the values outside `[MinInt56, MaxInt56]` and `mktype`
exactly on the identities above `MaxUint56`; `Program.i64` with the immediate one unit outside
the range panics with the range message and leaves the program as it was, whatever the opcode
and the program; with the immediate `MaxInt56` or `MinInt56` the operand is accepted and the
word goes to `Program.ins`, which appends it (unless the program is full). -/
theorem C2_operand_range_rejection :
    (∀ v : Int, (∃ e, mkiv64 v = .error e) ↔ (v < MinInt56 ∨ v > MaxInt56)) ∧
    (∀ S : Nat, (∃ e, mktype S = .error e) ↔ S > MaxUint56) ∧
    (∀ (op : Fin 256) (s : CState),
      Gen.onProg (fun p => Program.i64 p op (MaxInt56 + 1)) s
          = .panic (.str "value exceeds 56-bit integer range") s ∧
      Gen.onProg (fun p => Program.i64 p op (MinInt56 - 1)) s
          = .panic (.str "value exceeds 56-bit integer range") s) ∧
    (∀ (op : Fin 256) (s : CState),
      Gen.onProg (fun p => Program.i64 p op MaxInt56) s
          = (if s.prog.length ≥ MaxUint56 then .panic (.str "program too long") s
             else .ok () { s with prog := s.prog ++ [word op (2 ^ 55 - 1)] }) ∧
      Gen.onProg (fun p => Program.i64 p op MinInt56) s
          = (if s.prog.length ≥ MaxUint56 then .panic (.str "program too long") s
             else .ok () { s with prog := s.prog ++ [word op (2 ^ 55)] })) := by
  refine ⟨?_, ?_, ?_, ?_⟩
  · intro v
    constructor
    · rintro ⟨e, he⟩
      by_contra hc
      rw [mkiv64, if_neg hc] at he
      cases he
    · intro h
      exact ⟨_, mkiv64_error v h⟩
  · intro S
    constructor
    · rintro ⟨e, he⟩
      by_contra hc
      rw [mktype, if_neg hc] at he
      cases he
    · intro h
      exact ⟨_, by rw [mktype, if_pos h]⟩
  · intro op s
    have e1 : mkiv64 (MaxInt56 + 1) = .error (.str "value exceeds 56-bit integer range") := by
      decide
    have e2 : mkiv64 (MinInt56 - 1) = .error (.str "value exceeds 56-bit integer range") := by
      decide
    simp [Gen.onProg, Program.i64, mkins, e1, e2]
  · intro op s
    have e1 : mkins op MaxInt56 0 = .ok (word op (2 ^ 55 - 1)) := by
      rw [mkins_imm op MaxInt56 (by decide) (by decide)]
      rfl
    have e2 : mkins op MinInt56 0 = .ok (word op (2 ^ 55)) := by
      rw [mkins_imm op MinInt56 (by decide) (by decide)]
      rfl
    simp only [Gen.onProg, Program.i64, e1, e2, Program.ins]
    by_cases h : s.prog.length ≥ MaxUint56
    · simp only [if_pos h, and_self]
    · simp only [if_neg h, and_self]

/-! ## Running generator code -/

theorem Gen.bind_eq {α β : Type} (m : Gen α) (k : α → Gen β) : (m >>= k) = Gen.andThen m k := rfl

theorem Gen.pure_eq {α : Type} (a : α) : (pure a : Gen α) = Gen.ret a := rfl

theorem Gen.andThen_ok {α β : Type} (m : Gen α) (k : α → Gen β) (s s' : CState) (b : β) :
    Gen.andThen m k s = .ok b s' ↔ ∃ a s1, m s = .ok a s1 ∧ k a s1 = .ok b s' := by
  unfold Gen.andThen
  cases h : m s with
  | ok a s1 =>
    simp only [Outcome.ok.injEq]
    exact ⟨fun hk => ⟨a, s1, ⟨rfl, rfl⟩, hk⟩, fun ⟨_, _, ⟨ha, hs⟩, hk⟩ => by
      subst ha; subst hs; exact hk⟩
  | panic v1 s1 => simp
  | stuck => simp

theorem Gen.andThen_panic {α β : Type} (m : Gen α) (k : α → Gen β) (s s' : CState)
    (v : PanicVal) :
    Gen.andThen m k s = .panic v s' ↔
      m s = .panic v s' ∨ ∃ a s1, m s = .ok a s1 ∧ k a s1 = .panic v s' := by
  unfold Gen.andThen
  cases h : m s with
  | ok a s1 =>
    simp only [Outcome.ok.injEq, reduceCtorEq, false_or]
    exact ⟨fun hk => ⟨a, s1, ⟨rfl, rfl⟩, hk⟩, fun ⟨_, _, ⟨ha, hs⟩, hk⟩ => by
      subst ha; subst hs; exact hk⟩
  | panic v1 s1 => simp
  | stuck => simp

theorem Gen.andThen_stuck {α β : Type} (m : Gen α) (k : α → Gen β) (s : CState) :
    Gen.andThen m k s = .stuck ↔ m s = .stuck ∨ ∃ a s1, m s = .ok a s1 ∧ k a s1 = .stuck := by
  unfold Gen.andThen
  cases h : m s with
  | ok a s1 =>
    simp only [Outcome.ok.injEq, reduceCtorEq, false_or]
    exact ⟨fun hk => ⟨a, s1, ⟨rfl, rfl⟩, hk⟩, fun ⟨_, _, ⟨ha, hs⟩, hk⟩ => by
      subst ha; subst hs; exact hk⟩
  | panic v1 s1 => simp
  | stuck => simp

/-! ## The statements of the generator, one at a time -/

theorem Gen.onProg_ok (f : Program → Except PanicVal Program) (s s' : CState) (u : Unit) :
    Gen.onProg f s = .ok u s' ↔ ∃ p, f s.prog = .ok p ∧ s' = { prog := p, trk := s.trk } := by
  unfold Gen.onProg
  cases h : f s.prog with
  | ok p => simp [eq_comm]
  | error v => simp

theorem Program.ins_ok (p : Program) (w : Nat) (q : Program) :
    Program.ins p w = .ok q ↔ p.length < MaxUint56 ∧ q = p ++ [w] := by
  unfold Program.ins
  by_cases h : p.length ≥ MaxUint56
  · simp [h]
  · simp [h, eq_comm]
    omega

theorem Gen.i64_ok (d : Decls) (op : OpCode) (iv : Int) (s s' : CState) (u : Unit) :
    Gen.i64 d op iv s = .ok u s' ↔
      MinInt56 ≤ iv ∧ iv ≤ MaxInt56 ∧ s.prog.length < MaxUint56 ∧
        s' = { prog := s.prog ++ [word (d.opv op) (imm56 iv)], trk := s.trk } := by
  unfold Gen.i64
  rw [Gen.onProg_ok]
  by_cases h : MinInt56 ≤ iv ∧ iv ≤ MaxInt56
  · simp only [Program.i64, mkins_imm _ iv h.1 h.2, Program.ins_ok]
    constructor
    · rintro ⟨p, ⟨h1, rfl⟩, rfl⟩
      exact ⟨h.1, h.2, h1, rfl⟩
    · rintro ⟨_, _, h1, rfl⟩
      exact ⟨_, ⟨h1, rfl⟩, rfl⟩
  · have h' : iv < MinInt56 ∨ iv > MaxInt56 := by omega
    simp only [Program.i64, mkins, mkiv64_error iv h']
    constructor
    · rintro ⟨p, hp, _⟩
      cases hp
    · rintro ⟨h1, h2, _⟩
      exact absurd ⟨h1, h2⟩ h

/-- The statement `p.i64(op, n)` for an immediate that is not negative. -/
theorem Gen.i64_nat_ok (d : Decls) (op : OpCode) (n : Nat) (s s' : CState) (u : Unit) :
    Gen.i64 d op (n : Int) s = .ok u s' ↔
      n < 2 ^ 55 ∧ s.prog.length < MaxUint56 ∧
        s' = { prog := s.prog ++ [word (d.opv op) n], trk := s.trk } := by
  rw [Gen.i64_ok]
  constructor
  · rintro ⟨_, h2, h3, rfl⟩
    have hn : n < 2 ^ 55 := by
      simp only [MaxInt56] at h2
      omega
    exact ⟨hn, h3, by rw [imm56_ofNat n (by omega)]⟩
  · rintro ⟨h1, h3, rfl⟩
    refine ⟨?_, ?_, h3, by rw [imm56_ofNat n (by omega)]⟩
    · simp only [MinInt56]
      omega
    · simp only [MaxInt56]
      omega

theorem Gen.add_ok (d : Decls) (op : OpCode) (s s' : CState) (u : Unit) :
    Gen.add d op s = .ok u s' ↔
      s.prog.length < MaxUint56 ∧
        s' = { prog := s.prog ++ [word (d.opv op) 0], trk := s.trk } := by
  have e : mkins (d.opv op) 0 0 = .ok (word (d.opv op) 0) := mkins_type _ 0 (by decide)
  unfold Gen.add
  rw [Gen.onProg_ok]
  simp only [Program.add, e, Program.ins_ok]
  constructor
  · rintro ⟨p, ⟨h1, rfl⟩, rfl⟩
    exact ⟨h1, rfl⟩
  · rintro ⟨h1, rfl⟩
    exact ⟨_, ⟨h1, rfl⟩, rfl⟩

theorem Gen.rtt_ok (d : Decls) (op : OpCode) (S : Nat) (s s' : CState) (u : Unit) :
    Gen.rtt d op S s = .ok u s' ↔
      S ≤ MaxUint56 ∧ s.prog.length < MaxUint56 ∧
        s' = { prog := s.prog ++ [word (d.opv op) S], trk := s.trk } := by
  unfold Gen.rtt
  rw [Gen.onProg_ok]
  by_cases h : S ≤ MaxUint56
  · simp only [Program.rtt, mkins_type _ S h, Program.ins_ok]
    constructor
    · rintro ⟨p, ⟨h1, rfl⟩, rfl⟩
      exact ⟨h, h1, rfl⟩
    · rintro ⟨_, h1, rfl⟩
      exact ⟨_, ⟨h1, rfl⟩, rfl⟩
  · have e0 : mkiv64 0 = .ok 0 := by decide
    have e1 : mktype S = .error (.str "pointer exceeds 56-bit address space") := by
      rw [mktype, if_pos (by omega)]
    simp only [Program.rtt, mkins, e0, e1]
    constructor
    · rintro ⟨p, hp, _⟩
      cases hp
    · rintro ⟨h1, _⟩
      exact absurd h1 h

theorem Gen.tag_ok (d : Decls) (n : Nat) (s s' : CState) (u : Unit) :
    Gen.tag d n s = .ok u s' ↔ n < d.MaxStack ∧ s' = s := by
  unfold Gen.tag Program.tag
  by_cases h : n ≥ d.MaxStack
  · simp [h]
  · simp [h, eq_comm]
    omega

theorem Gen.pin_ok (i : Nat) (s s' : CState) (u : Unit) :
    Gen.pin i s = .ok u s' ↔ ∃ w, s.prog.get? i = some w ∧
      s' = { prog := s.prog.set i ((w &&& 0xff) ||| ((s.prog.length <<< 8) % 2 ^ 64)),
             trk := s.trk } := by
  unfold Gen.pin
  rw [Gen.onProg_ok]
  unfold Program.pin
  cases h : s.prog.get? i with
  | none => simp
  | some w => simp [Program.pc, eq_comm]

theorem Gen.pc_ok (s s' : CState) (i : Nat) :
    Gen.pc s = .ok i s' ↔ i = s.prog.length ∧ s' = s := by
  simp [Gen.pc, Program.pc, eq_comm]

theorem Gen.kindOf_ok (d : Decls) (vt : Ty) (s s' : CState) (k : Int) :
    Gen.kindOf d vt s = .ok k s' ↔ vt ≠ .null ∧ k = (Ty.kind d vt : Int) ∧ s' = s := by
  cases vt with
  | null => simp [Gen.kindOf, Gen.raise]
  | node T K V S => simp [Gen.kindOf, Gen.ret, Ty.kind, eq_comm]

theorem Gen.marked_ok (S : Nat) (s s' : CState) (b : Bool) :
    Gen.marked S s = .ok b s' ↔ b = decide (S ∈ s.trk) ∧ s' = s := by
  simp [Gen.marked, eq_comm]

theorem Gen.mark_ok (S : Nat) (s s' : CState) (u : Unit) :
    Gen.mark S s = .ok u s' ↔ s' = { prog := s.prog, trk := insert S s.trk } := by
  simp [Gen.mark, eq_comm]

theorem Gen.unmark_ok (S : Nat) (s s' : CState) (u : Unit) :
    Gen.unmark S s = .ok u s' ↔ s' = { prog := s.prog, trk := s.trk.erase S } := by
  simp [Gen.unmark, eq_comm]

theorem Gen.ret_ok {α : Type} (a b : α) (s s' : CState) :
    Gen.ret a s = .ok b s' ↔ b = a ∧ s' = s := by
  simp [Gen.ret, eq_comm]

/-- The word that `pin` writes over a word `word op x` of a program within capacity. -/
theorem pinned_word (op : Fin 256) (x pc : Nat) (h : pc ≤ MaxUint56) :
    ((word op x) &&& 0xff) ||| ((pc <<< 8) % 2 ^ 64) = word op pc := by
  rw [pinned_eq _ _ h, word_Op]

/-! ## The shape of the code of a pointer, of a set or list, and of a map -/

theorem get?_app_add {α : Type} (p l : List α) (n : Nat) :
    (p ++ l).get? (p.length + n) = l.get? n := by
  induction p with
  | nil => simp
  | cons x p ih => simpa [Nat.succ_add] using ih

theorem set_app_add {α : Type} (p l : List α) (n : Nat) (b : α) :
    (p ++ l).set (p.length + n) b = p ++ l.set n b := by
  induction p with
  | nil => simp
  | cons x p ih => simp [Nat.succ_add]

theorem imm56_of_le (n : Nat) (h : (n : Int) ≤ MaxInt56) : imm56 (n : Int) = n := by
  apply imm56_ofNat
  simp only [MaxInt56] at h
  omega

theorem imm56_lits : imm56 0 = 0 ∧ imm56 1 = 1 ∧ imm56 2 = 2 ∧ imm56 3 = 3 ∧ imm56 4 = 4 ∧
    imm56 5 = 5 ∧ imm56 6 = 6 ∧ imm56 8 = 8 := by decide

theorem compileSetList_shape (d : Decls) (self : Nat → Ty → Gen Unit) (hg : Grows self)
    (sp : Nat) (et : Ty) (s s' : CState) (u : Unit)
    (h : compileSetList d self sp et s = .ok u s') :
    ∃ c, sp < d.MaxStack ∧ et ≠ .null ∧
      self (sp + 1) et { prog := s.prog ++ listHead d (Ty.kind d et), trk := s.trk }
          = .ok () { prog := s.prog ++ listHead d (Ty.kind d et) ++ c,
                     trk := s.trk } ∧
      s' = { prog := s.prog ++ listCode d s.prog.length (Ty.kind d et) c, trk := s.trk } ∧
      s.prog.length + 8 + c.length ≤ MaxUint56 ∧ s.prog.length + 3 < 2 ^ 55 := by
  simp only [compileSetList, Gen.bind_eq, Gen.andThen_ok, Gen.pc_ok, Gen.add_ok, Gen.pin_ok,
    Gen.i64_ok, Gen.tag_ok, Gen.kindOf_ok] at h
  obtain ⟨_, s1, ⟨hsp, rfl⟩, _, s2, ⟨-, -, hl1, rfl⟩, ek, s3, ⟨hne, rfl, rfl⟩,
    _, s4, ⟨-, hek, hl2, rfl⟩, _, s5, ⟨hl3, rfl⟩, i, s6, ⟨rfl, rfl⟩, _, s7, ⟨hl4, rfl⟩,
    j, s8, ⟨rfl, rfl⟩, _, s9, ⟨hl5, rfl⟩, _, s10, hself, _, s11, ⟨hl6, rfl⟩,
    _, s12, ⟨-, hgoto, hl7, rfl⟩, _, s13, ⟨w, hw, rfl⟩, hl8, rfl⟩ := h
  obtain ⟨htrk, hcap, c, hc⟩ := hg _ _ _ _ _ hself
  obtain ⟨p10, t10⟩ := s10
  dsimp only at htrk hc hcap hw hself hl8 hgoto ⊢
  subst htrk hc
  simp only [List.length_append, List.length_cons, List.length_nil, List.length_set] at hl8 hgoto
  have hgoto' : imm56 ((s1.prog.length + (0 + 1 + 1 + 1) : Nat) : Int) = s1.prog.length + 3 :=
    imm56_of_le _ hgoto
  simp only [imm56_lits, imm56_of_le _ hek, hgoto', List.append_assoc,
    List.singleton_append, List.length_append, List.length_cons, List.length_nil,
    List.cons_append, List.nil_append] at hw hself ⊢
  rw [get?_app_add] at hw
  simp only [zero_add, Nat.reduceAdd, List.get?_cons_succ, List.get?_cons_zero,
    Option.some.injEq] at hw
  subst hw
  clear hl1 hl2 hl3 hl4 hl5 hl6 hl7
  rw [set_app_add, pinned_word _ _ _ (by omega)]
  have hL : s1.prog.length + 3 < 2 ^ 55 := by
    simp only [MaxInt56] at hgoto
    omega
  refine ⟨c, hsp, hne, ?_, ?_, by omega, hL⟩
  · simpa [listHead] using hself
  · simp only [listCode, zero_add, Nat.reduceAdd, List.set_cons_succ, List.set_cons_zero,
      List.append_assoc, List.cons_append, List.nil_append, List.length_cons,
      List.length_append, List.length_nil, CState.mk.injEq, and_true, List.append_cancel_left_eq,
      List.cons.injEq, true_and]
    congr 1
    omega

theorem compileMap_shape (d : Decls) (self : Nat → Ty → Gen Unit) (hg : Grows self)
    (sp : Nat) (K V : Ty) (S : Nat) (s s' : CState) (u : Unit)
    (h : compileMap d self sp K V S s = .ok u s') :
    ∃ cK cV, sp < d.MaxStack ∧ K ≠ .null ∧ V ≠ .null ∧ S ≤ MaxUint56 ∧
      self (sp + 1) K
          { prog := s.prog ++ mapHead d (Ty.kind d K) (Ty.kind d V) S, trk := s.trk }
        = .ok () { prog := s.prog ++ mapHead d (Ty.kind d K) (Ty.kind d V) S ++ cK,
                   trk := s.trk } ∧
      self (sp + 1) V
          { prog := s.prog ++ mapHead d (Ty.kind d K) (Ty.kind d V) S ++ cK ++
              [word (d.opv .OP_map_value) 0], trk := s.trk }
        = .ok () { prog := s.prog ++ mapHead d (Ty.kind d K) (Ty.kind d V) S ++ cK ++
              [word (d.opv .OP_map_value) 0] ++ cV, trk := s.trk } ∧
      s' = { prog := s.prog ++ mapCode d s.prog.length (Ty.kind d K) (Ty.kind d V) S cK cV,
             trk := s.trk } ∧
      s.prog.length + 10 + cK.length + cV.length ≤ MaxUint56 ∧
      s.prog.length + 4 < 2 ^ 55 := by
  simp only [compileMap, Gen.bind_eq, Gen.andThen_ok, Gen.pc_ok, Gen.add_ok, Gen.pin_ok,
    Gen.i64_ok, Gen.tag_ok, Gen.kindOf_ok, Gen.rtt_ok] at h
  obtain ⟨_, s1, ⟨hsp, rfl⟩, _, s2, ⟨-, -, hl1, rfl⟩, kt, s3, ⟨hneK, rfl, rfl⟩,
    _, s4, ⟨-, hkt, hl2, rfl⟩, vk, s5, ⟨hneV, rfl, rfl⟩, _, s6, ⟨-, hvk, hl3, rfl⟩,
    _, s7, ⟨hS, hl4, rfl⟩, i, s8, ⟨rfl, rfl⟩, _, s9, ⟨hl5, rfl⟩,
    j, s10, ⟨rfl, rfl⟩, _, s11, ⟨hl6, rfl⟩, _, s12, ⟨hl7, rfl⟩, _, s13, hK,
    _, s14, ⟨hl8, rfl⟩, _, s15, hV,
    _, s16, ⟨-, hgoto, hl9, rfl⟩, _, s17, ⟨w, hw, rfl⟩, hl10, rfl⟩ := h
  obtain ⟨htK, -, cK, hcK⟩ := hg _ _ _ _ _ hK
  obtain ⟨p13, t13⟩ := s13
  dsimp only at htK hcK hK hV hw hl10 hgoto ⊢
  subst htK hcK
  obtain ⟨htV, hcap, cV, hcV⟩ := hg _ _ _ _ _ hV
  obtain ⟨p15, t15⟩ := s15
  dsimp only at htV hcV hcap hK hV hw hl10 hgoto ⊢
  subst htV hcV
  clear hl1 hl2 hl3 hl4 hl5 hl6 hl7 hl8 hl9
  simp only [List.length_append, List.length_cons, List.length_nil, List.length_set]
    at hl10 hgoto hcap
  have hgoto' : imm56 ((s1.prog.length + (0 + 1 + 1 + 1 + 1) : Nat) : Int)
      = s1.prog.length + 4 := imm56_of_le _ hgoto
  simp only [imm56_lits, imm56_of_le _ hkt, imm56_of_le _ hvk, hgoto', List.append_assoc,
    List.singleton_append, List.length_append, List.length_cons, List.length_nil,
    List.cons_append, List.nil_append] at hw hK hV ⊢
  rw [get?_app_add] at hw
  simp only [zero_add, Nat.reduceAdd, List.get?_cons_succ, List.get?_cons_zero,
    Option.some.injEq] at hw
  subst hw
  rw [set_app_add, pinned_word _ _ _ (by omega)]
  have hL : s1.prog.length + 4 < 2 ^ 55 := by
    simp only [MaxInt56] at hgoto
    omega
  refine ⟨cK, cV, hsp, hneK, hneV, hS, ?_, ?_, ?_, by omega, hL⟩
  · simpa [mapHead] using hK
  · simpa [mapHead] using hV
  · simp only [mapCode, zero_add, Nat.reduceAdd, List.set_cons_succ, List.set_cons_zero,
      List.append_assoc, List.cons_append, List.nil_append, List.length_cons,
      List.length_append, List.length_nil, CState.mk.injEq, and_true, List.append_cancel_left_eq,
      List.cons.injEq, true_and]
    congr 1
    omega
theorem compilePtr_shape (d : Decls) (self : Nat → Ty → Gen Unit) (hg : Grows self)
    (sp : Nat) (et : Ty) (s s' : CState) (u : Unit)
    (h : compilePtr d self sp et s = .ok u s') :
    ∃ c, self sp et { prog := s.prog ++ [word (d.opv .OP_deref) 0], trk := s.trk }
          = .ok () { prog := s.prog ++ [word (d.opv .OP_deref) 0] ++ c, trk := s.trk } ∧
      s' = { prog := s.prog ++ ptrCode d s.prog.length c, trk := s.trk } ∧
      s.prog.length + 1 + c.length ≤ MaxUint56 := by
  simp only [compilePtr, Gen.bind_eq, Gen.andThen_ok, Gen.pc_ok, Gen.add_ok, Gen.pin_ok] at h
  obtain ⟨i, s1, ⟨rfl, rfl⟩, _, s2, ⟨hlen, rfl⟩, _, s3, hself, w, hw, rfl⟩ := h
  obtain ⟨htrk, hcap, c, hc⟩ := hg _ _ _ _ _ hself
  obtain ⟨p3, t3⟩ := s3
  simp only at htrk hc hcap hw
  subst htrk hc
  have hcap' : s1.prog.length + 1 + c.length ≤ MaxUint56 := by
    simp only [List.length_append, List.length_cons, List.length_nil] at hcap
    omega
  refine ⟨c, hself, ?_, hcap'⟩
  have hw2 := get?_app_add s1.prog (word (d.opv .OP_deref) 0 :: c) 0
  have hs2 := set_app_add s1.prog (word (d.opv .OP_deref) 0 :: c) 0
  simp only [Nat.add_zero] at hw2 hs2
  rw [List.append_assoc, List.singleton_append, hw2] at hw
  cases hw
  rw [pinned_word _ _ _ hcap]
  simp only [List.append_assoc, List.singleton_append, hs2, ptrCode, List.length_append,
    List.length_cons, CState.mk.injEq, and_true, List.set_cons_zero]
  congr 3
  omega
/-! ## The shape of the code of a struct -/

theorem compileFields_shape (d : Decls) (self : Nat → Ty → Gen Unit) (hg : Grows self)
    (sp : Nat) : ∀ (fvs : List Field) (prev : Nat) (s s' : CState) (u : Unit),
    compileFields d self sp prev fvs s = .ok u s' →
    ∃ cs, FieldRuns d self sp s.trk s.prog prev fvs cs ∧
      s' = { prog := s.prog ++ fieldsCode d prev fvs cs, trk := s.trk } := by
  intro fvs
  induction fvs with
  | nil =>
    intro prev s s' u h
    simp only [compileFields, Gen.ret_ok] at h
    obtain ⟨-, rfl⟩ := h
    exact ⟨[], trivial, by simp [fieldsCode]⟩
  | cons fv rest ih =>
    intro prev s s' u h
    simp only [compileFields, Gen.bind_eq, Gen.andThen_ok, Gen.i64_ok, Gen.kindOf_ok] at h
    obtain ⟨_, s1, ⟨-, -, -, rfl⟩, _, s2, ⟨-, -, -, rfl⟩, k, s3, ⟨hne, rfl, rfl⟩,
      _, s4, ⟨-, hk, -, rfl⟩, _, s5, ⟨-, hid, -, rfl⟩, _, s6, hself, hrest⟩ := h
    obtain ⟨ht, -, c, hc⟩ := hg _ _ _ _ _ hself
    obtain ⟨p6, t6⟩ := s6
    dsimp only at ht hc hself hrest
    subst ht hc
    obtain ⟨cs, hruns, rfl⟩ := ih _ _ _ _ hrest
    dsimp only at hruns ⊢
    simp only [imm56_lits, imm56_of_le _ hk, imm56_of_le _ hid, List.append_assoc,
      List.singleton_append, List.cons_append, List.nil_append] at hself hruns ⊢
    refine ⟨c :: cs, ⟨?_, ?_⟩, ?_⟩
    · simpa [fieldHead] using hself
    · simpa [fieldHead] using hruns
    · simp [fieldsCode, fieldHead]

theorem compileStruct_shape (d : Decls) (rf : Resolver) (self : Nat → Ty → Gen Unit)
    (hg : Grows self) (sp S : Nat) (s s' : CState) (u : Unit)
    (h : compileStruct d rf self sp S s = .ok u s') :
    ∃ fvs cs, rf S = .ok fvs ∧ StructRuns d self sp s.trk s.prog fvs cs ∧
      s' = { prog := s.prog ++ structCode d fvs cs, trk := s.trk } ∧
      s'.prog.length ≤ MaxUint56 ∧ (fvs ≠ [] → sp < d.MaxStack) := by
  unfold compileStruct at h
  cases hrf : rf S with
  | error e =>
    rw [hrf] at h
    cases h
  | ok fvs =>
    rw [hrf] at h
    cases fvs with
    | nil =>
      simp only [Gen.i64_ok] at h
      obtain ⟨-, -, hl, rfl⟩ := h
      refine ⟨[], [], rfl, trivial, by simp [structCode, imm56_lits], ?_, by simp⟩
      simp only [List.length_append, List.length_cons, List.length_nil]
      omega
    | cons f0 rest =>
      simp only [Gen.bind_eq, Gen.andThen_ok, Gen.i64_ok, Gen.kindOf_ok, Gen.tag_ok] at h
      obtain ⟨_, s1, ⟨hsp, rfl⟩, _, s2, ⟨-, -, -, rfl⟩, k, s3, ⟨hne, rfl, rfl⟩,
        _, s4, ⟨-, hk, -, rfl⟩, _, s5, ⟨-, hid, -, rfl⟩, _, s6, hself, _, s7, hrest,
        -, -, hl, rfl⟩ := h
      obtain ⟨ht, -, c, hc⟩ := hg _ _ _ _ _ hself
      obtain ⟨p6, t6⟩ := s6
      dsimp only at ht hc hself hrest
      subst ht hc
      obtain ⟨cs, hruns, rfl⟩ := compileFields_shape d self hg sp _ _ _ _ _ hrest
      dsimp only at hruns hl ⊢
      simp only [imm56_lits, imm56_of_le _ hk, imm56_of_le _ hid, List.append_assoc,
        List.singleton_append, List.cons_append, List.nil_append] at hself hruns ⊢
      refine ⟨f0 :: rest, c :: cs, rfl, ⟨?_, ?_⟩, ?_, ?_, fun _ => hsp⟩
      · simpa [structHead] using hself
      · simpa [structHead] using hruns
      · simp [structCode, structHead]
      · simp only [List.length_append, List.length_cons, List.length_nil] at hl ⊢
        omega
/-! ## One level of `compileOne` -/

/-- The code of a scalar, a string or a binary blob: it is written when there is room for
it, and only then. -/
theorem compileRec_scalar (d : Decls) (rf : Resolver) (self : Nat → Ty → Gen Unit)
    (sp : Nat) (T : Tag) (K V : Ty) (S : Nat) (hT : T.isScalar = true) (s s' : CState)
    (u : Unit) :
    compileRec d rf self sp T K V S s = .ok u s' ↔
      s.prog.length + (scalarCode d T).length ≤ MaxUint56 ∧
        s' = { prog := s.prog ++ scalarCode d T, trk := s.trk } := by
  cases T <;> simp only [Tag.isScalar, Bool.false_eq_true] at hT <;>
    simp only [compileRec, Gen.bind_eq, Gen.andThen_ok, Gen.i64_ok, Gen.add_ok, scalarCode,
      imm56_lits, List.length_cons, List.length_nil] <;>
    constructor <;>
    first
    | (rintro ⟨_, s1, ⟨-, -, h1, rfl⟩, -, -, h2, rfl⟩
       dsimp only at h2 ⊢
       simp only [List.length_append, List.length_cons, List.length_nil] at h2
       exact ⟨by omega, by simp⟩)
    | (rintro ⟨h1, rfl⟩
       exact ⟨(), _, ⟨by decide, by decide, by omega, rfl⟩, by decide, by decide,
        by simp only [List.length_append, List.length_cons, List.length_nil]; omega,
        by simp⟩)
    | (rintro ⟨h1, rfl⟩
       exact ⟨by omega, rfl⟩)

theorem compileOne_succ (d : Decls) (rf : Resolver) (fuel sp : Nat) (T : Tag) (K V : Ty)
    (S : Nat) :
    compileOne d rf (fuel + 1) sp (.node T K V S) =
      if T = .T_pointer then compilePtr d (compileOne d rf fuel) sp V
      else Gen.andThen (Gen.marked S) (fun ok =>
        if !ok then compileSet d rf (compileOne d rf fuel) sp T K V S
        else Gen.rtt d .OP_defer S) := rfl

/-- One level of a run of `compileOne` that returns, by the case it takes. -/
theorem compileOne_cases (d : Decls) (rf : Resolver) (fuel : Nat)
    (hg : Grows (compileOne d rf fuel)) (sp : Nat) (T : Tag) (K V : Ty) (S : Nat)
    (s s' : CState) (u : Unit)
    (h : compileOne d rf (fuel + 1) sp (.node T K V S) s = .ok u s') :
    s'.prog.length ≤ MaxUint56 ∧
    ((T = .T_pointer ∧ ∃ c,
        compileOne d rf fuel sp V { prog := s.prog ++ [word (d.opv .OP_deref) 0], trk := s.trk }
          = .ok () { prog := s.prog ++ [word (d.opv .OP_deref) 0] ++ c, trk := s.trk } ∧
        s' = { prog := s.prog ++ ptrCode d s.prog.length c, trk := s.trk }) ∨
     (T ≠ .T_pointer ∧ S ∈ s.trk ∧ S ≤ MaxUint56 ∧
        s' = { prog := s.prog ++ [word (d.opv .OP_defer) S], trk := s.trk }) ∨
     (T ≠ .T_pointer ∧ S ∉ s.trk ∧ T.isScalar = true ∧
        s' = { prog := s.prog ++ scalarCode d T, trk := s.trk }) ∨
     (T = .T_struct ∧ S ∉ s.trk ∧ ∃ fvs cs, rf S = .ok fvs ∧
        StructRuns d (compileOne d rf fuel) sp (insert S s.trk) s.prog fvs cs ∧
        (fvs ≠ [] → sp < d.MaxStack) ∧
        s' = { prog := s.prog ++ structCode d fvs cs, trk := s.trk }) ∨
     (T = .T_map ∧ S ∉ s.trk ∧ ∃ cK cV, sp < d.MaxStack ∧ K ≠ .null ∧ V ≠ .null ∧
        S ≤ MaxUint56 ∧ s.prog.length + 4 < 2 ^ 55 ∧
        compileOne d rf fuel (sp + 1) K
            { prog := s.prog ++ mapHead d (Ty.kind d K) (Ty.kind d V) S,
              trk := insert S s.trk }
          = .ok () { prog := s.prog ++ mapHead d (Ty.kind d K) (Ty.kind d V) S ++ cK,
                     trk := insert S s.trk } ∧
        compileOne d rf fuel (sp + 1) V
            { prog := s.prog ++ mapHead d (Ty.kind d K) (Ty.kind d V) S ++ cK ++
                [word (d.opv .OP_map_value) 0], trk := insert S s.trk }
          = .ok () { prog := s.prog ++ mapHead d (Ty.kind d K) (Ty.kind d V) S ++ cK ++
                [word (d.opv .OP_map_value) 0] ++ cV, trk := insert S s.trk } ∧
        s' = { prog := s.prog ++ mapCode d s.prog.length (Ty.kind d K) (Ty.kind d V) S cK cV,
               trk := s.trk }) ∨
     ((T = .T_set ∨ T = .T_list) ∧ S ∉ s.trk ∧ ∃ c, sp < d.MaxStack ∧ V ≠ .null ∧
        s.prog.length + 3 < 2 ^ 55 ∧
        compileOne d rf fuel (sp + 1) V
            { prog := s.prog ++ listHead d (Ty.kind d V), trk := insert S s.trk }
          = .ok () { prog := s.prog ++ listHead d (Ty.kind d V) ++ c,
                     trk := insert S s.trk } ∧
        s' = { prog := s.prog ++ listCode d s.prog.length (Ty.kind d V) c, trk := s.trk })) := by
  rw [compileOne_succ] at h
  by_cases hT : T = .T_pointer
  · rw [if_pos hT] at h
    obtain ⟨c, hrun, rfl, hcap⟩ := compilePtr_shape d _ hg sp V s s' u h
    refine ⟨?_, Or.inl ⟨hT, c, hrun, rfl⟩⟩
    simp only [ptrCode, List.length_append, List.length_cons]
    omega
  · rw [if_neg hT, Gen.andThen_ok] at h
    obtain ⟨ok, s1, hm, h⟩ := h
    rw [Gen.marked_ok] at hm
    obtain ⟨rfl, rfl⟩ := hm
    by_cases hS : S ∈ s1.trk
    · simp only [hS, decide_True, Bool.not_true, Bool.false_eq_true, if_false, Gen.rtt_ok] at h
      obtain ⟨h1, h2, rfl⟩ := h
      refine ⟨?_, Or.inr (Or.inl ⟨hT, hS, h1, rfl⟩)⟩
      simp only [List.length_append, List.length_cons, List.length_nil]
      omega
    · simp only [hS, decide_False, Bool.not_false, if_true, compileSet, Gen.bind_eq,
        Gen.andThen_ok, Gen.mark_ok, Gen.unmark_ok] at h
      obtain ⟨_, s2, rfl, _, s3, hrec, rfl⟩ := h
      have herase : (insert S s1.trk).erase S = s1.trk := Finset.erase_insert hS
      by_cases hsc : T.isScalar = true
      · rw [compileRec_scalar d rf _ sp T K V S hsc] at hrec
        obtain ⟨hl, rfl⟩ := hrec
        dsimp only at hl ⊢
        refine ⟨?_, Or.inr (Or.inr (Or.inl ⟨hT, hS, hsc, by rw [herase]⟩))⟩
        simp only [List.length_append]
        exact hl
      · cases T <;> simp only [Tag.isScalar, not_true_eq_false, reduceCtorEq,
          not_false_eq_true] at hsc hT <;> simp only [compileRec] at hrec
        · obtain ⟨fvs, cs, hrf, hruns, rfl, hcap, hsp⟩ :=
            compileStruct_shape d rf _ hg sp S _ _ _ hrec
          dsimp only at hruns hcap ⊢
          exact ⟨hcap, Or.inr (Or.inr (Or.inr (Or.inl
            ⟨rfl, hS, fvs, cs, hrf, hruns, hsp, by rw [herase]⟩)))⟩
        · obtain ⟨cK, cV, hsp, hK, hV, hSle, hrK, hrV, rfl, hcap, hL⟩ :=
            compileMap_shape d _ hg sp K V S _ _ _ hrec
          dsimp only at hrK hrV hcap hL ⊢
          refine ⟨?_, Or.inr (Or.inr (Or.inr (Or.inr (Or.inl
            ⟨rfl, hS, cK, cV, hsp, hK, hV, hSle, hL, hrK, hrV, by rw [herase]⟩))))⟩
          simp only [mapCode, List.length_append, List.length_cons, List.length_nil]
          omega
        · obtain ⟨c, hsp, hV, hrV, rfl, hcap, hL⟩ :=
            compileSetList_shape d _ hg sp V _ _ _ hrec
          dsimp only at hrV hcap hL ⊢
          refine ⟨?_, Or.inr (Or.inr (Or.inr (Or.inr (Or.inr
            ⟨Or.inl rfl, hS, c, hsp, hV, hL, hrV, by rw [herase]⟩))))⟩
          simp only [listCode, List.length_append, List.length_cons, List.length_nil]
          omega
        · obtain ⟨c, hsp, hV, hrV, rfl, hcap, hL⟩ :=
            compileSetList_shape d _ hg sp V _ _ _ hrec
          dsimp only at hrV hcap hL ⊢
          refine ⟨?_, Or.inr (Or.inr (Or.inr (Or.inr (Or.inr
            ⟨Or.inr rfl, hS, c, hsp, hV, hL, hrV, by rw [herase]⟩))))⟩
          simp only [listCode, List.length_append, List.length_cons, List.length_nil]
          omega
        · cases hrec

/-- Every run of `compileOne` that returns has left the tracker as it was and has appended to
the program, within capacity. -/
theorem compileOne_grows (d : Decls) (rf : Resolver) : ∀ fuel, Grows (compileOne d rf fuel) := by
  intro fuel
  induction fuel with
  | zero =>
    intro sp vt s u s' h
    cases h
  | succ fuel ih =>
    intro sp vt s u s' h
    cases vt with
    | null => cases h
    | node T K V S =>
      obtain ⟨hcap, hc⟩ := compileOne_cases d rf fuel ih sp T K V S s s' u h
      rcases hc with ⟨-, c, -, rfl⟩ | ⟨-, -, -, rfl⟩ | ⟨-, -, -, rfl⟩ |
        ⟨-, -, fvs, cs, -, -, -, rfl⟩ | ⟨-, -, cK, cV, -, -, -, -, -, -, -, rfl⟩ |
        ⟨-, -, c, -, -, -, -, rfl⟩ <;> exact ⟨rfl, hcap, _, rfl⟩

/-! ## Positions inside the code of a map and of a set or list -/

theorem get?_app_of_eq {α : Type} (p l : List α) (i n : Nat) (h : i = p.length + n) :
    (p ++ l).get? i = l.get? n := by
  subst h
  exact get?_app_add p l n

theorem mapCode_layout (d : Decls) (k kt vk S : Nat) (cK cV : List Nat) :
    (mapCode d k kt vk S cK cV).get? 4 = some (word (d.opv .OP_map_is_end) 0) ∧
    (mapCode d k kt vk S cK cV).get? 5
      = some (word (d.opv .OP_if_true) (k + 9 + cK.length + cV.length)) ∧
    (mapCode d k kt vk S cK cV).get? (8 + cK.length + cV.length)
      = some (word (d.opv .OP_goto) (k + 4)) ∧
    (mapCode d k kt vk S cK cV).get? (9 + cK.length + cV.length)
      = some (word (d.opv .OP_map_end) 0) ∧
    (mapCode d k kt vk S cK cV).length = 10 + cK.length + cV.length := by
  refine ⟨rfl, rfl, ?_, ?_, ?_⟩
  · unfold mapCode
    rw [List.append_assoc, List.append_assoc, List.append_assoc,
      get?_app_of_eq _ _ _ (1 + cK.length + cV.length) (by simp only [List.length_cons, List.length_nil, List.length_singleton]; omega),
      get?_app_of_eq _ _ _ (1 + cV.length) (by omega),
      get?_app_of_eq _ _ _ (cV.length + 0) (by simp only [List.length_cons, List.length_nil, List.length_singleton]; omega),
      get?_app_add]
    rfl
  · unfold mapCode
    rw [List.append_assoc, List.append_assoc, List.append_assoc,
      get?_app_of_eq _ _ _ (2 + cK.length + cV.length) (by simp only [List.length_cons, List.length_nil, List.length_singleton]; omega),
      get?_app_of_eq _ _ _ (2 + cV.length) (by omega),
      get?_app_of_eq _ _ _ (cV.length + 1) (by simp only [List.length_cons, List.length_nil, List.length_singleton]; omega),
      get?_app_add]
    rfl
  · simp only [mapCode, List.length_append, List.length_cons, List.length_nil]
    omega

theorem listCode_layout (d : Decls) (k ek : Nat) (c : List Nat) :
    (listCode d k ek c).get? 3 = some (word (d.opv .OP_list_is_end) 0) ∧
    (listCode d k ek c).get? 4 = some (word (d.opv .OP_if_true) (k + 7 + c.length)) ∧
    (listCode d k ek c).get? (6 + c.length) = some (word (d.opv .OP_goto) (k + 3)) ∧
    (listCode d k ek c).get? (7 + c.length) = some (word (d.opv .OP_list_end) 0) ∧
    (listCode d k ek c).length = 8 + c.length := by
  refine ⟨rfl, rfl, ?_, ?_, ?_⟩
  · unfold listCode
    rw [List.append_assoc,
      get?_app_of_eq _ _ _ (1 + c.length) (by simp only [List.length_cons, List.length_nil, List.length_singleton]; omega),
      get?_app_of_eq _ _ _ 1 (by omega)]
    rfl
  · unfold listCode
    rw [List.append_assoc,
      get?_app_of_eq _ _ _ (2 + c.length) (by simp only [List.length_cons, List.length_nil, List.length_singleton]; omega),
      get?_app_of_eq _ _ _ 2 (by omega)]
    rfl
  · simp only [listCode, List.length_append, List.length_cons, List.length_nil]
    omega
/-! ## Scalars, marked descriptors and the pointer guard, run forwards -/

theorem Tag.isScalar_ne_pointer (T : Tag) (h : T.isScalar = true) : T ≠ .T_pointer := by
  rintro rfl
  cases h

/-- A scalar whose identity is not marked compiles to its table entry when there is room. -/
theorem compileOne_scalar (d : Decls) (rf : Resolver) (fuel sp : Nat) (T : Tag) (K V : Ty)
    (S : Nat) (hT : T.isScalar = true) (s s' : CState) (u : Unit) (hS : S ∉ s.trk) :
    compileOne d rf (fuel + 1) sp (.node T K V S) s = .ok u s' ↔
      s.prog.length + (scalarCode d T).length ≤ MaxUint56 ∧
        s' = { prog := s.prog ++ scalarCode d T, trk := s.trk } := by
  rw [compileOne_succ, if_neg (Tag.isScalar_ne_pointer T hT), Gen.andThen_ok]
  constructor
  · rintro ⟨b, s1, hm, h⟩
    rw [Gen.marked_ok] at hm
    obtain ⟨rfl, rfl⟩ := hm
    simp only [hS, decide_False, Bool.not_false, if_true, compileSet, Gen.bind_eq,
      Gen.andThen_ok, Gen.mark_ok, Gen.unmark_ok, compileRec_scalar d rf _ sp T K V S hT] at h
    obtain ⟨_, _, rfl, _, _, ⟨hl, rfl⟩, rfl⟩ := h
    exact ⟨hl, by simp [Finset.erase_insert hS]⟩
  · rintro ⟨hl, rfl⟩
    refine ⟨false, s, by simp [Gen.marked_ok, hS], ?_⟩
    simp only [Bool.not_false, if_true, compileSet, Gen.bind_eq,
      Gen.andThen_ok, Gen.mark_ok, Gen.unmark_ok, compileRec_scalar d rf _ sp T K V S hT]
    exact ⟨(), _, rfl, (), _, ⟨hl, rfl⟩, by simp [Finset.erase_insert hS]⟩

/-- A descriptor that is not a pointer and whose identity is marked compiles to one
`OP_defer`. -/
theorem compileOne_marked (d : Decls) (rf : Resolver) (fuel sp : Nat) (T : Tag) (K V : Ty)
    (S : Nat) (hT : T ≠ .T_pointer) (s s' : CState) (u : Unit) (hS : S ∈ s.trk) :
    compileOne d rf (fuel + 1) sp (.node T K V S) s = .ok u s' ↔
      S ≤ MaxUint56 ∧ s.prog.length < MaxUint56 ∧
        s' = { prog := s.prog ++ [word (d.opv .OP_defer) S], trk := s.trk } := by
  rw [compileOne_succ, if_neg hT, Gen.andThen_ok]
  simp only [Gen.marked_ok, hS, decide_True]
  constructor
  · rintro ⟨_, _, ⟨rfl, rfl⟩, h⟩
    simpa [Gen.rtt_ok] using h
  · intro h
    refine ⟨true, s, ⟨rfl, rfl⟩, ?_⟩
    simpa [Gen.rtt_ok] using h

/-- The pointer guard around a referent whose run is known. -/
theorem compilePtr_of_run (d : Decls) (self : Nat → Ty → Gen Unit) (sp : Nat) (et : Ty)
    (p c : Program) (t : Compiler) (hl : p.length + 1 + c.length ≤ MaxUint56)
    (hrun : self sp et { prog := p ++ [word (d.opv .OP_deref) 0], trk := t }
      = .ok () { prog := p ++ [word (d.opv .OP_deref) 0] ++ c, trk := t }) :
    compilePtr d self sp et { prog := p, trk := t }
      = .ok () { prog := p ++ ptrCode d p.length c, trk := t } := by
  simp only [compilePtr, Gen.bind_eq, Gen.andThen_ok, Gen.pc_ok, Gen.add_ok, Gen.pin_ok]
  refine ⟨_, _, ⟨rfl, rfl⟩, (), _, ⟨by dsimp only; omega, rfl⟩, (), _, hrun,
    word (d.opv .OP_deref) 0, ?_, ?_⟩
  · have := get?_app_add p ([word (d.opv .OP_deref) 0] ++ c) 0
    simpa using this
  · have hs := set_app_add p (word (d.opv .OP_deref) 0 :: c) 0
    simp only [Nat.add_zero] at hs
    have hcap : (p ++ [word (d.opv .OP_deref) 0] ++ c).length ≤ MaxUint56 := by
      simp only [List.length_append, List.length_cons, List.length_nil]
      omega
    dsimp only
    rw [pinned_word _ _ _ hcap]
    simp only [List.append_assoc, List.singleton_append, hs, ptrCode, List.length_append,
      List.length_cons, List.length_nil, List.set_cons_zero, CState.mk.injEq, and_true]
    congr 3
    omega
theorem opv_ne (d : Decls) (hinj : Function.Injective d.opv) (a b : OpCode) (h : a ≠ b) :
    d.opv a ≠ d.opv b := fun e => h (hinj e)

/-- The opcodes of the code of a scalar are none of the jumps. -/
theorem scalarCode_no_jump (d : Decls) (hinj : Function.Injective d.opv) (T : Tag) (w : Nat)
    (hw : w ∈ scalarCode d T) :
    Instr.Op w ≠ d.opv .OP_deref ∧ Instr.Op w ≠ d.opv .OP_goto ∧
      Instr.Op w ≠ d.opv .OP_if_true ∧ Instr.Op w ≠ d.opv .OP_if_nil := by
  have key : ∀ (o : OpCode) (x : Nat), o = .OP_size ∨ o = .OP_copy ∨ o = .OP_vstr →
      Instr.Op (word (d.opv o) x) ≠ d.opv .OP_deref ∧
      Instr.Op (word (d.opv o) x) ≠ d.opv .OP_goto ∧
      Instr.Op (word (d.opv o) x) ≠ d.opv .OP_if_true ∧
      Instr.Op (word (d.opv o) x) ≠ d.opv .OP_if_nil := by
    intro o x ho
    rw [word_Op]
    rcases ho with rfl | rfl | rfl <;>
      exact ⟨opv_ne d hinj _ _ (by decide), opv_ne d hinj _ _ (by decide),
        opv_ne d hinj _ _ (by decide), opv_ne d hinj _ _ (by decide)⟩
  have two : ∀ x y : Nat, w = word (d.opv .OP_size) x ∨ w = word (d.opv .OP_copy) y →
      Instr.Op w ≠ d.opv .OP_deref ∧ Instr.Op w ≠ d.opv .OP_goto ∧
      Instr.Op w ≠ d.opv .OP_if_true ∧ Instr.Op w ≠ d.opv .OP_if_nil := by
    rintro x y (rfl | rfl)
    · exact key _ _ (Or.inl rfl)
    · exact key _ _ (Or.inr (Or.inl rfl))
  have one : w = word (d.opv .OP_vstr) 0 →
      Instr.Op w ≠ d.opv .OP_deref ∧ Instr.Op w ≠ d.opv .OP_goto ∧
      Instr.Op w ≠ d.opv .OP_if_true ∧ Instr.Op w ≠ d.opv .OP_if_nil := by
    rintro rfl
    exact key _ _ (Or.inr (Or.inr rfl))
  cases T <;> simp only [scalarCode, List.mem_cons, List.mem_singleton, List.not_mem_nil,
    or_false] at hw <;> first | exact two _ _ hw | exact one hw

/-- C10: a pointer to a scalar `T` compiled at position `k` gives one guard `OP_deref` at
`k`, whose operand is `k + 1 + n`, followed by the `n` instructions that the scalar compiles
to directly under the same tracker (at any position and depth with room for them), none of
which is a branch; and with the scalar unmarked and room for the code, the run returns. -/
theorem C10_pointer_to_scalar (d : Decls) (rf : Resolver) (hinj : Function.Injective d.opv)
    (fuel sp : Nat) (T : Tag) (hT : T.isScalar = true) (K V Kp : Ty) (S Sp : Nat)
    (p : Program) (t : Compiler) :
    (∀ (u : Unit) (s' : CState),
      compileOne d rf fuel sp (.node .T_pointer Kp (.node T K V S) Sp) { prog := p, trk := t }
        = .ok u s' →
      ∃ code : List Nat,
        s' = { prog := p ++ word (d.opv .OP_deref) (p.length + 1 + code.length) :: code,
               trk := t } ∧
        (∀ w ∈ code, Instr.Op w ≠ d.opv .OP_deref ∧ Instr.Op w ≠ d.opv .OP_goto ∧
          Instr.Op w ≠ d.opv .OP_if_true ∧ Instr.Op w ≠ d.opv .OP_if_nil) ∧
        (∀ (f sp2 : Nat) (q : Program), q.length + code.length ≤ MaxUint56 →
          compileOne d rf (f + 1) sp2 (.node T K V S) { prog := q, trk := t }
            = .ok () { prog := q ++ code, trk := t })) ∧
    (S ∉ t → p.length + 1 + (scalarCode d T).length ≤ MaxUint56 →
      compileOne d rf (fuel + 2) sp (.node .T_pointer Kp (.node T K V S) Sp)
          { prog := p, trk := t }
        = .ok () { prog := p ++ ptrCode d p.length (scalarCode d T), trk := t }) := by
  have hTp := Tag.isScalar_ne_pointer T hT
  constructor
  · intro u s' h
    cases fuel with
    | zero => cases h
    | succ f1 =>
      obtain ⟨-, hc⟩ := compileOne_cases d rf f1 (compileOne_grows d rf f1) sp _ Kp _ Sp _ _ u h
      simp only [reduceCtorEq, ne_eq, not_true_eq_false, false_and, or_false, true_and,
        false_or] at hc
      obtain ⟨c, hrun, rfl⟩ := hc
      cases f1 with
      | zero => cases hrun
      | succ f2 =>
        by_cases hS : S ∈ t
        · rw [compileOne_marked d rf f2 sp T K V S hTp _ _ _ hS] at hrun
          obtain ⟨hS56, -, hst⟩ := hrun
          simp only [CState.mk.injEq, and_true, List.append_assoc,
            List.append_cancel_left_eq] at hst
          subst hst
          refine ⟨[word (d.opv .OP_defer) S], by simp [ptrCode], ?_, ?_⟩
          · intro w hw
            simp only [List.mem_singleton] at hw
            subst hw
            rw [word_Op]
            exact ⟨opv_ne d hinj _ _ (by decide), opv_ne d hinj _ _ (by decide),
              opv_ne d hinj _ _ (by decide), opv_ne d hinj _ _ (by decide)⟩
          · intro f sp2 q hq
            rw [compileOne_marked d rf f sp2 T K V S hTp _ _ _ hS]
            simp only [List.length_cons, List.length_nil] at hq
            exact ⟨hS56, by dsimp only; omega, rfl⟩
        · rw [compileOne_scalar d rf f2 sp T K V S hT _ _ _ hS] at hrun
          obtain ⟨-, hst⟩ := hrun
          simp only [CState.mk.injEq, and_true, List.append_assoc,
            List.append_cancel_left_eq] at hst
          subst hst
          refine ⟨scalarCode d T, by simp [ptrCode], scalarCode_no_jump d hinj T, ?_⟩
          intro f sp2 q hq
          rw [compileOne_scalar d rf f sp2 T K V S hT _ _ _ hS]
          exact ⟨hq, rfl⟩
  · intro hS hroom
    rw [compileOne_succ, if_pos rfl]
    have hrun : compileOne d rf (fuel + 1) sp (.node T K V S)
        { prog := p ++ [word (d.opv .OP_deref) 0], trk := t }
        = .ok () { prog := p ++ [word (d.opv .OP_deref) 0] ++ scalarCode d T, trk := t } := by
      rw [compileOne_scalar d rf fuel sp T K V S hT _ _ _ hS]
      refine ⟨?_, rfl⟩
      simp only [List.length_append, List.length_cons, List.length_nil]
      omega
    rw [compilePtr_of_run d _ sp _ p (scalarCode d T) t hroom hrun]
/-! ## Ending: no run of the generator goes on for ever -/

theorem NoStuck.andThen {α β : Type} {t : Compiler} {m : Gen α} {k : α → Gen β}
    (hm : NoStuck t m) (hk : ∀ a, NoStuck t (k a)) : NoStuck t (Gen.andThen m k) := by
  intro s hs
  obtain ⟨h1, h2⟩ := hm s hs
  unfold Gen.andThen
  cases h : m s with
  | ok a s1 =>
    have ht := h2 a s1 h
    exact hk a s1 ht
  | panic v s1 => simp
  | stuck => exact absurd h h1

theorem NoStuck.onProg {t : Compiler} (f : Program → Except PanicVal Program) :
    NoStuck t (Gen.onProg f) := by
  intro s hs
  unfold Gen.onProg
  cases h : f s.prog with
  | ok p => simp [hs]
  | error v => simp

theorem NoStuck.tag {t : Compiler} (d : Decls) (n : Nat) : NoStuck t (Gen.tag d n) := by
  intro s hs
  unfold Gen.tag
  cases h : Program.tag d s.prog n with
  | ok p => simp [hs]
  | error v => simp

theorem NoStuck.pc {t : Compiler} : NoStuck t Gen.pc := by
  intro s hs
  simp [Gen.pc, hs]

theorem NoStuck.ret {α : Type} {t : Compiler} (a : α) : NoStuck t (Gen.ret a) := by
  intro s hs
  simp [Gen.ret, hs]

theorem NoStuck.raise {α : Type} {t : Compiler} (v : PanicVal) :
    NoStuck t (Gen.raise v : Gen α) := by
  intro s hs
  simp [Gen.raise]

theorem NoStuck.kindOf {t : Compiler} (d : Decls) (vt : Ty) : NoStuck t (Gen.kindOf d vt) := by
  cases vt with
  | null => exact NoStuck.raise _
  | node T K V S => exact NoStuck.ret _

theorem NoStuck.self {t : Compiler} {self : Nat → Ty → Gen Unit} (hg : Grows self)
    (sp : Nat) (vt : Ty) (h : ∀ sp p, self sp vt { prog := p, trk := t } ≠ .stuck) :
    NoStuck t (self sp vt) := by
  intro s hs
  obtain ⟨p, t'⟩ := s
  simp only at hs
  subst hs
  exact ⟨h sp p, fun a s' hok => (hg _ _ _ _ _ hok).1⟩

theorem compilePtr_noStuck (d : Decls) (self : Nat → Ty → Gen Unit) (hg : Grows self)
    (t : Compiler) (sp : Nat) (et : Ty)
    (h : ∀ sp p, self sp et { prog := p, trk := t } ≠ .stuck) :
    NoStuck t (compilePtr d self sp et) := by
  unfold compilePtr
  simp only [Gen.bind_eq]
  refine NoStuck.andThen NoStuck.pc fun i => ?_
  refine NoStuck.andThen (NoStuck.onProg _) fun _ => ?_
  refine NoStuck.andThen (NoStuck.self hg sp et h) fun _ => ?_
  exact NoStuck.onProg _

theorem compileSetList_noStuck (d : Decls) (self : Nat → Ty → Gen Unit) (hg : Grows self)
    (t : Compiler) (sp : Nat) (et : Ty)
    (h : ∀ sp p, self sp et { prog := p, trk := t } ≠ .stuck) :
    NoStuck t (compileSetList d self sp et) := by
  unfold compileSetList
  simp only [Gen.bind_eq]
  refine NoStuck.andThen (NoStuck.tag d sp) fun _ => ?_
  refine NoStuck.andThen (NoStuck.onProg _) fun _ => ?_
  refine NoStuck.andThen (NoStuck.kindOf d et) fun _ => ?_
  refine NoStuck.andThen (NoStuck.onProg _) fun _ => ?_
  refine NoStuck.andThen (NoStuck.onProg _) fun _ => ?_
  refine NoStuck.andThen NoStuck.pc fun _ => ?_
  refine NoStuck.andThen (NoStuck.onProg _) fun _ => ?_
  refine NoStuck.andThen NoStuck.pc fun _ => ?_
  refine NoStuck.andThen (NoStuck.onProg _) fun _ => ?_
  refine NoStuck.andThen (NoStuck.self hg _ et h) fun _ => ?_
  refine NoStuck.andThen (NoStuck.onProg _) fun _ => ?_
  refine NoStuck.andThen (NoStuck.onProg _) fun _ => ?_
  refine NoStuck.andThen (NoStuck.onProg _) fun _ => ?_
  exact NoStuck.onProg _

theorem compileMap_noStuck (d : Decls) (self : Nat → Ty → Gen Unit) (hg : Grows self)
    (t : Compiler) (sp : Nat) (K V : Ty) (S : Nat)
    (hK : ∀ sp p, self sp K { prog := p, trk := t } ≠ .stuck)
    (hV : ∀ sp p, self sp V { prog := p, trk := t } ≠ .stuck) :
    NoStuck t (compileMap d self sp K V S) := by
  unfold compileMap
  simp only [Gen.bind_eq]
  refine NoStuck.andThen (NoStuck.tag d sp) fun _ => ?_
  refine NoStuck.andThen (NoStuck.onProg _) fun _ => ?_
  refine NoStuck.andThen (NoStuck.kindOf d K) fun _ => ?_
  refine NoStuck.andThen (NoStuck.onProg _) fun _ => ?_
  refine NoStuck.andThen (NoStuck.kindOf d V) fun _ => ?_
  refine NoStuck.andThen (NoStuck.onProg _) fun _ => ?_
  refine NoStuck.andThen (NoStuck.onProg _) fun _ => ?_
  refine NoStuck.andThen NoStuck.pc fun _ => ?_
  refine NoStuck.andThen (NoStuck.onProg _) fun _ => ?_
  refine NoStuck.andThen NoStuck.pc fun _ => ?_
  refine NoStuck.andThen (NoStuck.onProg _) fun _ => ?_
  refine NoStuck.andThen (NoStuck.onProg _) fun _ => ?_
  refine NoStuck.andThen (NoStuck.self hg _ K hK) fun _ => ?_
  refine NoStuck.andThen (NoStuck.onProg _) fun _ => ?_
  refine NoStuck.andThen (NoStuck.self hg _ V hV) fun _ => ?_
  refine NoStuck.andThen (NoStuck.onProg _) fun _ => ?_
  refine NoStuck.andThen (NoStuck.onProg _) fun _ => ?_
  exact NoStuck.onProg _

theorem compileFields_noStuck (d : Decls) (self : Nat → Ty → Gen Unit) (hg : Grows self)
    (t : Compiler) (sp : Nat) : ∀ (fvs : List Field) (prev : Nat),
    (∀ fv ∈ fvs, ∀ sp p, self sp fv.Typ { prog := p, trk := t } ≠ .stuck) →
    NoStuck t (compileFields d self sp prev fvs) := by
  intro fvs
  induction fvs with
  | nil =>
    intro prev _
    exact NoStuck.ret _
  | cons fv rest ih =>
    intro prev h
    unfold compileFields
    simp only [Gen.bind_eq]
    refine NoStuck.andThen (NoStuck.onProg _) fun _ => ?_
    refine NoStuck.andThen (NoStuck.onProg _) fun _ => ?_
    refine NoStuck.andThen (NoStuck.kindOf d _) fun _ => ?_
    refine NoStuck.andThen (NoStuck.onProg _) fun _ => ?_
    refine NoStuck.andThen (NoStuck.onProg _) fun _ => ?_
    refine NoStuck.andThen (NoStuck.self hg _ _ (h fv (List.mem_cons_self _ _))) fun _ => ?_
    exact ih _ fun fv' hfv' => h fv' (List.mem_cons_of_mem _ hfv')

theorem compileStruct_noStuck (d : Decls) (rf : Resolver) (self : Nat → Ty → Gen Unit)
    (hg : Grows self) (t : Compiler) (sp S : Nat)
    (h : ∀ fvs, rf S = .ok fvs →
      ∀ fv ∈ fvs, ∀ sp p, self sp fv.Typ { prog := p, trk := t } ≠ .stuck) :
    NoStuck t (compileStruct d rf self sp S) := by
  unfold compileStruct
  cases hrf : rf S with
  | error e => exact NoStuck.raise _
  | ok fvs =>
    cases fvs with
    | nil => exact NoStuck.onProg _
    | cons f0 rest =>
      have h' := h _ hrf
      simp only [Gen.bind_eq]
      refine NoStuck.andThen (NoStuck.tag d sp) fun _ => ?_
      refine NoStuck.andThen (NoStuck.onProg _) fun _ => ?_
      refine NoStuck.andThen (NoStuck.kindOf d _) fun _ => ?_
      refine NoStuck.andThen (NoStuck.onProg _) fun _ => ?_
      refine NoStuck.andThen (NoStuck.onProg _) fun _ => ?_
      refine NoStuck.andThen (NoStuck.self hg _ _ (h' f0 (List.mem_cons_self _ _))) fun _ => ?_
      refine NoStuck.andThen
        (compileFields_noStuck d self hg t sp rest _
          fun fv hfv => h' fv (List.mem_cons_of_mem _ hfv)) fun _ => ?_
      exact NoStuck.onProg _

theorem EndsUnder.of_fields (rf : Resolver) (t : Compiler) : ∀ (fvs : List Field),
    (∀ fv ∈ fvs, EndsUnder rf t fv.Typ) →
    ∃ N, ∀ fv ∈ fvs, ∀ (d : Decls) (fuel : Nat), N ≤ fuel → ∀ sp p,
      compileOne d rf fuel sp fv.Typ { prog := p, trk := t } ≠ .stuck := by
  intro fvs
  induction fvs with
  | nil =>
    intro _
    exact ⟨0, fun fv hfv => absurd hfv (List.not_mem_nil _)⟩
  | cons f0 rest ih =>
    intro h
    obtain ⟨N0, h0⟩ := h f0 (List.mem_cons_self _ _)
    obtain ⟨N1, h1⟩ := ih fun fv hfv => h fv (List.mem_cons_of_mem _ hfv)
    refine ⟨max N0 N1, fun fv hfv d fuel hf sp p => ?_⟩
    rcases List.mem_cons.mp hfv with rfl | hfv'
    · exact h0 d fuel (le_trans (le_max_left _ _) hf) sp p
    · exact h1 fv hfv' d fuel (le_trans (le_max_right _ _) hf) sp p

theorem compileRec_ends (rf : Resolver) (t : Compiler) (T : Tag) (K V : Ty) (S : Nat)
    (hK : EndsUnder rf t K) (hV : EndsUnder rf t V)
    (hF : ∀ fvs, rf S = .ok fvs → ∀ fv ∈ fvs, EndsUnder rf t fv.Typ) :
    ∃ N, ∀ (d : Decls) (fuel : Nat), N ≤ fuel → ∀ sp,
      NoStuck t (compileRec d rf (compileOne d rf fuel) sp T K V S) := by
  obtain ⟨NK, hNK⟩ := hK
  obtain ⟨NV, hNV⟩ := hV
  have hF' : ∃ NF, ∀ fvs, rf S = .ok fvs → ∀ fv ∈ fvs, ∀ (d : Decls) (fuel : Nat),
      NF ≤ fuel → ∀ sp p, compileOne d rf fuel sp fv.Typ { prog := p, trk := t } ≠ .stuck := by
    cases hrf : rf S with
    | error e => exact ⟨0, fun fvs h => by cases h⟩
    | ok fvs =>
      obtain ⟨NF, hNF⟩ := EndsUnder.of_fields rf t fvs (hF fvs hrf)
      refine ⟨NF, fun fvs' h => ?_⟩
      cases h
      exact hNF
  obtain ⟨NF, hNF⟩ := hF'
  refine ⟨max NK (max NV NF), fun d fuel hf sp => ?_⟩
  have hg := compileOne_grows d rf fuel
  have hfK : NK ≤ fuel := le_trans (le_max_left _ _) hf
  have hfV : NV ≤ fuel := le_trans (le_trans (le_max_left _ _) (le_max_right _ _)) hf
  have hfF : NF ≤ fuel := le_trans (le_trans (le_max_right _ _) (le_max_right _ _)) hf
  cases T <;> simp only [compileRec, Gen.bind_eq]
  case T_struct =>
    exact compileStruct_noStuck d rf _ hg t sp S
      fun fvs hrf fv hfv sp p => hNF fvs hrf fv hfv d fuel hfF sp p
  case T_map =>
    exact compileMap_noStuck d _ hg t sp K V S (fun sp p => hNK d fuel hfK sp p)
      (fun sp p => hNV d fuel hfV sp p)
  case T_set =>
    exact compileSetList_noStuck d _ hg t sp V (fun sp p => hNV d fuel hfV sp p)
  case T_list =>
    exact compileSetList_noStuck d _ hg t sp V (fun sp p => hNV d fuel hfV sp p)
  case T_pointer => exact NoStuck.raise _
  case T_other => exact NoStuck.raise _
  all_goals
    first
    | exact NoStuck.andThen (NoStuck.onProg _) fun _ => NoStuck.onProg _
    | exact NoStuck.onProg _

theorem ends_of_struct_hyp (rf : Resolver) (P : Compiler → Prop)
    (hP : ∀ t S, P t → P (insert S t))
    (hstruct : ∀ t S fvs, P t → S ∉ t → rf S = .ok fvs →
      ∀ fv ∈ fvs, EndsUnder rf (insert S t) fv.Typ) :
    ∀ vt t, P t → EndsUnder rf t vt := by
  intro vt
  induction vt with
  | null =>
    intro t _
    refine ⟨1, fun d fuel hf sp p => ?_⟩
    obtain ⟨f, rfl⟩ : ∃ f, fuel = f + 1 := ⟨fuel - 1, by omega⟩
    simp [compileOne, Gen.raise]
  | node T K V S ihK ihV =>
    intro t ht
    by_cases hT : T = .T_pointer
    · obtain ⟨N, hN⟩ := ihV t ht
      refine ⟨N + 1, fun d fuel hf sp p => ?_⟩
      obtain ⟨f, rfl⟩ : ∃ f, fuel = f + 1 := ⟨fuel - 1, by omega⟩
      rw [compileOne_succ, if_pos hT]
      exact (compilePtr_noStuck d _ (compileOne_grows d rf f) t sp V
        (fun sp p => hN d f (by omega) sp p) _ rfl).1
    · by_cases hS : S ∈ t
      · refine ⟨1, fun d fuel hf sp p => ?_⟩
        obtain ⟨f, rfl⟩ : ∃ f, fuel = f + 1 := ⟨fuel - 1, by omega⟩
        rw [compileOne_succ, if_neg hT]
        have e : Gen.andThen (Gen.marked S) (fun ok =>
            if !ok then compileSet d rf (compileOne d rf f) sp T K V S
            else Gen.rtt d .OP_defer S) { prog := p, trk := t }
            = Gen.rtt d .OP_defer S { prog := p, trk := t } := by
          simp [Gen.andThen, Gen.marked, hS]
        rw [e]
        exact (NoStuck.onProg (t := t) _ _ rfl).1
      · obtain ⟨N, hN⟩ := compileRec_ends rf (insert S t) T K V S
          (ihK _ (hP t S ht)) (ihV _ (hP t S ht))
          (fun fvs hrf => hstruct t S fvs ht hS hrf)
        refine ⟨N + 1, fun d fuel hf sp p => ?_⟩
        obtain ⟨f, rfl⟩ : ∃ f, fuel = f + 1 := ⟨fuel - 1, by omega⟩
        rw [compileOne_succ, if_neg hT]
        have e : Gen.andThen (Gen.marked S) (fun ok =>
            if !ok then compileSet d rf (compileOne d rf f) sp T K V S
            else Gen.rtt d .OP_defer S) { prog := p, trk := t }
            = Gen.andThen (compileRec d rf (compileOne d rf f) sp T K V S)
                (fun _ => Gen.unmark S) { prog := p, trk := insert S t } := by
          simp [Gen.andThen, Gen.marked, hS, compileSet, Gen.bind_eq, Gen.mark]
        rw [e]
        have hns := (hN d f (by omega) sp { prog := p, trk := insert S t } rfl).1
        unfold Gen.andThen
        cases hr : compileRec d rf (compileOne d rf f) sp T K V S
            { prog := p, trk := insert S t } with
        | ok a s1 => simp [Gen.unmark]
        | panic v s1 => simp
        | stuck => exact absurd hr hns

/-- With only finitely many struct types that resolve (those in `U`), `compileOne` ends on
every descriptor under every tracker. -/
theorem compileOne_ends (rf : Resolver) (U : Finset Nat)
    (hU : ∀ S, S ∉ U → ∃ e, rf S = .error e) :
    ∀ n t, (U \ t).card ≤ n → ∀ vt, EndsUnder rf t vt := by
  have hmono : ∀ (t : Compiler) (S : Nat), (U \ insert S t).card ≤ (U \ t).card := by
    intro t S
    apply Finset.card_le_card
    intro x hx
    simp only [Finset.mem_sdiff, Finset.mem_insert, not_or] at hx ⊢
    exact ⟨hx.1, hx.2.2⟩
  have hlt : ∀ (t : Compiler) (S : Nat), S ∈ U → S ∉ t →
      (U \ insert S t).card < (U \ t).card := by
    intro t S hSU hSt
    apply Finset.card_lt_card
    rw [Finset.ssubset_iff_of_subset]
    · exact ⟨S, by simp [hSU, hSt], by simp⟩
    · intro x hx
      simp only [Finset.mem_sdiff, Finset.mem_insert, not_or] at hx ⊢
      exact ⟨hx.1, hx.2.2⟩
  have hin : ∀ S fvs, rf S = .ok fvs → S ∈ U := by
    intro S fvs h
    by_contra hc
    obtain ⟨e, he⟩ := hU S hc
    rw [he] at h
    cases h
  intro n
  induction n with
  | zero =>
    intro t ht vt
    refine ends_of_struct_hyp rf (fun t => (U \ t).card ≤ 0)
      (fun t S h => le_trans (hmono t S) h) ?_ vt t ht
    intro t S fvs ht hS hrf
    have := hlt t S (hin S fvs hrf) hS
    omega
  | succ n ih =>
    intro t ht vt
    refine ends_of_struct_hyp rf (fun t => (U \ t).card ≤ n + 1)
      (fun t S h => le_trans (hmono t S) h) ?_ vt t ht
    intro t S fvs ht hS hrf fv _
    have := hlt t S (hin S fvs hrf) hS
    exact ih (insert S t) (by omega) fv.Typ

/-! ## Self-reference: the deferred reference -/

theorem fieldRuns_mem (d : Decls) (self : Nat → Ty → Gen Unit) (sp : Nat) (t : Compiler) :
    ∀ (fvs : List Field) (cs : List (List Nat)) (q : Program) (prev : Nat),
    FieldRuns d self sp t q prev fvs cs → ∀ fv ∈ fvs,
    ∃ q' c, self (sp + 1) fv.Typ { prog := q', trk := t }
        = .ok () { prog := q' ++ c, trk := t } ∧
      ∀ w ∈ c, w ∈ fieldsCode d prev fvs cs := by
  intro fvs
  induction fvs with
  | nil =>
    intro cs q prev _ fv hfv
    exact absurd hfv (List.not_mem_nil _)
  | cons f0 rest ih =>
    intro cs q prev hr fv hfv
    cases cs with
    | nil => exact absurd hr (by simp [FieldRuns])
    | cons c0 cs =>
      simp only [FieldRuns] at hr
      rcases List.mem_cons.mp hfv with rfl | hfv'
      · refine ⟨_, c0, hr.1, fun w hw => ?_⟩
        simp only [fieldsCode, List.mem_append]
        exact Or.inl (Or.inr hw)
      · obtain ⟨q', c, hrun, hc⟩ := ih cs _ _ hr.2 fv hfv'
        refine ⟨q', c, hrun, fun w hw => ?_⟩
        simp only [fieldsCode, List.mem_append]
        exact Or.inr (hc w hw)

theorem structRuns_mem (d : Decls) (self : Nat → Ty → Gen Unit) (sp : Nat) (t : Compiler)
    (p : Program) (fvs : List Field) (cs : List (List Nat))
    (hr : StructRuns d self sp t p fvs cs) (fv : Field) (hfv : fv ∈ fvs) :
    ∃ q' c, self (sp + 1) fv.Typ { prog := q', trk := t }
        = .ok () { prog := q' ++ c, trk := t } ∧
      ∀ w ∈ c, w ∈ structCode d fvs cs := by
  cases fvs with
  | nil => exact absurd hfv (List.not_mem_nil _)
  | cons f0 rest =>
    cases cs with
    | nil => exact absurd hr (by simp [StructRuns])
    | cons c0 cs =>
      simp only [StructRuns] at hr
      rcases List.mem_cons.mp hfv with rfl | hfv'
      · refine ⟨_, c0, hr.1, fun w hw => ?_⟩
        simp only [structCode, List.mem_append]
        exact Or.inl (Or.inl (Or.inr hw))
      · obtain ⟨q', c, hrun, hc⟩ := fieldRuns_mem d self sp t rest cs _ _ hr.2 fv hfv'
        refine ⟨q', c, hrun, fun w hw => ?_⟩
        simp only [structCode, List.mem_append]
        exact Or.inl (Or.inr (hc w hw))

/-- Along a path to a struct of identity `S` that is being expanded, a returning run emits
an `OP_defer` whose type operand is `S`. -/
theorem defer_on_path (d : Decls) (rf : Resolver) (S : Nat) (t : Compiler) (vt : Ty)
    (hp : LeadsTo S t vt) : S ∈ t → ∀ (fuel sp : Nat) (p : Program) (u : Unit) (s' : CState),
    compileOne d rf fuel sp vt { prog := p, trk := t } = .ok u s' →
    ∃ c, s' = { prog := p ++ c, trk := t } ∧
      ∃ w ∈ c, Instr.Op w = d.opv .OP_defer ∧ Instr.Vt w = S := by
  induction hp with
  | here t K V =>
    intro hS fuel sp p u s' h
    cases fuel with
    | zero => cases h
    | succ f =>
      rw [compileOne_marked d rf f sp _ K V S (by decide) _ _ _ hS] at h
      obtain ⟨-, -, rfl⟩ := h
      exact ⟨_, rfl, _, List.mem_singleton_self _, word_Op _ _, word_Vt _ _⟩
  | ptr t K V id _ ih =>
    intro hS fuel sp p u s' h
    cases fuel with
    | zero => cases h
    | succ f =>
      obtain ⟨-, hc⟩ := compileOne_cases d rf f (compileOne_grows d rf f) sp _ K V id _ _ u h
      simp only [reduceCtorEq, ne_eq, not_true_eq_false, false_and, or_false, true_and,
        false_or] at hc
      obtain ⟨c, hrun, rfl⟩ := hc
      obtain ⟨c', hc', w, hw, hop, hvt⟩ := ih hS f sp _ () _ hrun
      simp only [CState.mk.injEq, and_true, List.append_assoc,
        List.append_cancel_left_eq] at hc'
      subst hc'
      exact ⟨_, rfl, w, by simp [ptrCode, hw], hop, hvt⟩
  | list t K V id hid _ ih =>
    intro hS fuel sp p u s' h
    cases fuel with
    | zero => cases h
    | succ f =>
      obtain ⟨-, hc⟩ := compileOne_cases d rf f (compileOne_grows d rf f) sp _ K V id _ _ u h
      simp only [reduceCtorEq, ne_eq, not_true_eq_false, false_and, or_false, true_and,
        false_or, hid, not_false_eq_true, Tag.isScalar, Bool.false_eq_true, or_true] at hc
      obtain ⟨c, -, -, -, hrun, rfl⟩ := hc
      obtain ⟨c', hc', w, hw, hop, hvt⟩ :=
        ih (Finset.mem_insert_of_mem hS) f (sp + 1) _ () _ hrun
      simp only [CState.mk.injEq, and_true, List.append_assoc,
        List.append_cancel_left_eq] at hc'
      subst hc'
      exact ⟨_, rfl, w, by simp [listCode, hw], hop, hvt⟩
  | set t K V id hid _ ih =>
    intro hS fuel sp p u s' h
    cases fuel with
    | zero => cases h
    | succ f =>
      obtain ⟨-, hc⟩ := compileOne_cases d rf f (compileOne_grows d rf f) sp _ K V id _ _ u h
      simp only [reduceCtorEq, ne_eq, not_true_eq_false, false_and, or_false, true_and,
        false_or, hid, not_false_eq_true, Tag.isScalar, Bool.false_eq_true, true_or] at hc
      obtain ⟨c, -, -, -, hrun, rfl⟩ := hc
      obtain ⟨c', hc', w, hw, hop, hvt⟩ :=
        ih (Finset.mem_insert_of_mem hS) f (sp + 1) _ () _ hrun
      simp only [CState.mk.injEq, and_true, List.append_assoc,
        List.append_cancel_left_eq] at hc'
      subst hc'
      exact ⟨_, rfl, w, by simp [listCode, hw], hop, hvt⟩
  | mapKey t K V id hid _ ih =>
    intro hS fuel sp p u s' h
    cases fuel with
    | zero => cases h
    | succ f =>
      obtain ⟨-, hc⟩ := compileOne_cases d rf f (compileOne_grows d rf f) sp _ K V id _ _ u h
      simp only [reduceCtorEq, ne_eq, not_true_eq_false, false_and, or_false, true_and,
        false_or, hid, not_false_eq_true, Tag.isScalar, Bool.false_eq_true] at hc
      obtain ⟨cK, cV, -, -, -, -, -, hrK, hrV, rfl⟩ := hc
      obtain ⟨c', hc', w, hw, hop, hvt⟩ :=
        ih (Finset.mem_insert_of_mem hS) f (sp + 1) _ () _ hrK
      simp only [CState.mk.injEq, and_true, List.append_assoc,
        List.append_cancel_left_eq] at hc'
      subst hc'
      exact ⟨_, rfl, w, by simp [mapCode, hw], hop, hvt⟩
  | mapVal t K V id hid _ ih =>
    intro hS fuel sp p u s' h
    cases fuel with
    | zero => cases h
    | succ f =>
      obtain ⟨-, hc⟩ := compileOne_cases d rf f (compileOne_grows d rf f) sp _ K V id _ _ u h
      simp only [reduceCtorEq, ne_eq, not_true_eq_false, false_and, or_false, true_and,
        false_or, hid, not_false_eq_true, Tag.isScalar, Bool.false_eq_true] at hc
      obtain ⟨cK, cV, -, -, -, -, -, hrK, hrV, rfl⟩ := hc
      obtain ⟨c', hc', w, hw, hop, hvt⟩ :=
        ih (Finset.mem_insert_of_mem hS) f (sp + 1) _ () _ hrV
      simp only [CState.mk.injEq, and_true, List.append_assoc,
        List.append_cancel_left_eq] at hc'
      subst hc'
      exact ⟨_, rfl, w, by simp [mapCode, hw], hop, hvt⟩

/-! ## The same code at another position -/

theorem sameWord_plain (d : Decls) (hinj : Function.Injective d.opv) (k1 k2 : Nat)
    (o : OpCode) (x : Nat) (h1 : o ≠ .OP_goto) (h2 : o ≠ .OP_if_true) (h3 : o ≠ .OP_deref)
    (h4 : o ≠ .OP_defer) : SameWord d k1 k2 (word (d.opv o) x) (word (d.opv o) x) := by
  refine ⟨rfl, ?_, ?_, fun _ => rfl⟩
  · rw [word_Op]
    exact opv_ne d hinj _ _ h4
  · rw [word_Op]
    rintro (h | h | h)
    · exact absurd h (opv_ne d hinj _ _ h1)
    · exact absurd h (opv_ne d hinj _ _ h2)
    · exact absurd h (opv_ne d hinj _ _ h3)

theorem sameWord_jump (d : Decls) (hinj : Function.Injective d.opv) (k1 k2 : Nat)
    (o : OpCode) (x1 x2 : Nat) (ho : o = .OP_goto ∨ o = .OP_if_true ∨ o = .OP_deref)
    (hx : x1 + k2 = x2 + k1) : SameWord d k1 k2 (word (d.opv o) x1) (word (d.opv o) x2) := by
  have hj : isJump d (d.opv o) := by
    rcases ho with rfl | rfl | rfl
    · exact Or.inl rfl
    · exact Or.inr (Or.inl rfl)
    · exact Or.inr (Or.inr rfl)
  refine ⟨by rw [word_Op, word_Op], ?_, fun _ => ?_, fun hn => ?_⟩
  · rw [word_Op]
    rcases ho with rfl | rfl | rfl <;> exact opv_ne d hinj _ _ (by decide)
  · rw [word_operand, word_operand]
    exact hx
  · rw [word_Op] at hn
    exact absurd hj hn

theorem SameWord.shift_word (d : Decls) (k1 k2 h : Nat) (w1 w2 : Nat) :
    SameWord d (k1 + h) (k2 + h) w1 w2 ↔ SameWord d k1 k2 w1 w2 := by
  unfold SameWord
  constructor
  · rintro ⟨a, b, c, e⟩
    exact ⟨a, b, fun hj => by have := c hj; omega, e⟩
  · rintro ⟨a, b, c, e⟩
    exact ⟨a, b, fun hj => by have := c hj; omega, e⟩

theorem SameCode.shift (d : Decls) (k1 k2 h : Nat) (c1 c2 : List Nat) :
    SameCode d (k1 + h) (k2 + h) c1 c2 ↔ SameCode d k1 k2 c1 c2 := by
  unfold SameCode
  constructor
  · intro hh
    exact hh.imp fun a b hab => (SameWord.shift_word d k1 k2 h a b).mp hab
  · intro hh
    exact hh.imp fun a b hab => (SameWord.shift_word d k1 k2 h a b).mpr hab

theorem SameCode.length_eq {d : Decls} {k1 k2 : Nat} {c1 c2 : List Nat}
    (h : SameCode d k1 k2 c1 c2) : c1.length = c2.length :=
  List.Forall₂.length_eq h

theorem SameCode.append {d : Decls} {k1 k2 : Nat} {a1 a2 b1 b2 : List Nat}
    (ha : SameCode d k1 k2 a1 a2) (hb : SameCode d k1 k2 b1 b2) :
    SameCode d k1 k2 (a1 ++ b1) (a2 ++ b2) := by
  unfold SameCode at *
  induction ha with
  | nil => exact hb
  | cons h _ ih => exact List.Forall₂.cons h ih

theorem SameCode.cons {d : Decls} {k1 k2 : Nat} {w1 w2 : Nat} {c1 c2 : List Nat}
    (hw : SameWord d k1 k2 w1 w2) (hc : SameCode d k1 k2 c1 c2) :
    SameCode d k1 k2 (w1 :: c1) (w2 :: c2) := List.Forall₂.cons hw hc

theorem SameCode.nil (d : Decls) (k1 k2 : Nat) : SameCode d k1 k2 [] [] := List.Forall₂.nil

theorem SameCode.no_defer {d : Decls} {k1 k2 : Nat} {c1 c2 : List Nat}
    (h : SameCode d k1 k2 c1 c2) :
    (∀ w ∈ c1, Instr.Op w ≠ d.opv .OP_defer) ∧ (∀ w ∈ c2, Instr.Op w ≠ d.opv .OP_defer) := by
  unfold SameCode at h
  induction h with
  | nil => simp
  | cons hw _ ih =>
    constructor
    · intro w hmem
      rcases List.mem_cons.mp hmem with rfl | hm
      · exact hw.2.1
      · exact ih.1 w hm
    · intro w hmem
      rcases List.mem_cons.mp hmem with rfl | hm
      · rw [← hw.1]
        exact hw.2.1
      · exact ih.2 w hm

/-! ## The code of the constructs at another position -/

theorem SameWord.rebase_word (d : Decls) (a1 a2 b1 b2 : Nat) (h : a1 + b2 = a2 + b1) (w1 w2 : Nat)
    (hw : SameWord d a1 a2 w1 w2) : SameWord d b1 b2 w1 w2 := by
  obtain ⟨x, y, z, e⟩ := hw
  exact ⟨x, y, fun hj => by have := z hj; omega, e⟩

theorem SameCode.rebase {d : Decls} {a1 a2 b1 b2 : Nat} {c1 c2 : List Nat}
    (hc : SameCode d a1 a2 c1 c2) (h : a1 + b2 = a2 + b1) : SameCode d b1 b2 c1 c2 :=
  List.Forall₂.imp (fun w1 w2 hw => SameWord.rebase_word d a1 a2 b1 b2 h w1 w2 hw) hc

theorem sameCode_scalar (d : Decls) (hinj : Function.Injective d.opv) (k1 k2 : Nat) (T : Tag) :
    SameCode d k1 k2 (scalarCode d T) (scalarCode d T) := by
  cases T <;> simp only [scalarCode] <;>
    first
    | exact SameCode.nil d k1 k2
    | exact SameCode.cons (sameWord_plain d hinj k1 k2 _ _ (by decide) (by decide) (by decide)
        (by decide)) (SameCode.nil d k1 k2)
    | exact SameCode.cons (sameWord_plain d hinj k1 k2 _ _ (by decide) (by decide) (by decide)
        (by decide)) (SameCode.cons (sameWord_plain d hinj k1 k2 _ _ (by decide) (by decide)
        (by decide) (by decide)) (SameCode.nil d k1 k2))

theorem sameCode_ptr (d : Decls) (hinj : Function.Injective d.opv) (k1 k2 : Nat)
    (c1 c2 : List Nat) (h : SameCode d k1 k2 c1 c2) :
    SameCode d k1 k2 (ptrCode d k1 c1) (ptrCode d k2 c2) := by
  have hl := h.length_eq
  unfold ptrCode
  exact SameCode.cons (sameWord_jump d hinj k1 k2 _ _ _ (Or.inr (Or.inr rfl)) (by omega)) h

theorem sameCode_list (d : Decls) (hinj : Function.Injective d.opv) (k1 k2 ek : Nat)
    (c1 c2 : List Nat) (h : SameCode d k1 k2 c1 c2) :
    SameCode d k1 k2 (listCode d k1 ek c1) (listCode d k2 ek c2) := by
  have hl := h.length_eq
  have pl := fun (o : OpCode) (x : Nat) (h1 : o ≠ .OP_goto) (h2 : o ≠ .OP_if_true)
    (h3 : o ≠ .OP_deref) (h4 : o ≠ .OP_defer) => sameWord_plain d hinj k1 k2 o x h1 h2 h3 h4
  unfold listCode
  refine SameCode.append (SameCode.append ?_ h) ?_
  · refine SameCode.cons (pl _ _ (by decide) (by decide) (by decide) (by decide)) ?_
    refine SameCode.cons (pl _ _ (by decide) (by decide) (by decide) (by decide)) ?_
    refine SameCode.cons (pl _ _ (by decide) (by decide) (by decide) (by decide)) ?_
    refine SameCode.cons (pl _ _ (by decide) (by decide) (by decide) (by decide)) ?_
    refine SameCode.cons
      (sameWord_jump d hinj k1 k2 _ _ _ (Or.inr (Or.inl rfl)) (by omega)) ?_
    exact SameCode.nil d k1 k2
  · refine SameCode.cons (pl _ _ (by decide) (by decide) (by decide) (by decide)) ?_
    refine SameCode.cons (sameWord_jump d hinj k1 k2 _ _ _ (Or.inl rfl) (by omega)) ?_
    refine SameCode.cons (pl _ _ (by decide) (by decide) (by decide) (by decide)) ?_
    exact SameCode.nil d k1 k2

theorem sameCode_map (d : Decls) (hinj : Function.Injective d.opv) (k1 k2 kt vk S : Nat)
    (cK1 cK2 cV1 cV2 : List Nat) (hK : SameCode d k1 k2 cK1 cK2)
    (hV : SameCode d k1 k2 cV1 cV2) :
    SameCode d k1 k2 (mapCode d k1 kt vk S cK1 cV1) (mapCode d k2 kt vk S cK2 cV2) := by
  have hlK := hK.length_eq
  have hlV := hV.length_eq
  have pl := fun (o : OpCode) (x : Nat) (h1 : o ≠ .OP_goto) (h2 : o ≠ .OP_if_true)
    (h3 : o ≠ .OP_deref) (h4 : o ≠ .OP_defer) => sameWord_plain d hinj k1 k2 o x h1 h2 h3 h4
  unfold mapCode
  refine SameCode.append (SameCode.append (SameCode.append (SameCode.append ?_ hK) ?_) hV) ?_
  · refine SameCode.cons (pl _ _ (by decide) (by decide) (by decide) (by decide)) ?_
    refine SameCode.cons (pl _ _ (by decide) (by decide) (by decide) (by decide)) ?_
    refine SameCode.cons (pl _ _ (by decide) (by decide) (by decide) (by decide)) ?_
    refine SameCode.cons (pl _ _ (by decide) (by decide) (by decide) (by decide)) ?_
    refine SameCode.cons (pl _ _ (by decide) (by decide) (by decide) (by decide)) ?_
    refine SameCode.cons
      (sameWord_jump d hinj k1 k2 _ _ _ (Or.inr (Or.inl rfl)) (by omega)) ?_
    refine SameCode.cons (pl _ _ (by decide) (by decide) (by decide) (by decide)) ?_
    exact SameCode.nil d k1 k2
  · exact SameCode.cons (pl _ _ (by decide) (by decide) (by decide) (by decide))
      (SameCode.nil d k1 k2)
  · refine SameCode.cons (sameWord_jump d hinj k1 k2 _ _ _ (Or.inl rfl) (by omega)) ?_
    refine SameCode.cons (pl _ _ (by decide) (by decide) (by decide) (by decide)) ?_
    exact SameCode.nil d k1 k2

theorem sameCode_fieldHead (d : Decls) (hinj : Function.Injective d.opv) (k1 k2 prev : Nat)
    (fv : Field) : SameCode d k1 k2 (fieldHead d prev fv) (fieldHead d prev fv) := by
  have pl := fun (o : OpCode) (x : Nat) (h1 : o ≠ .OP_goto) (h2 : o ≠ .OP_if_true)
    (h3 : o ≠ .OP_deref) (h4 : o ≠ .OP_defer) => sameWord_plain d hinj k1 k2 o x h1 h2 h3 h4
  unfold fieldHead
  refine SameCode.cons (pl _ _ (by decide) (by decide) (by decide) (by decide)) ?_
  refine SameCode.cons (pl _ _ (by decide) (by decide) (by decide) (by decide)) ?_
  refine SameCode.cons (pl _ _ (by decide) (by decide) (by decide) (by decide)) ?_
  refine SameCode.cons (pl _ _ (by decide) (by decide) (by decide) (by decide)) ?_
  exact SameCode.nil d k1 k2

theorem sameCode_structHead (d : Decls) (hinj : Function.Injective d.opv) (k1 k2 : Nat)
    (fv : Field) : SameCode d k1 k2 (structHead d fv) (structHead d fv) := by
  have pl := fun (o : OpCode) (x : Nat) (h1 : o ≠ .OP_goto) (h2 : o ≠ .OP_if_true)
    (h3 : o ≠ .OP_deref) (h4 : o ≠ .OP_defer) => sameWord_plain d hinj k1 k2 o x h1 h2 h3 h4
  unfold structHead
  refine SameCode.cons (pl _ _ (by decide) (by decide) (by decide) (by decide)) ?_
  refine SameCode.cons (pl _ _ (by decide) (by decide) (by decide) (by decide)) ?_
  refine SameCode.cons (pl _ _ (by decide) (by decide) (by decide) (by decide)) ?_
  exact SameCode.nil d k1 k2

theorem fieldRuns_same (d : Decls) (hinj : Function.Injective d.opv)
    (self1 self2 : Nat → Ty → Gen Unit) (sp1 sp2 : Nat) (t1 t2 : Compiler) (k1 k2 : Nat) :
    ∀ (fvs : List Field) (cs1 cs2 : List (List Nat)) (q1 q2 : Program) (prev : Nat),
    (∀ fv ∈ fvs, ∀ (q1 q2 c1 c2 : Program),
      self1 (sp1 + 1) fv.Typ { prog := q1, trk := t1 }
        = .ok () { prog := q1 ++ c1, trk := t1 } →
      self2 (sp2 + 1) fv.Typ { prog := q2, trk := t2 }
        = .ok () { prog := q2 ++ c2, trk := t2 } →
      SameCode d q1.length q2.length c1 c2) →
    FieldRuns d self1 sp1 t1 q1 prev fvs cs1 → FieldRuns d self2 sp2 t2 q2 prev fvs cs2 →
    q1.length + k2 = q2.length + k1 →
    SameCode d k1 k2 (fieldsCode d prev fvs cs1) (fieldsCode d prev fvs cs2) := by
  intro fvs
  induction fvs with
  | nil =>
    intro cs1 cs2 q1 q2 prev _ _ _ _
    cases cs1 <;> cases cs2 <;> exact SameCode.nil d k1 k2
  | cons fv rest ih =>
    intro cs1 cs2 q1 q2 prev H h1 h2 hq
    cases cs1 with
    | nil => exact absurd h1 (by simp [FieldRuns])
    | cons c1 cs1 =>
      cases cs2 with
      | nil => exact absurd h2 (by simp [FieldRuns])
      | cons c2 cs2 =>
        simp only [FieldRuns] at h1 h2
        have hc := H fv (List.mem_cons_self _ _) _ _ _ _ h1.1 h2.1
        have hl := hc.length_eq
        have hc' : SameCode d k1 k2 c1 c2 := by
          refine hc.rebase ?_
          simp only [List.length_append, fieldHead, List.length_cons, List.length_nil]
          omega
        simp only [fieldsCode]
        refine SameCode.append (SameCode.append (sameCode_fieldHead d hinj k1 k2 prev fv) hc') ?_
        refine ih cs1 cs2 _ _ _ (fun fv' hfv' => H fv' (List.mem_cons_of_mem _ hfv')) h1.2 h2.2 ?_
        simp only [List.length_append, fieldHead, List.length_cons, List.length_nil]
        omega

theorem structRuns_same (d : Decls) (hinj : Function.Injective d.opv)
    (self1 self2 : Nat → Ty → Gen Unit) (sp1 sp2 : Nat) (t1 t2 : Compiler)
    (fvs : List Field) (cs1 cs2 : List (List Nat)) (p1 p2 : Program)
    (H : ∀ fv ∈ fvs, ∀ (q1 q2 c1 c2 : Program),
      self1 (sp1 + 1) fv.Typ { prog := q1, trk := t1 }
        = .ok () { prog := q1 ++ c1, trk := t1 } →
      self2 (sp2 + 1) fv.Typ { prog := q2, trk := t2 }
        = .ok () { prog := q2 ++ c2, trk := t2 } →
      SameCode d q1.length q2.length c1 c2)
    (h1 : StructRuns d self1 sp1 t1 p1 fvs cs1) (h2 : StructRuns d self2 sp2 t2 p2 fvs cs2) :
    SameCode d p1.length p2.length (structCode d fvs cs1) (structCode d fvs cs2) := by
  have stop : SameCode d p1.length p2.length [word (d.opv .OP_byte) 0]
      [word (d.opv .OP_byte) 0] :=
    SameCode.cons (sameWord_plain d hinj _ _ _ _ (by decide) (by decide) (by decide)
      (by decide)) (SameCode.nil d _ _)
  cases fvs with
  | nil =>
    cases cs1 <;> cases cs2 <;> exact stop
  | cons f0 rest =>
    cases cs1 with
    | nil => exact absurd h1 (by simp [StructRuns])
    | cons c1 cs1 =>
      cases cs2 with
      | nil => exact absurd h2 (by simp [StructRuns])
      | cons c2 cs2 =>
        simp only [StructRuns] at h1 h2
        have hc := H f0 (List.mem_cons_self _ _) _ _ _ _ h1.1 h2.1
        have hl := hc.length_eq
        have hc' : SameCode d p1.length p2.length c1 c2 := by
          refine hc.rebase ?_
          simp only [List.length_append, structHead, List.length_cons, List.length_nil]
          omega
        simp only [structCode]
        refine SameCode.append (SameCode.append (SameCode.append
          (sameCode_structHead d hinj _ _ f0) hc') ?_) stop
        refine fieldRuns_same d hinj self1 self2 sp1 sp2 t1 t2 _ _ rest cs1 cs2 _ _ _
          (fun fv' hfv' => H fv' (List.mem_cons_of_mem _ hfv')) h1.2 h2.2 ?_
        simp only [List.length_append, structHead, List.length_cons, List.length_nil]
        omega

/-! ## Acyclic types: the same code wherever they are compiled -/

theorem Ranked.rank_lt (rk : Nat → Nat) (b : Nat) (T : Tag) (K V : Ty) (S : Nat)
    (hT : T ≠ .T_pointer) (h : Ranked rk b (.node T K V S)) : rk S < b := by
  cases T <;> simp only [Ranked] at h <;> first | exact h | exact h.1 | exact absurd rfl hT

theorem Tag.isScalar_ne (T : Tag) (h : T.isScalar = true) :
    T ≠ .T_struct ∧ T ≠ .T_map ∧ T ≠ .T_set ∧ T ≠ .T_list := by
  cases T <;> simp [Tag.isScalar] at h ⊢

theorem RankedEnv.mono (rf : Resolver) (rk : Nat → Nat) (b b' : Nat) (hb : b' ≤ b)
    (h : RankedEnv rf rk b) : RankedEnv rf rk b' :=
  fun S fvs hS hrf => h S fvs (lt_of_lt_of_le hS hb) hrf

/-- Two returning runs of `compileOne` on an acyclic descriptor, under trackers that hold
nothing the descriptor reaches, write the same code. -/
theorem same_code (d : Decls) (rf : Resolver) (rk : Nat → Nat)
    (hinj : Function.Injective d.opv) :
    ∀ (fuel1 fuel2 b : Nat) (vt : Ty) (t1 t2 : Compiler) (sp1 sp2 : Nat) (p1 p2 : Program)
      (u1 u2 : Unit) (s1 s2 : CState),
    RankedEnv rf rk b → Ranked rk b vt → (∀ m ∈ t1, b ≤ rk m) → (∀ m ∈ t2, b ≤ rk m) →
    compileOne d rf fuel1 sp1 vt { prog := p1, trk := t1 } = .ok u1 s1 →
    compileOne d rf fuel2 sp2 vt { prog := p2, trk := t2 } = .ok u2 s2 →
    ∃ c1 c2, s1 = { prog := p1 ++ c1, trk := t1 } ∧ s2 = { prog := p2 ++ c2, trk := t2 } ∧
      SameCode d p1.length p2.length c1 c2 := by
  intro fuel1
  induction fuel1 with
  | zero =>
    intro fuel2 b vt t1 t2 sp1 sp2 p1 p2 u1 u2 s1 s2 _ _ _ _ h1 _
    cases h1
  | succ f1 ih =>
    intro fuel2 b vt t1 t2 sp1 sp2 p1 p2 u1 u2 s1 s2 henv hr ht1 ht2 h1 h2
    cases fuel2 with
    | zero => cases h2
    | succ f2 =>
      cases vt with
      | null => cases h1
      | node T K V S =>
        obtain ⟨-, hc1⟩ :=
          compileOne_cases d rf f1 (compileOne_grows d rf f1) sp1 T K V S _ _ u1 h1
        obtain ⟨-, hc2⟩ :=
          compileOne_cases d rf f2 (compileOne_grows d rf f2) sp2 T K V S _ _ u2 h2
        dsimp only at hc1 hc2
        by_cases hT : T = .T_pointer
        · subst hT
          simp only [reduceCtorEq, ne_eq, not_true_eq_false, false_and, or_false, true_and,
            false_or] at hc1 hc2
          obtain ⟨c1, hr1, rfl⟩ := hc1
          obtain ⟨c2, hr2, rfl⟩ := hc2
          simp only [Ranked] at hr
          obtain ⟨c1', c2', e1, e2, hsc⟩ :=
            ih f2 b V t1 t2 sp1 sp2 _ _ () () _ _ henv hr ht1 ht2 hr1 hr2
          simp only [CState.mk.injEq, and_true, List.append_assoc,
            List.append_cancel_left_eq] at e1 e2
          subst e1 e2
          refine ⟨_, _, rfl, rfl, sameCode_ptr d hinj _ _ _ _ (hsc.rebase ?_)⟩
          simp only [List.length_append, List.length_cons, List.length_nil]
          omega
        · have hrk := Ranked.rank_lt rk b T K V S hT hr
          have hS1 : S ∉ t1 := fun h => by
            have := ht1 S h
            omega
          have hS2 : S ∉ t2 := fun h => by
            have := ht2 S h
            omega
          have ht1' : ∀ m ∈ insert S t1, rk S ≤ rk m := by
            intro m hm
            rcases Finset.mem_insert.mp hm with rfl | hm
            · exact le_rfl
            · have := ht1 m hm
              omega
          have ht2' : ∀ m ∈ insert S t2, rk S ≤ rk m := by
            intro m hm
            rcases Finset.mem_insert.mp hm with rfl | hm
            · exact le_rfl
            · have := ht2 m hm
              omega
          have henv' := RankedEnv.mono rf rk b (rk S) (le_of_lt hrk) henv
          simp only [hT, hS1, hS2, ne_eq, not_false_eq_true, true_and, false_and, false_or]
            at hc1 hc2
          rcases hc1 with ⟨hsc, rfl⟩ | ⟨rfl, fvs1, cs1, hrf1, hruns1, -, rfl⟩ |
            ⟨rfl, cK1, cV1, -, -, -, -, -, hK1, hV1, rfl⟩ | ⟨hTl, c1, -, -, -, hr1, rfl⟩
          · obtain ⟨n1, n2, n3, n4⟩ := Tag.isScalar_ne T hsc
            simp only [hsc, n1, n2, n3, n4, true_and, false_and, or_false] at hc2
            subst hc2
            exact ⟨_, _, rfl, rfl, sameCode_scalar d hinj _ _ T⟩
          · simp only [Tag.isScalar, reduceCtorEq, Bool.false_eq_true, true_and, false_and,
              false_or, or_false] at hc2
            obtain ⟨fvs2, cs2, hrf2, hruns2, -, rfl⟩ := hc2
            rw [hrf1] at hrf2
            cases hrf2
            refine ⟨_, _, rfl, rfl, structRuns_same d hinj _ _ sp1 sp2 _ _ fvs1 cs1 cs2 p1 p2
              ?_ hruns1 hruns2⟩
            intro fv hfv q1 q2 c1 c2 hq1 hq2
            obtain ⟨c1', c2', e1, e2, hsc⟩ :=
              ih f2 (rk S) fv.Typ _ _ (sp1 + 1) (sp2 + 1) q1 q2 () () _ _ henv'
                (henv S fvs1 hrk hrf1 fv hfv) ht1' ht2' hq1 hq2
            simp only [CState.mk.injEq, and_true, List.append_cancel_left_eq] at e1 e2
            subst e1 e2
            exact hsc
          · simp only [Tag.isScalar, reduceCtorEq, Bool.false_eq_true, true_and, false_and,
              false_or, or_false] at hc2
            obtain ⟨cK2, cV2, -, -, -, -, -, hK2, hV2, rfl⟩ := hc2
            simp only [Ranked] at hr
            obtain ⟨a1, a2, e1, e2, hscK⟩ :=
              ih f2 (rk S) K _ _ (sp1 + 1) (sp2 + 1) _ _ () () _ _ henv' hr.2.1 ht1' ht2' hK1 hK2
            simp only [CState.mk.injEq, and_true, List.append_cancel_left_eq] at e1 e2
            subst e1 e2
            obtain ⟨a1, a2, e1, e2, hscV⟩ :=
              ih f2 (rk S) V _ _ (sp1 + 1) (sp2 + 1) _ _ () () _ _ henv' hr.2.2 ht1' ht2' hV1 hV2
            simp only [CState.mk.injEq, and_true, List.append_cancel_left_eq] at e1 e2
            subst e1 e2
            have hlK := hscK.length_eq
            refine ⟨_, _, rfl, rfl, sameCode_map d hinj _ _ _ _ _ _ _ _ _
              (hscK.rebase ?_) (hscV.rebase ?_)⟩
            · simp only [List.length_append, mapHead, List.length_cons, List.length_nil]
              omega
            · simp only [List.length_append, mapHead, List.length_cons, List.length_nil]
              omega
          · have hV : Ranked rk (rk S) V := by
              rcases hTl with rfl | rfl <;> simp only [Ranked] at hr <;> exact hr.2
            have hc2' : ∃ c, compileOne d rf f2 (sp2 + 1) V
                  { prog := p2 ++ listHead d (Ty.kind d V), trk := insert S t2 }
                = .ok () { prog := p2 ++ listHead d (Ty.kind d V) ++ c,
                           trk := insert S t2 } ∧
                s2 = { prog := p2 ++ listCode d p2.length (Ty.kind d V) c, trk := t2 } := by
              rcases hTl with rfl | rfl <;>
                simp only [Tag.isScalar, reduceCtorEq, Bool.false_eq_true, true_and, false_and,
                  false_or, or_false, or_true, true_or] at hc2 <;>
                obtain ⟨c, -, -, -, h, e⟩ := hc2 <;> exact ⟨c, h, e⟩
            obtain ⟨c2, hr2, rfl⟩ := hc2'
            obtain ⟨a1, a2, e1, e2, hsc⟩ :=
              ih f2 (rk S) V _ _ (sp1 + 1) (sp2 + 1) _ _ () () _ _ henv' hV ht1' ht2' hr1 hr2
            simp only [CState.mk.injEq, and_true, List.append_cancel_left_eq] at e1 e2
            subst e1 e2
            refine ⟨_, _, rfl, rfl, sameCode_list d hinj _ _ _ _ _ (hsc.rebase ?_)⟩
            simp only [List.length_append, listHead, List.length_cons, List.length_nil]
            omega

/-! ## More fuel does not change a run that ends -/

theorem Gen.Below.refl {α : Type} (m : Gen α) : Gen.Below m m := fun _ _ => rfl

theorem Gen.Below.bind {α β : Type} {m1 m2 : Gen α} {k1 k2 : α → Gen β}
    (hm : Gen.Below m1 m2) (hk : ∀ a, Gen.Below (k1 a) (k2 a)) :
    Gen.Below (Gen.andThen m1 k1) (Gen.andThen m2 k2) := by
  intro s hs
  unfold Gen.andThen at hs ⊢
  cases h1 : m1 s with
  | ok a s1 =>
    rw [hm s (by rw [h1]; exact fun h => by cases h), h1]
    rw [h1] at hs
    exact hk a s1 hs
  | panic v s1 =>
    rw [hm s (by rw [h1]; exact fun h => by cases h), h1]
  | stuck =>
    rw [h1] at hs
    exact absurd rfl hs

theorem compilePtr_below (d : Decls) (self1 self2 : Nat → Ty → Gen Unit)
    (h : ∀ sp vt, Gen.Below (self1 sp vt) (self2 sp vt)) (sp : Nat) (et : Ty) :
    Gen.Below (compilePtr d self1 sp et) (compilePtr d self2 sp et) := by
  unfold compilePtr
  simp only [Gen.bind_eq]
  refine Gen.Below.bind (Gen.Below.refl _) fun _ => ?_
  refine Gen.Below.bind (Gen.Below.refl _) fun _ => ?_
  exact Gen.Below.bind (h _ _) fun _ => Gen.Below.refl _

theorem compileSetList_below (d : Decls) (self1 self2 : Nat → Ty → Gen Unit)
    (h : ∀ sp vt, Gen.Below (self1 sp vt) (self2 sp vt)) (sp : Nat) (et : Ty) :
    Gen.Below (compileSetList d self1 sp et) (compileSetList d self2 sp et) := by
  unfold compileSetList
  simp only [Gen.bind_eq]
  refine Gen.Below.bind (Gen.Below.refl _) fun _ => ?_
  refine Gen.Below.bind (Gen.Below.refl _) fun _ => ?_
  refine Gen.Below.bind (Gen.Below.refl _) fun _ => ?_
  refine Gen.Below.bind (Gen.Below.refl _) fun _ => ?_
  refine Gen.Below.bind (Gen.Below.refl _) fun _ => ?_
  refine Gen.Below.bind (Gen.Below.refl _) fun _ => ?_
  refine Gen.Below.bind (Gen.Below.refl _) fun _ => ?_
  refine Gen.Below.bind (Gen.Below.refl _) fun _ => ?_
  refine Gen.Below.bind (Gen.Below.refl _) fun _ => ?_
  exact Gen.Below.bind (h _ _) fun _ => Gen.Below.refl _

theorem compileMap_below (d : Decls) (self1 self2 : Nat → Ty → Gen Unit)
    (h : ∀ sp vt, Gen.Below (self1 sp vt) (self2 sp vt)) (sp : Nat) (K V : Ty) (S : Nat) :
    Gen.Below (compileMap d self1 sp K V S) (compileMap d self2 sp K V S) := by
  unfold compileMap
  simp only [Gen.bind_eq]
  refine Gen.Below.bind (Gen.Below.refl _) fun _ => ?_
  refine Gen.Below.bind (Gen.Below.refl _) fun _ => ?_
  refine Gen.Below.bind (Gen.Below.refl _) fun _ => ?_
  refine Gen.Below.bind (Gen.Below.refl _) fun _ => ?_
  refine Gen.Below.bind (Gen.Below.refl _) fun _ => ?_
  refine Gen.Below.bind (Gen.Below.refl _) fun _ => ?_
  refine Gen.Below.bind (Gen.Below.refl _) fun _ => ?_
  refine Gen.Below.bind (Gen.Below.refl _) fun _ => ?_
  refine Gen.Below.bind (Gen.Below.refl _) fun _ => ?_
  refine Gen.Below.bind (Gen.Below.refl _) fun _ => ?_
  refine Gen.Below.bind (Gen.Below.refl _) fun _ => ?_
  refine Gen.Below.bind (Gen.Below.refl _) fun _ => ?_
  refine Gen.Below.bind (h _ _) fun _ => ?_
  refine Gen.Below.bind (Gen.Below.refl _) fun _ => ?_
  exact Gen.Below.bind (h _ _) fun _ => Gen.Below.refl _

theorem compileFields_below (d : Decls) (self1 self2 : Nat → Ty → Gen Unit)
    (h : ∀ sp vt, Gen.Below (self1 sp vt) (self2 sp vt)) (sp : Nat) :
    ∀ (fvs : List Field) (prev : Nat),
    Gen.Below (compileFields d self1 sp prev fvs) (compileFields d self2 sp prev fvs) := by
  intro fvs
  induction fvs with
  | nil =>
    intro prev
    exact Gen.Below.refl _
  | cons fv rest ih =>
    intro prev
    unfold compileFields
    simp only [Gen.bind_eq]
    refine Gen.Below.bind (Gen.Below.refl _) fun _ => ?_
    refine Gen.Below.bind (Gen.Below.refl _) fun _ => ?_
    refine Gen.Below.bind (Gen.Below.refl _) fun _ => ?_
    refine Gen.Below.bind (Gen.Below.refl _) fun _ => ?_
    refine Gen.Below.bind (Gen.Below.refl _) fun _ => ?_
    exact Gen.Below.bind (h _ _) fun _ => ih _

theorem compileStruct_below (d : Decls) (rf : Resolver) (self1 self2 : Nat → Ty → Gen Unit)
    (h : ∀ sp vt, Gen.Below (self1 sp vt) (self2 sp vt)) (sp S : Nat) :
    Gen.Below (compileStruct d rf self1 sp S) (compileStruct d rf self2 sp S) := by
  unfold compileStruct
  cases rf S with
  | error e => exact Gen.Below.refl _
  | ok fvs =>
    cases fvs with
    | nil => exact Gen.Below.refl _
    | cons f0 rest =>
      simp only [Gen.bind_eq]
      refine Gen.Below.bind (Gen.Below.refl _) fun _ => ?_
      refine Gen.Below.bind (Gen.Below.refl _) fun _ => ?_
      refine Gen.Below.bind (Gen.Below.refl _) fun _ => ?_
      refine Gen.Below.bind (Gen.Below.refl _) fun _ => ?_
      refine Gen.Below.bind (Gen.Below.refl _) fun _ => ?_
      refine Gen.Below.bind (h _ _) fun _ => ?_
      exact Gen.Below.bind (compileFields_below d self1 self2 h sp rest _) fun _ =>
        Gen.Below.refl _

theorem compileRec_below (d : Decls) (rf : Resolver) (self1 self2 : Nat → Ty → Gen Unit)
    (h : ∀ sp vt, Gen.Below (self1 sp vt) (self2 sp vt)) (sp : Nat) (T : Tag) (K V : Ty)
    (S : Nat) :
    Gen.Below (compileRec d rf self1 sp T K V S) (compileRec d rf self2 sp T K V S) := by
  cases T <;> simp only [compileRec]
  case T_struct => exact compileStruct_below d rf self1 self2 h sp S
  case T_map => exact compileMap_below d self1 self2 h sp K V S
  case T_set => exact compileSetList_below d self1 self2 h sp V
  case T_list => exact compileSetList_below d self1 self2 h sp V
  all_goals exact Gen.Below.refl _

/-- One more unit of fuel does not change a run that ends. -/
theorem compileOne_below_succ (d : Decls) (rf : Resolver) : ∀ (fuel sp : Nat) (vt : Ty),
    Gen.Below (compileOne d rf fuel sp vt) (compileOne d rf (fuel + 1) sp vt) := by
  intro fuel
  induction fuel with
  | zero =>
    intro sp vt s hs
    exact absurd rfl hs
  | succ f ih =>
    intro sp vt
    cases vt with
    | null => exact Gen.Below.refl _
    | node T K V S =>
      rw [compileOne_succ, compileOne_succ]
      by_cases hT : T = .T_pointer
      · rw [if_pos hT, if_pos hT]
        exact compilePtr_below d _ _ ih sp V
      · rw [if_neg hT, if_neg hT]
        refine Gen.Below.bind (Gen.Below.refl _) fun ok => ?_
        cases ok with
        | true => exact Gen.Below.refl _
        | false =>
          simp only [Bool.not_false, if_true, compileSet, Gen.bind_eq]
          refine Gen.Below.bind (Gen.Below.refl _) fun _ => ?_
          exact Gen.Below.bind (compileRec_below d rf _ _ ih sp T K V S) fun _ =>
            Gen.Below.refl _

/-- More fuel does not change a run that ends. -/
theorem compileOne_fuel_mono (d : Decls) (rf : Resolver) (f : Nat) (sp : Nat) (vt : Ty)
    (s : CState) (h : compileOne d rf f sp vt s ≠ .stuck) :
    ∀ f', f ≤ f' → compileOne d rf f' sp vt s = compileOne d rf f sp vt s := by
  intro f' hf
  induction f' with
  | zero =>
    have : f = 0 := by omega
    subst this
    rfl
  | succ n ih =>
    by_cases hfn : f = n + 1
    · subst hfn
      rfl
    · have hle : f ≤ n := by omega
      have e := ih hle
      rw [← e]
      exact compileOne_below_succ d rf n sp vt s (by rw [e]; exact h)

/-! ## Termination and self-reference -/

theorem fieldRuns_forall₂ (d : Decls) (self : Nat → Ty → Gen Unit) (sp : Nat) (t : Compiler) :
    ∀ (fvs : List Field) (cs : List (List Nat)) (q : Program) (prev : Nat),
    FieldRuns d self sp t q prev fvs cs →
    List.Forall₂ (fun fv c => ∃ q', self (sp + 1) fv.Typ { prog := q', trk := t }
        = .ok () { prog := q' ++ c, trk := t }) fvs cs := by
  intro fvs
  induction fvs with
  | nil =>
    intro cs q prev h
    cases cs with
    | nil => exact List.Forall₂.nil
    | cons c cs => exact absurd h (by simp [FieldRuns])
  | cons fv rest ih =>
    intro cs q prev h
    cases cs with
    | nil => exact absurd h (by simp [FieldRuns])
    | cons c cs =>
      simp only [FieldRuns] at h
      exact List.Forall₂.cons ⟨_, h.1⟩ (ih cs _ _ h.2)

theorem structRuns_forall₂ (d : Decls) (self : Nat → Ty → Gen Unit) (sp : Nat) (t : Compiler)
    (p : Program) (fvs : List Field) (cs : List (List Nat))
    (h : StructRuns d self sp t p fvs cs) :
    List.Forall₂ (fun fv c => ∃ q', self (sp + 1) fv.Typ { prog := q', trk := t }
        = .ok () { prog := q' ++ c, trk := t }) fvs cs := by
  cases fvs with
  | nil =>
    cases cs with
    | nil => exact List.Forall₂.nil
    | cons c cs => exact absurd h (by simp [StructRuns])
  | cons fv rest =>
    cases cs with
    | nil => exact absurd h (by simp [StructRuns])
    | cons c cs =>
      simp only [StructRuns] at h
      exact List.Forall₂.cons ⟨_, h.1⟩ (fieldRuns_forall₂ d self sp t rest cs _ _ h.2)

/-- C6: with finitely many struct types that resolve (those in `U`), whatever the references
between them, there is an amount of fuel from which on `compileOne`, started with the empty
tracker, has ended with one and the same outcome (it returns or it panics), for every depth
and program and for all declarations, so also for a nesting budget that is never reached. -/
theorem C6_terminates_on_cyclic_types (rf : Resolver) (U : Finset Nat)
    (hU : ∀ S, S ∉ U → ∃ e, rf S = .error e) (vt : Ty) :
    ∃ N, ∀ (d : Decls) (sp : Nat) (p : Program), ∃ r : Outcome Unit, r ≠ .stuck ∧
      ∀ fuel, N ≤ fuel → compileOne d rf fuel sp vt { prog := p, trk := ∅ } = r := by
  obtain ⟨N, hN⟩ := compileOne_ends rf U hU (U \ ∅).card ∅ le_rfl vt
  exact ⟨N, fun d sp p => ⟨_, hN d N le_rfl sp p,
    compileOne_fuel_mono d rf N sp vt _ (hN d N le_rfl sp p)⟩⟩

theorem sampleResolver_finite :
    ∀ S, S ∉ ({100, 300, 400, 500, 600, 700} : Finset Nat) →
      ∃ e, sampleResolver S = .error e := by
  intro S hS
  simp only [Finset.mem_insert, Finset.mem_singleton, not_or] at hS
  obtain ⟨h1, h2, h3, h4, h5, h6⟩ := hS
  exact ⟨.resolve "cannot resolve fields", by simp [sampleResolver, h1, h2, h3, h4, h5, h6]⟩

/-- C6 at the list cell `300` of the sample table, which points to itself. -/
theorem C6_terminates_on_cyclic_types_witness :
    (∀ S, S ∉ ({100, 300, 400, 500, 600, 700} : Finset Nat) →
      ∃ e, sampleResolver S = .error e) ∧
    ∃ N, ∀ (d : Decls) (sp : Nat) (p : Program), ∃ r : Outcome Unit, r ≠ .stuck ∧
      ∀ fuel, N ≤ fuel →
        compileOne d sampleResolver fuel sp (leafTy .T_struct 300) { prog := p, trk := ∅ }
          = r :=
  ⟨sampleResolver_finite,
   C6_terminates_on_cyclic_types sampleResolver {100, 300, 400, 500, 600, 700}
     sampleResolver_finite (leafTy .T_struct 300)⟩

/-- C7: a struct `S` with a field whose type leads back to `S` through pointers, lists, sets
and maps, compiled from the empty program and the empty tracker: with enough fuel the run
has ended with one and the same outcome, and every run that returns leaves a program with an `OP_defer` whose type operand
(`Vt`) is `S`. -/
theorem C7_self_reference_is_deferred (d : Decls) (rf : Resolver) (U : Finset Nat)
    (hU : ∀ S, S ∉ U → ∃ e, rf S = .error e) (K V : Ty) (S : Nat) (fvs : List Field)
    (fv : Field) (hrf : rf S = .ok fvs) (hfv : fv ∈ fvs) (hpath : LeadsTo S {S} fv.Typ) :
    (∃ N, ∀ sp, ∃ r : Outcome Unit, r ≠ .stuck ∧ ∀ fuel, N ≤ fuel →
      compileOne d rf fuel sp (.node .T_struct K V S) { prog := [], trk := ∅ } = r) ∧
    (∀ (fuel sp : Nat) (u : Unit) (s' : CState),
      compileOne d rf fuel sp (.node .T_struct K V S) { prog := [], trk := ∅ } = .ok u s' →
      ∃ w ∈ s'.prog, Instr.Op w = d.opv .OP_defer ∧ Instr.Vt w = S) := by
  constructor
  · obtain ⟨N, hN⟩ := compileOne_ends rf U hU (U \ ∅).card ∅ le_rfl (.node .T_struct K V S)
    exact ⟨N, fun sp => ⟨_, hN d N le_rfl sp [],
      compileOne_fuel_mono d rf N sp _ _ (hN d N le_rfl sp [])⟩⟩
  · intro fuel sp u s' h
    cases fuel with
    | zero => cases h
    | succ f =>
      obtain ⟨-, hc⟩ := compileOne_cases d rf f (compileOne_grows d rf f) sp _ K V S _ _ u h
      simp only [reduceCtorEq, ne_eq, not_true_eq_false, false_and, or_false, true_and,
        false_or, Finset.not_mem_empty, not_false_eq_true, Tag.isScalar,
        Bool.false_eq_true] at hc
      obtain ⟨fvs', cs, hrf', hruns, -, rfl⟩ := hc
      rw [hrf] at hrf'
      cases hrf'
      obtain ⟨q', c, hrun, hc⟩ := structRuns_mem d _ sp _ _ fvs cs hruns fv hfv
      have hins : insert S (∅ : Compiler) = {S} := rfl
      rw [hins] at hrun
      obtain ⟨c', hc', w, hw, hop, hvt⟩ :=
        defer_on_path d rf S {S} fv.Typ hpath (Finset.mem_singleton_self S) f (sp + 1) q' ()
          _ hrun
      simp only [CState.mk.injEq, and_true, List.append_cancel_left_eq] at hc'
      subst hc'
      exact ⟨w, by simpa using hc w hw, hop, hvt⟩

/-- C7 at the list cell `300` of the sample table. -/
theorem C7_self_reference_is_deferred_witness :
    sampleResolver 300
      = .ok [⟨1, 0, leafTy .T_i32 3⟩, ⟨2, 8, ptrTo (leafTy .T_struct 300) 301⟩] ∧
    LeadsTo 300 {300} (ptrTo (leafTy .T_struct 300) 301) ∧
    compileOne (sampleDecls 10) sampleResolver 4 0 (leafTy .T_struct 300)
        { prog := [], trk := ∅ }
      = .ok () { prog := [768, 2049, 258, 1024, 1028, 768, 2053, 33281, 514, 2823, 76808, 1],
                 trk := ∅ } ∧
    ∃ w ∈ [768, 2049, 258, 1024, 1028, 768, 2053, 33281, 514, 2823, 76808, 1],
      Instr.Op w = (sampleDecls 10).opv .OP_defer ∧ Instr.Vt w = 300 :=
  ⟨by decide, LeadsTo.ptr _ _ _ _ (LeadsTo.here _ _ _), by decide,
   (C7_self_reference_is_deferred (sampleDecls 10) sampleResolver
      {100, 300, 400, 500, 600, 700} sampleResolver_finite .null .null 300
      [⟨1, 0, leafTy .T_i32 3⟩, ⟨2, 8, ptrTo (leafTy .T_struct 300) 301⟩]
      ⟨2, 8, ptrTo (leafTy .T_struct 300) 301⟩ (by decide) (by decide)
      (LeadsTo.ptr _ _ _ _ (LeadsTo.here _ _ _))).2 4 0 ()
      { prog := [768, 2049, 258, 1024, 1028, 768, 2053, 33281, 514, 2823, 76808, 1],
        trk := ∅ } (by decide)⟩

/-! ## No deferred reference in acyclic types -/

/-- C8: with the struct types of rank below `b` acyclic: a type of rank below `b` compiled
from the empty tracker emits no `OP_defer`; and in every returning run on a struct `S0`
whose own rank and the ranks of everything under expansion are at least `b`, every field of a
type of rank below `b` is expanded by a run of `compileOne` at depth `sp + 1`, its code holds
no `OP_defer` and is the same code, up to the positions in the jump operands, as that of
compiling the type of the field on its own, so the codes of two fields of one such type are
the same code. -/
theorem C8_no_cross_branch_memoization (d : Decls) (rf : Resolver) (rk : Nat → Nat)
    (hinj : Function.Injective d.opv) (b : Nat) (henv : RankedEnv rf rk b) :
    (∀ (vt : Ty) (fuel sp : Nat) (p : Program) (u : Unit) (s' : CState),
      Ranked rk b vt →
      compileOne d rf fuel sp vt { prog := p, trk := ∅ } = .ok u s' →
      ∃ c, s' = { prog := p ++ c, trk := ∅ } ∧ ∀ w ∈ c, Instr.Op w ≠ d.opv .OP_defer) ∧
    (∀ (S0 : Nat) (K V : Ty) (fvs : List Field) (t : Compiler) (fuel sp : Nat) (p : Program)
        (u : Unit) (s' : CState),
      rf S0 = .ok fvs → S0 ∉ t → (∀ m ∈ insert S0 t, b ≤ rk m) →
      compileOne d rf (fuel + 1) sp (.node .T_struct K V S0) { prog := p, trk := t }
        = .ok u s' →
      ∃ cs, s' = { prog := p ++ structCode d fvs cs, trk := t } ∧
        List.Forall₂ (fun fv c => Ranked rk b fv.Typ →
          ExpandedLike d rf fuel (sp + 1) (insert S0 t) fv c ∧
          ∀ w ∈ c, Instr.Op w ≠ d.opv .OP_defer) fvs cs) := by
  constructor
  · intro vt fuel sp p u s' hr h
    obtain ⟨c1, c2, e1, -, hsc⟩ :=
      same_code d rf rk hinj fuel fuel b vt ∅ ∅ sp sp p p u u s' s' henv hr
        (fun m hm => absurd hm (Finset.not_mem_empty m))
        (fun m hm => absurd hm (Finset.not_mem_empty m)) h h
    exact ⟨c1, e1, hsc.no_defer.1⟩
  · intro S0 K V fvs t fuel sp p u s' hrf hS0 ht h
    obtain ⟨-, hc⟩ :=
      compileOne_cases d rf fuel (compileOne_grows d rf fuel) sp _ K V S0 _ _ u h
    simp only [reduceCtorEq, ne_eq, not_true_eq_false, false_and, or_false, true_and,
      false_or, hS0, not_false_eq_true, Tag.isScalar, Bool.false_eq_true] at hc
    obtain ⟨fvs', cs, hrf', hruns, -, rfl⟩ := hc
    rw [hrf] at hrf'
    cases hrf'
    refine ⟨cs, rfl, ?_⟩
    refine (structRuns_forall₂ d _ sp _ _ fvs cs hruns).imp ?_
    rintro fv c ⟨q, hq⟩ hr
    have key : ∀ (f0 sp0 : Nat) (u0 : Unit) (s0 : CState),
        compileOne d rf f0 sp0 fv.Typ { prog := [], trk := ∅ } = .ok u0 s0 →
        SameCode d q.length 0 c s0.prog := by
      intro f0 sp0 u0 s0 h0
      obtain ⟨c1, c2, e1, e2, hsc⟩ :=
        same_code d rf rk hinj fuel f0 b fv.Typ _ ∅ (sp + 1) sp0 q [] () u0 _ s0 henv hr ht
          (fun m hm => absurd hm (Finset.not_mem_empty m)) hq h0
      simp only [CState.mk.injEq, and_true, List.append_cancel_left_eq] at e1
      subst e1 e2
      simpa using hsc
    refine ⟨⟨q, hq, key⟩, ?_⟩
    obtain ⟨c1, c2, e1, -, hsc⟩ :=
      same_code d rf rk hinj fuel fuel b fv.Typ _ _ (sp + 1) (sp + 1) q q () () _ _ henv hr ht
        ht hq hq
    simp only [CState.mk.injEq, and_true, List.append_cancel_left_eq] at e1
    subst e1
    exact hsc.no_defer.1

theorem sampleResolver_ranked : RankedEnv sampleResolver sampleRank 3 := by
  intro S fvs hS hrf fv hfv
  by_cases h500 : S = 500
  · subst h500
    simp only [sampleResolver] at hrf
    cases hrf
    simp only [List.mem_cons, List.mem_singleton, List.not_mem_nil, or_false] at hfv
    rcases hfv with rfl | rfl <;> simp [Ranked, leafTy, listOf, sampleRank]
  · exfalso
    unfold sampleRank at hS
    simp only [h500, if_false] at hS
    by_cases h7 : S = 7
    · subst h7
      simp [sampleResolver] at hrf
    · simp only [h7, if_false] at hS
      by_cases h56 : S = 5 ∨ S = 6
      · rcases h56 with rfl | rfl <;> simp [sampleResolver] at hrf
      · simp only [h56, if_false] at hS
        omega

/-- C8 at the struct `400` of the sample table, whose two fields are of the struct type
`500`. -/
theorem C8_no_cross_branch_memoization_witness :
    Function.Injective (sampleDecls 10).opv ∧ RankedEnv sampleResolver sampleRank 3 ∧
    sampleResolver 400 = .ok [⟨1, 0, leafTy .T_struct 500⟩, ⟨2, 16, leafTy .T_struct 500⟩] ∧
    Ranked sampleRank 3 (leafTy .T_struct 500) ∧
    compileOne (sampleDecls 10) sampleResolver 5 0 (leafTy .T_struct 400)
        { prog := [], trk := ∅ } = .ok () { prog := sampleProg400, trk := ∅ } ∧
    ∃ cs,
      CState.mk sampleProg400 ∅ = CState.mk ([] ++ structCode (sampleDecls 10)
        [⟨1, 0, leafTy .T_struct 500⟩, ⟨2, 16, leafTy .T_struct 500⟩] cs) ∅ ∧
      List.Forall₂ (fun fv c => Ranked sampleRank 3 fv.Typ →
        ExpandedLike (sampleDecls 10) sampleResolver 4 (0 + 1) (insert 400 ∅) fv c ∧
        ∀ w ∈ c, Instr.Op w ≠ (sampleDecls 10).opv .OP_defer)
        [⟨1, 0, leafTy .T_struct 500⟩, ⟨2, 16, leafTy .T_struct 500⟩] cs :=
  ⟨sampleOpv_injective, sampleResolver_ranked, by decide,
   by simp [Ranked, leafTy, sampleRank],
   by decide!,
   (C8_no_cross_branch_memoization (sampleDecls 10) sampleResolver sampleRank
      sampleOpv_injective 3 sampleResolver_ranked).2 400 .null .null _ ∅ 4 0 [] ()
      { prog := sampleProg400, trk := ∅ } (by decide) (by decide) (by decide) (by decide!)⟩

/-! ## The entry point: what becomes of a panic -/

/-- The failure values of the four guards are strings. -/
theorem guard_values :
    (∀ v e, mkiv64 v = .error e → e = .str "value exceeds 56-bit integer range") ∧
    (∀ S e, mktype S = .error e → e = .str "pointer exceeds 56-bit address space") ∧
    (∀ d p n e, Program.tag d p n = .error e → e = .str "type nesting too deep") ∧
    (∀ p w e, Program.ins p w = .error e → e = .str "program too long") := by
  refine ⟨?_, ?_, ?_, ?_⟩
  · intro v e h
    unfold mkiv64 at h
    split at h <;> cases h
    rfl
  · intro S e h
    unfold mktype at h
    split at h <;> cases h
    rfl
  · intro d p n e h
    unfold Program.tag at h
    split at h <;> cases h
    rfl
  · intro p w e h
    unfold Program.ins at h
    split at h <;> cases h
    rfl

/-- C3, as the code has it: when the generator stops on the panic of one of the guards of the
compiler (operand out of range in `mkiv64` or `mktype`, nesting too deep in `Program.tag`,
program too long in `Program.ins`), whose value is a string, `Compile` does not return: the
same panic leaves it. -/
theorem C3_guard_panic_leaves_Compile (d : Decls) (rf : Resolver) (opt : Program → Program)
    (fuel : Nat) (vt : Ty) (trk : Compiler) (v : PanicVal) (s : CState)
    (hv : v = .str "value exceeds 56-bit integer range" ∨
          v = .str "pointer exceeds 56-bit address space" ∨
          v = .str "type nesting too deep" ∨ v = .str "program too long")
    (h : compileOne d rf fuel 0 vt { prog := [], trk := trk } = .panic v s) :
    Compile d rf opt fuel vt trk = .panicked v s.trk := by
  unfold Compile
  rw [h]
  rcases hv with hv | hv | hv | hv <;> subst hv <;> rfl

/-- The amended C3 at a list of lists of lists of `bool` under a nesting budget of two. -/
theorem C3_guard_panic_leaves_Compile_witness :
    compileOne (sampleDecls 2) sampleResolver 4 0 (listOf (listOf (listOf (leafTy .T_bool 1) 2) 3) 4)
        { prog := [], trk := ∅ }
      = .panic (.str "type nesting too deep")
          { prog := [1280, 3841, 17, 18, 11, 1280, 3841, 17, 18, 11], trk := {2, 3, 4} } ∧
    Compile (sampleDecls 2) sampleResolver id 4 (listOf (listOf (listOf (leafTy .T_bool 1) 2) 3) 4) ∅
      = .panicked (.str "type nesting too deep") {2, 3, 4} :=
  ⟨by decide,
   C3_guard_panic_leaves_Compile (sampleDecls 2) sampleResolver id 4 _ ∅ _
     { prog := [1280, 3841, 17, 18, 11, 1280, 3841, 17, 18, 11], trk := {2, 3, 4} }
     (Or.inr (Or.inr (Or.inl rfl))) (by decide)⟩

/-- C3 fails at a list of lists of lists of `bool` under a nesting budget of two, where the
guard of `Program.tag` fires, and at the struct `700`, where the seek delta `2 ^ 55` is
rejected by `mkiv64`: `Compile` does not return an error, the panic leaves it. -/
theorem C3_counterexample :
    Compile (sampleDecls 2) sampleResolver id 4 (listOf (listOf (listOf (leafTy .T_bool 1) 2) 3) 4) ∅
      = .panicked (.str "type nesting too deep") {2, 3, 4} ∧
    Compile (sampleDecls 4096) sampleResolver id 4 (leafTy .T_struct 700) ∅
      = .panicked (.str "value exceeds 56-bit integer range") {700} ∧
    ¬ ∃ p e t, Compile (sampleDecls 2) sampleResolver id 4
        (listOf (listOf (listOf (leafTy .T_bool 1) 2) 3) 4) ∅ = .returned p (some e) t := by
  refine ⟨by decide, by decide, ?_⟩
  rintro ⟨p, e, t, h⟩
  have h2 : Compile (sampleDecls 2) sampleResolver id 4
      (listOf (listOf (listOf (leafTy .T_bool 1) 2) 3) 4) ∅
      = .panicked (.str "type nesting too deep") {2, 3, 4} := by decide
  rw [h2] at h
  cases h

/-- The panic of `compileStruct` on a struct whose fields cannot be resolved carries the error
of the resolver itself and is raised before anything is written. -/
theorem compileStruct_resolve_error (d : Decls) (rf : Resolver) (self : Nat → Ty → Gen Unit)
    (sp S : Nat) (s : CState) (e : GoError) (h : rf S = .error e) :
    compileStruct d rf self sp S s = .panic (.err e) s := by
  unfold compileStruct
  rw [h]
  rfl

/-- C5 fails at the struct `100`: the first field is compiled, the second one is a struct
that cannot be resolved, and `Compile` returns the error together with the nine instructions
written so far. -/
theorem C5_counterexample :
    ∃ p e t, Compile (sampleDecls 10) sampleResolver id 4 (leafTy .T_struct 100) ∅
        = .returned p (some e) t ∧ p.length = 9 :=
  ⟨[768, 513, 258, 256, 260, 768, 2053, 3073, 514], .resolve "cannot resolve fields",
    {200, 100}, by decide, rfl⟩

/-- C5, as the code has it: `Compile` returns the error `e` with the program `p` exactly when
the generator stopped on a panic with the error value `e` and `p` is the program as written by
then (it has not gone through `Optimize`). -/
theorem C5_error_comes_with_program_so_far (d : Decls) (rf : Resolver)
    (opt : Program → Program) (fuel : Nat) (vt : Ty) (trk : Compiler) (p : Program)
    (e : GoError) (t : Compiler) :
    Compile d rf opt fuel vt trk = .returned p (some e) t ↔
      compileOne d rf fuel 0 vt { prog := [], trk := trk }
        = .panic (.err e) { prog := p, trk := t } := by
  unfold Compile
  cases h : compileOne d rf fuel 0 vt { prog := [], trk := trk } with
  | ok a s => simp [Compiler.rescue]
  | panic v s =>
    cases v with
    | str m => simp [Compiler.rescue]
    | err e' =>
      cases s
      simp only [Compiler.rescue, CompileResult.returned.injEq, Option.some.injEq,
        Outcome.panic.injEq, PanicVal.err.injEq, CState.mk.injEq]
      tauto
  | stuck => simp

/-- C9: in the program left by a returning `compileMap` (resp. `compileSetList`) started at
position `k`, with `L = k + 4` (resp. `k + 3`) the position of the is-end check, `J = L + 1`
the position of the exit branch and `G` the position of the closing `OP_goto`, which is the
last but one instruction: the operand of the word at `G` is `L`, the operand of the word at
`J` is `G + 1`, and the word at `G + 1` is `OP_map_end` (resp. `OP_list_end`). -/
theorem C9_loop_well_formed (d : Decls) (rf : Resolver) (fuel sp : Nat) :
    (∀ (K V : Ty) (S : Nat) (s s' : CState) (u : Unit),
      compileMap d (compileOne d rf fuel) sp K V S s = .ok u s' →
      LoopAt d .OP_map_is_end .OP_map_end (s.prog.length + 4) s'.prog) ∧
    (∀ (V : Ty) (s s' : CState) (u : Unit),
      compileSetList d (compileOne d rf fuel) sp V s = .ok u s' →
      LoopAt d .OP_list_is_end .OP_list_end (s.prog.length + 3) s'.prog) := by
  constructor
  · intro K V S s s' u h
    obtain ⟨cK, cV, -, -, -, -, -, -, rfl, -, hL⟩ :=
      compileMap_shape d _ (compileOne_grows d rf fuel) sp K V S s s' u h
    obtain ⟨e4, e5, eG, eE, elen⟩ :=
      mapCode_layout d s.prog.length (Ty.kind d K) (Ty.kind d V) S cK cV
    refine ⟨s.prog.length + 8 + cK.length + cV.length, word (d.opv .OP_map_is_end) 0,
      word (d.opv .OP_if_true) (s.prog.length + 9 + cK.length + cV.length),
      word (d.opv .OP_goto) (s.prog.length + 4), word (d.opv .OP_map_end) 0,
      ?_, word_Op _ _, ?_, word_Op _ _, by omega, ?_, word_Op _ _, ?_, word_Op _ _, ?_,
      word_operand _ _, word_Iv _ _ hL, ?_, fun hG => ?_⟩
    · rw [get?_app_add, e4]
    · rw [get?_app_of_eq _ _ _ 5 (by omega), e5]
    · rw [get?_app_of_eq _ _ _ (8 + cK.length + cV.length) (by omega), eG]
    · rw [get?_app_of_eq _ _ _ (9 + cK.length + cV.length) (by omega), eE]
    · simp only [List.length_append, elen]
      omega
    · rw [word_operand]
      omega
    · have e : s.prog.length + 9 + cK.length + cV.length
          = s.prog.length + 8 + cK.length + cV.length + 1 := by omega
      rw [e]
      exact word_Iv _ _ hG
  · intro V s s' u h
    obtain ⟨c, -, -, -, rfl, -, hL⟩ :=
      compileSetList_shape d _ (compileOne_grows d rf fuel) sp V s s' u h
    obtain ⟨e3, e4, eG, eE, elen⟩ := listCode_layout d s.prog.length (Ty.kind d V) c
    refine ⟨s.prog.length + 6 + c.length, word (d.opv .OP_list_is_end) 0,
      word (d.opv .OP_if_true) (s.prog.length + 7 + c.length),
      word (d.opv .OP_goto) (s.prog.length + 3), word (d.opv .OP_list_end) 0,
      ?_, word_Op _ _, ?_, word_Op _ _, by omega, ?_, word_Op _ _, ?_, word_Op _ _, ?_,
      word_operand _ _, word_Iv _ _ hL, ?_, fun hG => ?_⟩
    · rw [get?_app_add, e3]
    · rw [get?_app_of_eq _ _ _ 4 (by omega), e4]
    · rw [get?_app_of_eq _ _ _ (6 + c.length) (by omega), eG]
    · rw [get?_app_of_eq _ _ _ (7 + c.length) (by omega), eE]
    · simp only [List.length_append, elen]
      omega
    · rw [word_operand]
      omega
    · have e : s.prog.length + 7 + c.length = s.prog.length + 6 + c.length + 1 := by omega
      rw [e]
      exact word_Iv _ _ hG

/-- C9 at a map from `string` to `i32` compiled into the empty program. -/
theorem C9_loop_well_formed_witness :
    compileMap (sampleDecls 10) (compileOne (sampleDecls 10) sampleResolver 2) 0
        (leafTy .T_string 6) (leafTy .T_i32 3) 8 { prog := [], trk := ∅ }
      = .ok () { prog := [1536, 2817, 2049, 2060, 13, 3083, 14, 6, 15, 1024, 1028, 1033, 16],
                 trk := ∅ } ∧
    LoopAt (sampleDecls 10) .OP_map_is_end .OP_map_end 4
      [1536, 2817, 2049, 2060, 13, 3083, 14, 6, 15, 1024, 1028, 1033, 16] :=
  ⟨by decide,
   (C9_loop_well_formed (sampleDecls 10) sampleResolver 2 0).1 (leafTy .T_string 6)
     (leafTy .T_i32 3) 8 { prog := [], trk := ∅ }
     { prog := [1536, 2817, 2049, 2060, 13, 3083, 14, 6, 15, 1024, 1028, 1033, 16], trk := ∅ }
     () (by decide)⟩

/-- C10 at a pointer to `i32` compiled into the empty program. -/
theorem C10_pointer_to_scalar_witness :
    Function.Injective (sampleDecls 10).opv ∧ Tag.isScalar .T_i32 = true ∧
    (3 : Nat) ∉ (∅ : Compiler) ∧
    compileOne (sampleDecls 10) sampleResolver 2 0 (ptrTo (leafTy .T_i32 3) 9)
        { prog := [], trk := ∅ }
      = .ok () { prog := [775, 1024, 1028], trk := ∅ } :=
  ⟨sampleOpv_injective, rfl, by decide,
   (C10_pointer_to_scalar (sampleDecls 10) sampleResolver sampleOpv_injective 0 0 .T_i32 rfl
     .null .null .null 3 9 [] ∅).2 (by decide) (by decide)⟩

/-! ## Struct termination: the STOP marker -/

theorem isStop_word (d : Decls) (hinj : Function.Injective d.opv) (o : OpCode) (x : Nat) :
    isStop d (word (d.opv o) x) = decide (o = .OP_byte ∧ x = 0) := by
  simp only [isStop, word_Op, word_operand, hinj.eq_iff]

theorem stops_append (d : Decls) (a b : List Nat) : stops d (a ++ b) = stops d a + stops d b := by
  simp [stops, List.countP_append]

theorem stops_fieldHead (d : Decls) (hinj : Function.Injective d.opv) (prev : Nat) (fv : Field)
    (hk : Ty.kind d fv.Typ ≠ 0) : stops d (fieldHead d prev fv) = 0 := by
  simp [stops, fieldHead, List.countP_cons, isStop_word d hinj, hk]

theorem stops_structHead (d : Decls) (hinj : Function.Injective d.opv) (fv : Field)
    (hk : Ty.kind d fv.Typ ≠ 0) : stops d (structHead d fv) = 0 := by
  simp [stops, structHead, List.countP_cons, isStop_word d hinj, hk]

theorem stops_fieldsCode (d : Decls) (hinj : Function.Injective d.opv) :
    ∀ (fvs : List Field) (cs : List (List Nat)) (prev : Nat), fvs.length = cs.length →
    (∀ fv ∈ fvs, Ty.kind d fv.Typ ≠ 0) →
    stops d (fieldsCode d prev fvs cs) = (cs.map (stops d)).sum := by
  intro fvs
  induction fvs with
  | nil =>
    intro cs prev hl _
    cases cs with
    | nil => simp [fieldsCode, stops]
    | cons c cs => cases hl
  | cons fv rest ih =>
    intro cs prev hl hk
    cases cs with
    | nil => cases hl
    | cons c cs =>
      simp only [fieldsCode, stops_append, List.map_cons, List.sum_cons,
        stops_fieldHead d hinj prev fv (hk fv (List.mem_cons_self _ _)),
        ih cs fv.F (by simpa using hl) (fun f hf => hk f (List.mem_cons_of_mem _ hf))]
      omega

/-- The code of a struct with at least one field is a body followed by one STOP marker, the
body ends with the code of the last field, and when no field kind has the number `0` the STOP
markers of the body are those inside the codes of the fields. -/
theorem structCode_stops (d : Decls) (hinj : Function.Injective d.opv) (f0 : Field)
    (rest : List Field) (c0 : List Nat) (cs : List (List Nat))
    (hl : rest.length = cs.length) :
    ∃ pre, structCode d (f0 :: rest) (c0 :: cs)
        = pre ++ (c0 :: cs).getLast (List.cons_ne_nil _ _) ++ [word (d.opv .OP_byte) 0] ∧
      ((∀ fv ∈ f0 :: rest, Ty.kind d fv.Typ ≠ 0) →
        stops d (pre ++ (c0 :: cs).getLast (List.cons_ne_nil _ _))
          = ((c0 :: cs).map (stops d)).sum) := by
  have hlast : ∀ (fvs : List Field) (cs : List (List Nat)) (prev : Nat) (c : List Nat),
      fvs.length = cs.length →
      ∃ pre, c ++ fieldsCode d prev fvs cs = pre ++ (c :: cs).getLast (List.cons_ne_nil _ _) := by
    intro fvs
    induction fvs with
    | nil =>
      intro cs prev c hl
      cases cs with
      | nil => exact ⟨[], by simp [fieldsCode]⟩
      | cons c1 cs => cases hl
    | cons fv rest ih =>
      intro cs prev c hl
      cases cs with
      | nil => cases hl
      | cons c1 cs =>
        obtain ⟨pre, hpre⟩ := ih cs fv.F c1 (by simpa using hl)
        refine ⟨c ++ fieldHead d prev fv ++ pre, ?_⟩
        simp only [fieldsCode, List.append_assoc, List.getLast_cons (List.cons_ne_nil _ _)]
        rw [hpre]
  obtain ⟨pre, hpre⟩ := hlast rest cs f0.F c0 hl
  refine ⟨structHead d f0 ++ pre, ?_, ?_⟩
  · simp only [structCode, List.append_assoc]
    rw [← List.append_assoc c0, hpre]
    simp
  · intro hk
    rw [List.append_assoc, ← hpre, stops_append, stops_append,
      stops_structHead d hinj f0 (hk f0 (List.mem_cons_self _ _)),
      stops_fieldsCode d hinj rest cs f0.F hl (fun f hf => hk f (List.mem_cons_of_mem _ hf))]
    simp

/-- C11, as amended: every returning run of `compileStruct` on a struct with the resolved
fields `fvs` appends the code `structCode`, built from codes `cs` that `compileOne` wrote for
the fields at depth `sp + 1`. With no field the span is the single STOP marker. With `N ≥ 1`
fields the span is a body followed by one STOP marker, the body ends with the code of the
`N`th field, and (the opcodes being numbered apart and no field kind having the number `0`)
the body holds no STOP marker besides those that lie inside the codes of the fields: a field
of a struct type brings the STOP marker of its own struct. -/
theorem C11_stop_marker_ends_struct (d : Decls) (rf : Resolver)
    (hinj : Function.Injective d.opv) (fuel sp S : Nat) (s s' : CState) (u : Unit)
    (h : compileStruct d rf (compileOne d rf fuel) sp S s = .ok u s') :
    ∃ fvs cs, rf S = .ok fvs ∧
      List.Forall₂ (fun fv c => ∃ q, compileOne d rf fuel (sp + 1) fv.Typ
          { prog := q, trk := s.trk } = .ok () { prog := q ++ c, trk := s.trk }) fvs cs ∧
      s' = { prog := s.prog ++ structCode d fvs cs, trk := s.trk } ∧
      (fvs = [] → structCode d fvs cs = [word (d.opv .OP_byte) 0]) ∧
      (fvs ≠ [] → ∃ pre cN, cs.getLast? = some cN ∧
        structCode d fvs cs = pre ++ cN ++ [word (d.opv .OP_byte) 0] ∧
        isStop d (word (d.opv .OP_byte) 0) = true ∧
        ((∀ fv ∈ fvs, Ty.kind d fv.Typ ≠ 0) →
          stops d (pre ++ cN) = (cs.map (stops d)).sum ∧
          stops d (structCode d fvs cs) = 1 + (cs.map (stops d)).sum)) := by
  obtain ⟨fvs, cs, hrf, hruns, hs', -, -⟩ :=
    compileStruct_shape d rf _ (compileOne_grows d rf fuel) sp S s s' u h
  have hf2 := structRuns_forall₂ d _ sp s.trk s.prog fvs cs hruns
  refine ⟨fvs, cs, hrf, hf2, hs', ?_, ?_⟩
  · rintro rfl
    cases cs <;> rfl
  · intro hne
    cases fvs with
    | nil => exact absurd rfl hne
    | cons f0 rest =>
      cases cs with
      | nil => cases hf2
      | cons c0 cs =>
        have hl : rest.length = cs.length := by
          simpa using hf2.length_eq
        obtain ⟨pre, hpre, hcount⟩ := structCode_stops d hinj f0 rest c0 cs hl
        refine ⟨pre, _, List.getLast?_eq_getLast _ (List.cons_ne_nil _ _), hpre, ?_, ?_⟩
        · simp [isStop_word d hinj]
        · intro hk
          refine ⟨hcount hk, ?_⟩
          rw [hpre, stops_append, hcount hk]
          simp [stops, isStop_word d hinj]
          omega

/-- The struct `0` of the chain of length one, and a budget of ten levels. -/
theorem C11_stop_marker_ends_struct_witness :
    ∃ fvs cs, chainResolver 1 0 = .ok fvs ∧
      List.Forall₂ (fun fv c => ∃ q, compileOne (sampleDecls 10) (chainResolver 1) 2 (0 + 1)
          fv.Typ { prog := q, trk := {0} } = .ok () { prog := q ++ c, trk := {0} }) fvs cs ∧
      (⟨[768, 3073, 258, 768, 513, 258, 256, 260, 1, 1], {0}⟩ : CState)
        = { prog := [] ++ structCode (sampleDecls 10) fvs cs, trk := {0} } ∧
      (fvs = [] → structCode (sampleDecls 10) fvs cs = [word ((sampleDecls 10).opv .OP_byte) 0]) ∧
      (fvs ≠ [] → ∃ pre cN, cs.getLast? = some cN ∧
        structCode (sampleDecls 10) fvs cs
          = pre ++ cN ++ [word ((sampleDecls 10).opv .OP_byte) 0] ∧
        isStop (sampleDecls 10) (word ((sampleDecls 10).opv .OP_byte) 0) = true ∧
        ((∀ fv ∈ fvs, Ty.kind (sampleDecls 10) fv.Typ ≠ 0) →
          stops (sampleDecls 10) (pre ++ cN) = (cs.map (stops (sampleDecls 10))).sum ∧
          stops (sampleDecls 10) (structCode (sampleDecls 10) fvs cs)
            = 1 + (cs.map (stops (sampleDecls 10))).sum)) :=
  C11_stop_marker_ends_struct (sampleDecls 10) (chainResolver 1) sampleOpv_injective 2 0 0
    ⟨[], {0}⟩ ⟨[768, 3073, 258, 768, 513, 258, 256, 260, 1, 1], {0}⟩ () (by decide)

/-- C11 as stated fails: the struct `0` of the chain of length one has one field, of the struct
type `1`, and its span of ten instructions holds two STOP markers: the one of the struct `1` at
position 8, inside the code of the field, and its own at position 9. -/
theorem C11_counterexample :
    compileOne (sampleDecls 10) (chainResolver 1) 3 0 (leafTy .T_struct 0) ⟨[], ∅⟩
        = .ok () ⟨[768, 3073, 258, 768, 513, 258, 256, 260, 1, 1], ∅⟩ ∧
      chainResolver 1 0 = .ok [⟨1, 0, leafTy .T_struct 1⟩] ∧
      stops (sampleDecls 10) [768, 3073, 258, 768, 513, 258, 256, 260, 1, 1] = 2 ∧
      Instr.Op 1 = (sampleDecls 10).opv .OP_byte ∧ Instr.Iv 1 = 0 := by
  decide

/-! ## The nesting budget -/

theorem Gen.tag_panic (d : Decls) (n : Nat) (s : CState) (h : d.MaxStack ≤ n) :
    Gen.tag d n s = .panic (.str "type nesting too deep") s := by
  simp [Gen.tag, Program.tag, h]

theorem fieldHead_length (d : Decls) (prev : Nat) (fv : Field) :
    (fieldHead d prev fv).length = 4 := rfl

theorem structHead_length (d : Decls) (fv : Field) : (structHead d fv).length = 3 := rfl

/-- The loop over the fields after the first one, run forwards from the runs of the fields. -/
theorem compileFields_of_runs (d : Decls) (self : Nat → Ty → Gen Unit) (sp : Nat)
    (t : Compiler) : ∀ (fvs : List Field) (cs : List (List Nat)) (prev : Nat) (p : Program),
    FieldRuns d self sp t p prev fvs cs → (∀ fv ∈ fvs, HeadFits d fv) → SeeksFit prev fvs →
    p.length + (fieldsCode d prev fvs cs).length ≤ MaxUint56 →
    compileFields d self sp prev fvs { prog := p, trk := t }
      = .ok () { prog := p ++ fieldsCode d prev fvs cs, trk := t } := by
  intro fvs
  induction fvs with
  | nil =>
    intro cs prev p hr _ _ _
    cases cs with
    | nil => simp [compileFields, Gen.ret, fieldsCode]
    | cons c cs => exact absurd hr (by simp [FieldRuns])
  | cons fv rest ih =>
    intro cs prev p hr hh hs hroom
    cases cs with
    | nil => exact absurd hr (by simp [FieldRuns])
    | cons c cs =>
      simp only [FieldRuns] at hr
      obtain ⟨hrun, hrest⟩ := hr
      obtain ⟨hne, hk, hid⟩ := hh fv (List.mem_cons_self _ _)
      obtain ⟨hs1, hs2, hs3⟩ := hs
      simp only [fieldsCode, List.length_append, fieldHead_length] at hroom
      have hrec := ih cs fv.F _ hrest (fun f hf => hh f (List.mem_cons_of_mem _ hf)) hs3
        (by simp only [List.length_append, fieldHead_length]; omega)
      simp only [compileFields, Gen.bind_eq, Gen.andThen_ok, Gen.i64_ok, Gen.kindOf_ok]
      refine ⟨(), _, ⟨by decide, by decide, by show p.length < MaxUint56; omega, rfl⟩,
        (), _, ⟨hs1, hs2, ?_, rfl⟩, _, _, ⟨hne, rfl, rfl⟩,
        (), _, ⟨?_, hk, ?_, rfl⟩, (), _, ⟨?_, hid, ?_, rfl⟩,
        (), { prog := p ++ fieldHead d prev fv ++ c, trk := t }, ?_, ?_⟩
      · simp only [List.length_append, List.length_cons, List.length_nil]
        omega
      · simp only [MinInt56]
        omega
      · simp only [List.length_append, List.length_cons, List.length_nil]
        omega
      · simp only [MinInt56]
        omega
      · simp only [List.length_append, List.length_cons, List.length_nil]
        omega
      · simp only [imm56_lits, imm56_of_le _ hk, imm56_of_le _ hid, List.append_assoc,
          List.singleton_append, List.cons_append, List.nil_append]
        simpa [fieldHead] using hrun
      · rw [hrec]
        simp [fieldsCode]

/-- The code of a struct, run forwards from the runs of its fields. -/
theorem compileStruct_of_runs (d : Decls) (rf : Resolver) (self : Nat → Ty → Gen Unit)
    (sp S : Nat) (t : Compiler) (p : Program) (f0 : Field) (rest : List Field)
    (cs : List (List Nat)) (hrf : rf S = .ok (f0 :: rest)) (hsp : sp < d.MaxStack)
    (hr : StructRuns d self sp t p (f0 :: rest) cs) (hh : ∀ fv ∈ f0 :: rest, HeadFits d fv)
    (hs : SeeksFit f0.F rest)
    (hroom : p.length + (structCode d (f0 :: rest) cs).length ≤ MaxUint56) :
    compileStruct d rf self sp S { prog := p, trk := t }
      = .ok () { prog := p ++ structCode d (f0 :: rest) cs, trk := t } := by
  cases cs with
  | nil => exact absurd hr (by simp [StructRuns])
  | cons c cs =>
    simp only [StructRuns] at hr
    obtain ⟨hrun, hrest⟩ := hr
    obtain ⟨hne, hk, hid⟩ := hh f0 (List.mem_cons_self _ _)
    simp only [structCode, List.length_append, structHead_length, List.length_cons,
      List.length_nil] at hroom
    have hrec := compileFields_of_runs d self sp t rest cs f0.F _ hrest
      (fun f hf => hh f (List.mem_cons_of_mem _ hf)) hs
      (by simp only [List.length_append, structHead_length]; omega)
    unfold compileStruct
    rw [hrf]
    simp only [Gen.bind_eq, Gen.andThen_ok, Gen.i64_ok, Gen.kindOf_ok, Gen.tag_ok]
    refine ⟨(), _, ⟨hsp, rfl⟩, (), _,
      ⟨by decide, by decide, by show p.length < MaxUint56; omega, rfl⟩,
      _, _, ⟨hne, rfl, rfl⟩, (), _, ⟨?_, hk, ?_, rfl⟩, (), _, ⟨?_, hid, ?_, rfl⟩,
      (), { prog := p ++ structHead d f0 ++ c, trk := t }, ?_,
      (), { prog := p ++ structHead d f0 ++ c ++ fieldsCode d f0.F rest cs, trk := t }, hrec,
      by decide, by decide, ?_, ?_⟩
    · simp only [MinInt56]
      omega
    · simp only [List.length_append, List.length_cons, List.length_nil]
      omega
    · simp only [MinInt56]
      omega
    · simp only [List.length_append, List.length_cons, List.length_nil]
      omega
    · simp only [imm56_lits, imm56_of_le _ hk, imm56_of_le _ hid, List.append_assoc,
        List.singleton_append, List.cons_append, List.nil_append]
      simpa [structHead] using hrun
    · simp only [List.length_append, structHead_length]
      omega
    · simp [structCode, imm56_lits]

/-- A struct whose first field panics: the panic of the field is the panic of the struct. -/
theorem compileStruct_first_panic (d : Decls) (rf : Resolver) (self : Nat → Ty → Gen Unit)
    (sp S : Nat) (t : Compiler) (p : Program) (f0 : Field) (rest : List Field) (v : PanicVal)
    (s : CState) (hrf : rf S = .ok (f0 :: rest)) (hsp : sp < d.MaxStack) (hh : HeadFits d f0)
    (hroom : p.length + 3 ≤ MaxUint56)
    (hrun : self (sp + 1) f0.Typ { prog := p ++ structHead d f0, trk := t } = .panic v s) :
    compileStruct d rf self sp S { prog := p, trk := t } = .panic v s := by
  obtain ⟨hne, hk, hid⟩ := hh
  unfold compileStruct
  rw [hrf]
  simp only [Gen.bind_eq, Gen.andThen_panic, Gen.andThen_ok, Gen.i64_ok, Gen.kindOf_ok,
    Gen.tag_ok]
  refine Or.inr ⟨(), _, ⟨hsp, rfl⟩, Or.inr ⟨(), _,
    ⟨by decide, by decide, by show p.length < MaxUint56; omega, rfl⟩,
    Or.inr ⟨_, _, ⟨hne, rfl, rfl⟩, Or.inr ⟨(), _, ⟨?_, hk, ?_, rfl⟩,
    Or.inr ⟨(), _, ⟨?_, hid, ?_, rfl⟩, Or.inl ?_⟩⟩⟩⟩⟩
  · simp only [MinInt56]
    omega
  · simp only [List.length_append, List.length_cons, List.length_nil]
    omega
  · simp only [MinInt56]
    omega
  · simp only [List.length_append, List.length_cons, List.length_nil]
    omega
  · simp only [imm56_lits, imm56_of_le _ hk, imm56_of_le _ hid, List.append_assoc,
      List.singleton_append, List.cons_append, List.nil_append]
    simpa [structHead] using hrun

/-- A struct with a field, at a depth that is not below the budget: the depth guard panics
before anything is written. -/
theorem compileStruct_too_deep (d : Decls) (rf : Resolver) (self : Nat → Ty → Gen Unit)
    (sp S : Nat) (s : CState) (f0 : Field) (rest : List Field)
    (hrf : rf S = .ok (f0 :: rest)) (hsp : d.MaxStack ≤ sp) :
    compileStruct d rf self sp S s = .panic (.str "type nesting too deep") s := by
  unfold compileStruct
  rw [hrf]
  simp only [Gen.bind_eq, Gen.andThen, Gen.tag_panic d sp _ hsp]

/-- One level of `compileOne` on a descriptor that is not a pointer and is not marked: the
identity is marked, `compileRec` runs, and the mark is removed if it returns. -/
theorem compileOne_unmarked (d : Decls) (rf : Resolver) (fuel sp : Nat) (T : Tag) (K V : Ty)
    (S : Nat) (hT : T ≠ .T_pointer) (p : Program) (t : Compiler) (hS : S ∉ t) :
    compileOne d rf (fuel + 1) sp (.node T K V S) { prog := p, trk := t } =
      match compileRec d rf (compileOne d rf fuel) sp T K V S { prog := p, trk := insert S t } with
      | .ok _ s1 => .ok () { prog := s1.prog, trk := s1.trk.erase S }
      | .panic v s1 => .panic v s1
      | .stuck => .stuck := by
  rw [compileOne_succ, if_neg hT]
  simp only [Gen.andThen, Gen.marked, hS, decide_False, Bool.not_false, if_true, compileSet,
    Gen.bind_eq, Gen.mark, Gen.unmark]
  cases compileRec d rf (compileOne d rf fuel) sp T K V S { prog := p, trk := insert S t } <;> rfl

theorem chainResolver_lt (n S : Nat) (h : S < n) :
    chainResolver n S = .ok [⟨1, 0, leafTy .T_struct (S + 1)⟩] := by
  simp [chainResolver, h]

theorem chainResolver_eq (n : Nat) :
    chainResolver n n = .ok [⟨1, 0, leafTy .T_bool (n + 1)⟩] := by
  simp [chainResolver]

/-- The struct `j` of the chain, with `k` structs nested below it, compiled at depth `sp`:
the run returns when the innermost struct sits at a depth below the budget, and panics with
the nesting message when it does not. -/
theorem chain_run (d : Decls) (n : Nat)
    (hks : (d.tagv .T_struct : Int) ≤ MaxInt56) (hkb : (d.tagv .T_bool : Int) ≤ MaxInt56) :
    ∀ (k j sp fuel : Nat) (p : Program) (t : Compiler), j + k = n → k + 2 ≤ fuel →
    (∀ i, j ≤ i → i ≤ n + 1 → i ∉ t) →
    (sp + k < d.MaxStack → p.length + 4 * k + 6 ≤ MaxUint56 →
      ∃ c, c.length = 4 * k + 6 ∧
        compileOne d (chainResolver n) fuel sp (leafTy .T_struct j) { prog := p, trk := t }
          = .ok () { prog := p ++ c, trk := t }) ∧
    (d.MaxStack ≤ sp + k → p.length + 3 * (d.MaxStack - sp) ≤ MaxUint56 →
      ∃ s, compileOne d (chainResolver n) fuel sp (leafTy .T_struct j) { prog := p, trk := t }
          = .panic (.str "type nesting too deep") s) := by
  intro k
  induction k with
  | zero =>
    intro j sp fuel p t hj hf ht
    have hjn : j = n := by omega
    subst hjn
    obtain ⟨f, rfl⟩ : ∃ f, fuel = f + 2 := ⟨fuel - 2, by omega⟩
    have hS : j ∉ t := ht j le_rfl (by omega)
    have hB : j + 1 ∉ insert j t := by
      simp only [Finset.mem_insert, not_or]
      exact ⟨by omega, ht (j + 1) (by omega) le_rfl⟩
    rw [leafTy, compileOne_unmarked d _ (f + 1) sp _ _ _ j (by decide) p t hS]
    simp only [compileRec]
    constructor
    · intro hsp hroom
      have hrun : StructRuns d (compileOne d (chainResolver j) (f + 1)) sp (insert j t) p
          [⟨1, 0, leafTy .T_bool (j + 1)⟩] [scalarCode d .T_bool] := by
        simp only [StructRuns, FieldRuns, and_true, leafTy]
        rw [compileOne_scalar d _ f (sp + 1) .T_bool _ _ _ rfl _ _ _ hB]
        refine ⟨?_, rfl⟩
        simp only [List.length_append, structHead_length, scalarCode, List.length_cons,
          List.length_nil]
        omega
      rw [compileStruct_of_runs d _ _ sp j (insert j t) p _ [] _ (chainResolver_eq j)
        (by omega) hrun ?_ trivial ?_]
      · refine ⟨structCode d [⟨1, 0, leafTy .T_bool (j + 1)⟩] [scalarCode d .T_bool], rfl, ?_⟩
        simp [Finset.erase_insert hS]
      · intro fv hfv
        simp only [List.mem_singleton] at hfv
        subst hfv
        exact ⟨by simp [leafTy], by simpa [leafTy, Ty.kind] using hkb,
          (by decide : ((1 : Nat) : Int) ≤ MaxInt56)⟩
      · simp only [structCode, fieldsCode, List.length_append, structHead_length, scalarCode,
          List.length_cons, List.length_nil]
        omega
    · intro hsp _
      refine ⟨{ prog := p, trk := insert j t }, ?_⟩
      rw [compileStruct_too_deep d _ _ sp j _ _ _ (chainResolver_eq j) (by omega)]
  | succ k ih =>
    intro j sp fuel p t hj hf ht
    obtain ⟨f, rfl⟩ : ∃ f, fuel = f + 1 := ⟨fuel - 1, by omega⟩
    have hS : j ∉ t := ht j le_rfl (by omega)
    have ht' : ∀ i, j + 1 ≤ i → i ≤ n + 1 → i ∉ insert j t := by
      intro i h1 h2
      simp only [Finset.mem_insert, not_or]
      exact ⟨by omega, ht i (by omega) h2⟩
    have hrf := chainResolver_lt n j (by omega)
    rw [leafTy, compileOne_unmarked d _ f sp _ _ _ j (by decide) p t hS]
    simp only [compileRec]
    obtain ⟨hok, hpanic⟩ := ih (j + 1) (sp + 1) f
      (p ++ structHead d ⟨1, 0, leafTy .T_struct (j + 1)⟩) (insert j t) (by omega) (by omega) ht'
    constructor
    · intro hsp hroom
      obtain ⟨c, hc, hrun⟩ := hok (by omega)
        (by simp only [List.length_append, structHead_length]; omega)
      have hruns : StructRuns d (compileOne d (chainResolver n) f) sp (insert j t) p
          [⟨1, 0, leafTy .T_struct (j + 1)⟩] [c] := by
        simp only [StructRuns, FieldRuns, and_true]
        exact hrun
      rw [compileStruct_of_runs d _ _ sp j (insert j t) p _ [] _ hrf
        (by omega) hruns ?_ trivial ?_]
      · refine ⟨structCode d [⟨1, 0, leafTy .T_struct (j + 1)⟩] [c], ?_, ?_⟩
        · simp only [structCode, fieldsCode, List.length_append, structHead_length,
            List.length_cons, List.length_nil]
          omega
        · simp [Finset.erase_insert hS]
      · intro fv hfv
        simp only [List.mem_singleton] at hfv
        subst hfv
        exact ⟨by simp [leafTy], by simpa [leafTy, Ty.kind] using hks,
          (by decide : ((1 : Nat) : Int) ≤ MaxInt56)⟩
      · simp only [structCode, fieldsCode, List.length_append, structHead_length,
          List.length_cons, List.length_nil]
        omega
    · intro hsp hroom
      by_cases hnow : d.MaxStack ≤ sp
      · refine ⟨{ prog := p, trk := insert j t }, ?_⟩
        rw [compileStruct_too_deep d _ _ sp j _ _ _ hrf hnow]
      · obtain ⟨s, hs⟩ := hpanic (by omega)
          (by simp only [List.length_append, structHead_length]; omega)
        refine ⟨s, ?_⟩
        rw [compileStruct_first_panic d _ _ sp j (insert j t) p _ [] _ s hrf (by omega)
          ⟨by simp [leafTy], by simpa [leafTy, Ty.kind] using hks,
            (by decide : ((1 : Nat) : Int) ≤ MaxInt56)⟩ (by omega) hs]

/-- C12, as amended: `Program.tag` returns exactly for the depths below `MaxStack` and panics
with the nesting message for every depth from `MaxStack` on. Hence a chain of directly nested
structs with a field each (the root at depth 0, the kinds within the immediate range and the
budget small enough for the code to fit a program) compiles when its innermost struct sits at
a depth `n` below `MaxStack`, so at most at `MaxStack - 1`, and panics with the nesting message
when the innermost struct sits at depth `MaxStack` or deeper. -/
theorem C12_nesting_threshold (d : Decls)
    (hks : (d.tagv .T_struct : Int) ≤ MaxInt56) (hkb : (d.tagv .T_bool : Int) ≤ MaxInt56)
    (hM : 4 * d.MaxStack + 6 ≤ MaxUint56) :
    (∀ (p : Program) (n : Nat), Program.tag d p n = .ok () ↔ n < d.MaxStack) ∧
    (∀ (p : Program) (n : Nat), d.MaxStack ≤ n →
      Program.tag d p n = .error (.str "type nesting too deep")) ∧
    (∀ n fuel : Nat, n + 2 ≤ fuel → n < d.MaxStack →
      ∃ c, compileOne d (chainResolver n) fuel 0 (leafTy .T_struct 0) { prog := [], trk := ∅ }
        = .ok () { prog := c, trk := ∅ }) ∧
    (∀ n fuel : Nat, n + 2 ≤ fuel → d.MaxStack ≤ n →
      ∃ s, compileOne d (chainResolver n) fuel 0 (leafTy .T_struct 0) { prog := [], trk := ∅ }
        = .panic (.str "type nesting too deep") s) := by
  refine ⟨?_, ?_, ?_, ?_⟩
  · intro p n
    unfold Program.tag
    by_cases h : n ≥ d.MaxStack
    · simp [h]
    · simp only [h, if_false, true_iff]
      omega
  · intro p n h
    unfold Program.tag
    rw [if_pos h]
  · intro n fuel hf hn
    obtain ⟨c, -, hc⟩ := (chain_run d n hks hkb n 0 0 fuel [] ∅ (by omega) hf
      (fun i _ _ => Finset.not_mem_empty i)).1 (by omega)
      (by simp only [List.length_nil]; omega)
    exact ⟨c, by simpa using hc⟩
  · intro n fuel hf hn
    exact (chain_run d n hks hkb n 0 0 fuel [] ∅ (by omega) hf
      (fun i _ _ => Finset.not_mem_empty i)).2 (by omega)
      (by simp only [List.length_nil]; omega)

/-- The amended threshold with the sample declarations and a budget of two levels. -/
theorem C12_nesting_threshold_witness :
    (∀ (p : Program) (n : Nat), Program.tag (sampleDecls 2) p n = .ok () ↔
      n < (sampleDecls 2).MaxStack) ∧
    (∀ (p : Program) (n : Nat), (sampleDecls 2).MaxStack ≤ n →
      Program.tag (sampleDecls 2) p n = .error (.str "type nesting too deep")) ∧
    (∀ n fuel : Nat, n + 2 ≤ fuel → n < (sampleDecls 2).MaxStack →
      ∃ c, compileOne (sampleDecls 2) (chainResolver n) fuel 0 (leafTy .T_struct 0)
          { prog := [], trk := ∅ } = .ok () { prog := c, trk := ∅ }) ∧
    (∀ n fuel : Nat, n + 2 ≤ fuel → (sampleDecls 2).MaxStack ≤ n →
      ∃ s, compileOne (sampleDecls 2) (chainResolver n) fuel 0 (leafTy .T_struct 0)
          { prog := [], trk := ∅ } = .panic (.str "type nesting too deep") s) :=
  C12_nesting_threshold (sampleDecls 2) (by decide) (by decide) (by decide)

/-- C12 as stated fails at the budget itself: with a budget of two levels `tag(2)` panics,
the chain whose innermost struct sits at depth 2 panics with the nesting message after the
heads of the two structs above it, and the chain whose innermost struct sits at depth 1 is the
deepest one that compiles. -/
theorem C12_counterexample :
    Program.tag (sampleDecls 2) [] 2 = .error (.str "type nesting too deep") ∧
    compileOne (sampleDecls 2) (chainResolver 2) 5 0 (leafTy .T_struct 0) ⟨[], ∅⟩
      = .panic (.str "type nesting too deep") ⟨[768, 3073, 258, 768, 3073, 258], {2, 1, 0}⟩ ∧
    compileOne (sampleDecls 2) (chainResolver 1) 5 0 (leafTy .T_struct 0) ⟨[], ∅⟩
      = .ok () ⟨[768, 3073, 258, 768, 513, 258, 256, 260, 1, 1], ∅⟩ := by
  decide

/-! ## Disassembly: the label lines -/

theorem get?_app_lt {α : Type} (l r : List α) (i : Nat) (h : i < l.length) :
    (l ++ r).get? i = l.get? i := by
  induction l generalizing i with
  | nil => exact absurd h (Nat.not_lt_zero _)
  | cons x l ih =>
    cases i with
    | zero => rfl
    | succ i => simpa using ih i (by simpa using h)

theorem getD_set_true (tab : List Bool) (k i : Nat) (hk : k < tab.length) :
    (tab.set k true).getD i false = (decide (i = k) || tab.getD i false) := by
  simp only [List.getD_eq_getElem?_getD, List.getElem?_set]
  by_cases h : k = i
  · subst h
    simp [hk]
  · have h' : ¬ i = k := fun e => h e.symm
    simp [h, h']

/-- The prescan returns when every branch operand is inside the table, and then the table
holds the marks it held before and one at every branch operand. -/
theorem disLabels_ok (d : Decls) : ∀ (rest : List Nat) (tab : List Bool),
    (∀ w ∈ rest, d.OpBranches (Instr.Op w) = true →
      0 ≤ Instr.Iv w ∧ Instr.Iv w < (tab.length : Int)) →
    ∃ tab', disLabels d rest tab = .ok tab' ∧ tab'.length = tab.length ∧
      ∀ i, tab'.getD i false = (tab.getD i false || isTarget d rest i) := by
  intro rest
  induction rest with
  | nil =>
    intro tab _
    exact ⟨tab, rfl, rfl, fun i => by simp [isTarget]⟩
  | cons w rest ih =>
    intro tab h
    have hrest : ∀ tab2 : List Bool, tab2.length = tab.length → ∀ w ∈ rest,
        d.OpBranches (Instr.Op w) = true →
        0 ≤ Instr.Iv w ∧ Instr.Iv w < (tab2.length : Int) := by
      intro tab2 h2 w1 hw1 hb
      rw [h2]
      exact h w1 (List.mem_cons_of_mem _ hw1) hb
    by_cases hb : d.OpBranches (Instr.Op w) = true
    · obtain ⟨h0, h1⟩ := h w (List.mem_cons_self _ _) hb
      have hk : (Instr.Iv w).toNat < tab.length := by omega
      obtain ⟨tab', he, hl, hg⟩ := ih (tab.set (Instr.Iv w).toNat true)
        (hrest _ (List.length_set _ _ _))
      refine ⟨tab', ?_, by rw [hl, List.length_set], fun i => ?_⟩
      · simp only [disLabels, hb, if_true, h0, hk, and_self]
        exact he
      · rw [hg i, getD_set_true tab _ i hk]
        have e : decide (i = (Instr.Iv w).toNat) = decide (Instr.Iv w = (i : Int)) := by
          apply decide_eq_decide.mpr
          omega
        simp only [isTarget, List.any_cons, hb, Bool.true_and, e]
        cases decide (Instr.Iv w = (i : Int)) <;> cases tab.getD i false <;> simp
    · obtain ⟨tab', he, hl, hg⟩ := ih tab (hrest tab rfl)
      refine ⟨tab', ?_, hl, fun i => ?_⟩
      · simp only [disLabels, hb, Bool.false_eq_true, if_false]
        exact he
      · rw [hg i]
        simp [isTarget, hb]

theorem disLines_length (dis : Nat → String) (tab : List Bool) :
    ∀ (rest : List Nat) (i : Nat), (disLines dis tab i rest).length = rest.length := by
  intro rest
  induction rest with
  | nil => intro i; rfl
  | cons w rest ih => intro i; simp [disLines, ih]

theorem disLines_get? (dis : Nat → String) (tab : List Bool) :
    ∀ (rest : List Nat) (i j : Nat) (w : Nat), rest.get? j = some w →
    (disLines dis tab i rest).get? j
      = some (if tab.getD (i + j) false then "L_" ++ toString (i + j) ++ ":\n\t" ++ dis w
              else "\t" ++ dis w) := by
  intro rest
  induction rest with
  | nil => intro i j w h; cases h
  | cons w0 rest ih =>
    intro i j w h
    cases j with
    | zero =>
      simp only [List.get?_cons_zero, Option.some.injEq] at h
      subst h
      simp only [disLines, List.get?_cons_zero, Nat.add_zero]
      cases tab.getD i false <;> rfl
    | succ j =>
      simp only [List.get?_cons_succ] at h
      simp only [disLines, List.get?_cons_succ]
      rw [ih (i + 1) j w h]
      have e : i + 1 + j = i + (j + 1) := by omega
      rw [e]

/-- An entry with a label line and an entry without one are different texts. -/
theorem label_ne_plain (i : Nat) (a b : String) :
    "L_" ++ toString i ++ ":\n\t" ++ a ≠ "\t" ++ b := by
  intro h
  have h2 := congrArg String.data h
  simp only [String.data_append] at h2
  cases h2

/-- C13: when every operand of a branch-class instruction, as `Iv` decodes it, lies in
`[0, len(program)]`, `Program.Disassemble` returns the lines of `disassembleLines` joined by
line breaks, and among them: the entry of the instruction at `i` starts with the label line
`L_<i>:` exactly when `i` is the operand of some branch-class instruction (and is the bare
instruction line otherwise, a different text); after the entries of the instructions comes
the line `L_<len>:` exactly when `len(program)` is such an operand; and the last line is the
end line. -/
theorem C13_disassembly_label_coverage (d : Decls) (dis : Nat → String) (p : Program)
    (h : ∀ w ∈ p, d.OpBranches (Instr.Op w) = true →
      0 ≤ Instr.Iv w ∧ Instr.Iv w ≤ (p.length : Int)) :
    ∃ ret, Program.disassembleLines d dis p = .ok ret ∧
      Program.Disassemble d dis p = .ok (String.intercalate "\n" ret) ∧
      (∀ i w, p.get? i = some w →
        ret.get? i = some (if isTarget d p i then "L_" ++ toString i ++ ":\n\t" ++ dis w
                           else "\t" ++ dis w) ∧
        "L_" ++ toString i ++ ":\n\t" ++ dis w ≠ "\t" ++ dis w) ∧
      ret.drop p.length = (if isTarget d p p.length
        then ["L_" ++ toString p.length ++ ":", "\tend"] else ["\tend"]) ∧
      ret.getLast? = some "\tend" := by
  obtain ⟨tab, he, -, hg⟩ := disLabels_ok d p (List.replicate (p.length + 1) false) (by
    intro w hw hb
    obtain ⟨h0, h1⟩ := h w hw hb
    simp only [List.length_replicate]
    push_cast
    omega)
  have hg' : ∀ i, tab.getD i false = isTarget d p i := by
    intro i
    rw [hg i]
    by_cases hi : i < p.length + 1 <;>
      simp [List.getD_eq_getElem?_getD, List.getElem?_replicate, hi]
  have hlines : Program.disassembleLines d dis p
      = .ok ((if isTarget d p p.length then disLines dis tab 0 p ++
          ["L_" ++ toString p.length ++ ":"] else disLines dis tab 0 p) ++ ["\tend"]) := by
    simp only [Program.disassembleLines, he, hg']
  refine ⟨_, hlines, by simp only [Program.Disassemble, hlines], fun i w hw => ⟨?_, ?_⟩, ?_, ?_⟩
  · have hi : i < (disLines dis tab 0 p).length := by
      rw [disLines_length]
      exact List.get?_eq_some.mp hw |>.1
    have e := disLines_get? dis tab p 0 i w hw
    simp only [Nat.zero_add, hg'] at e
    by_cases ht : isTarget d p p.length = true
    · simp only [ht, if_true, List.append_assoc]
      rw [get?_app_lt _ _ _ hi, e]
    · simp only [ht, Bool.false_eq_true, if_false]
      rw [get?_app_lt _ _ _ hi, e]
  · exact label_ne_plain i _ _
  · have hl := disLines_length dis tab p 0
    have hd : ∀ l : List String, (disLines dis tab 0 p ++ l).drop p.length = l := by
      intro l
      rw [← hl, List.drop_left]
    by_cases ht : isTarget d p p.length = true
    · simp only [ht, if_true, List.append_assoc, hd]
      rfl
    · simp only [ht, Bool.false_eq_true, if_false, hd]
  · simp

/-- The program of a list of strings under the sample declarations: the exit branch at
position 4 has the operand 8 and the jump at position 7 has the operand 3. -/
theorem C13_disassembly_label_coverage_witness :
    ∃ ret, Program.disassembleLines (sampleDecls 10) (fun w => toString w)
        [1280, 2817, 17, 18, 2059, 6, 19, 777, 20] = .ok ret ∧
      Program.Disassemble (sampleDecls 10) (fun w => toString w)
        [1280, 2817, 17, 18, 2059, 6, 19, 777, 20] = .ok (String.intercalate "\n" ret) ∧
      (∀ i w, ([1280, 2817, 17, 18, 2059, 6, 19, 777, 20] : Program).get? i = some w →
        ret.get? i = some (if isTarget (sampleDecls 10) [1280, 2817, 17, 18, 2059, 6, 19, 777, 20] i
          then "L_" ++ toString i ++ ":\n\t" ++ (fun w => toString w) w
          else "\t" ++ (fun w => toString w) w) ∧
        "L_" ++ toString i ++ ":\n\t" ++ (fun w => toString w) w
          ≠ "\t" ++ (fun w => toString w) w) ∧
      ret.drop ([1280, 2817, 17, 18, 2059, 6, 19, 777, 20] : Program).length
        = (if isTarget (sampleDecls 10) [1280, 2817, 17, 18, 2059, 6, 19, 777, 20]
            ([1280, 2817, 17, 18, 2059, 6, 19, 777, 20] : Program).length
          then ["L_" ++ toString ([1280, 2817, 17, 18, 2059, 6, 19, 777, 20] : Program).length
            ++ ":", "\tend"] else ["\tend"]) ∧
      ret.getLast? = some "\tend" :=
  C13_disassembly_label_coverage (sampleDecls 10) (fun w => toString w)
    [1280, 2817, 17, 18, 2059, 6, 19, 777, 20] (by decide)

/-! ## Label patching -/

/-- What `pin` does to a program within capacity: the word at `i` keeps its opcode and gets
the length of the program as its operand field, nothing else changes. -/
theorem Program.pin_spec (p : Program) (i : Nat) (hi : i < p.length)
    (hlen : p.length ≤ MaxUint56) :
    ∃ w, p.get? i = some w ∧
      Program.pin p i = .ok (p.set i (word (Instr.Op w) p.length)) := by
  obtain ⟨w, hw⟩ : ∃ w, p.get? i = some w := ⟨p.get ⟨i, hi⟩, List.get?_eq_get hi⟩
  refine ⟨w, hw, ?_⟩
  simp only [Program.pin, hw, Program.pc, pinned_eq w p.length hlen]

/-- C14: for a program that `Program.ins` has admitted (its length is within `MaxUint56`) and
an index `i` inside it, `pin(i)` returns; the program keeps its length and every instruction
at another index, and the instruction at `i` keeps its opcode and holds the position `len(p)`
in its operand field. `Iv` decodes the patched instruction to `len(p)` in every program of
fewer than `2 ^ 55` instructions. -/
theorem C14_pin_patches_position (p : Program) (i : Nat) (hi : i < p.length)
    (hlen : p.length ≤ MaxUint56) :
    ∃ w w' q, p.get? i = some w ∧ Program.pin p i = .ok q ∧ q.get? i = some w' ∧
      q.length = p.length ∧ (∀ j, j ≠ i → q.get? j = p.get? j) ∧
      Instr.Op w' = Instr.Op w ∧ Instr.operand w' = p.length ∧
      (p.length < 2 ^ 55 → Instr.Iv w' = (p.length : Int)) := by
  obtain ⟨w, hw, hpin⟩ := Program.pin_spec p i hi hlen
  refine ⟨w, word (Instr.Op w) p.length, _, hw, hpin, ?_, List.length_set _ _ _, ?_,
    word_Op _ _, word_operand _ _, fun h => word_Iv _ _ h⟩
  · simp only [List.get?_eq_getElem?, List.getElem?_set, hi, if_true]
  · intro j hj
    simp only [List.get?_eq_getElem?, List.getElem?_set, Ne.symm hj, if_false]

/-- C14 at a program of three instructions whose second one, an `OP_deref` without a target,
is pinned: it becomes the `OP_deref` with the target `3`, the others stay. -/
theorem C14_pin_patches_position_witness :
    1 < ([768, 7, 258] : Program).length ∧ ([768, 7, 258] : Program).length ≤ MaxUint56 ∧
    Program.pin [768, 7, 258] 1 = .ok [768, 775, 258] ∧
    Instr.Op 775 = Instr.Op 7 ∧ Instr.Iv 775 = 3 ∧
    ∃ w w' q, ([768, 7, 258] : Program).get? 1 = some w ∧
      Program.pin [768, 7, 258] 1 = .ok q ∧ q.get? 1 = some w' ∧
      q.length = ([768, 7, 258] : Program).length ∧
      (∀ j, j ≠ 1 → q.get? j = ([768, 7, 258] : Program).get? j) ∧
      Instr.Op w' = Instr.Op w ∧ Instr.operand w' = ([768, 7, 258] : Program).length ∧
      (([768, 7, 258] : Program).length < 2 ^ 55 →
        Instr.Iv w' = ((([768, 7, 258] : Program).length : Nat) : Int)) :=
  ⟨by decide, by decide, by decide, by decide, by decide,
   C14_pin_patches_position [768, 7, 258] 1 (by decide) (by decide)⟩

/-! ## The scalar table -/

theorem specScalarTable_code (d : Decls) (T : Tag) (code : List (OpCode × Nat))
    (h : specScalarTable T = some code) :
    T.isScalar = true ∧ scalarCode d T = code.map (fun e => word (d.opv e.1) e.2) ∧
      ∀ e ∈ code, e.2 < 2 ^ 55 := by
  cases T <;> simp only [specScalarTable, Option.some.injEq, reduceCtorEq] at h <;> subst h <;>
    exact ⟨rfl, rfl, by decide⟩

/-- C15: for a kind in the scalar table and an identity that is not marked, a run of
`compileOne` returns exactly when the program has room for the instructions of the table
entry, at every depth and with any fuel but none; it then has appended exactly these
instructions, and the rest of the program and the tracker are as before. Each of the words
decodes to its opcode and to its operand. -/
theorem C15_scalar_emission_table (d : Decls) (rf : Resolver) (fuel sp : Nat) (T : Tag)
    (K V : Ty) (S : Nat) (p : Program) (t : Compiler) (code : List (OpCode × Nat))
    (hT : specScalarTable T = some code) (hS : S ∉ t) :
    (∀ (u : Unit) (s' : CState),
      compileOne d rf (fuel + 1) sp (.node T K V S) { prog := p, trk := t } = .ok u s' ↔
        p.length + code.length ≤ MaxUint56 ∧
          s' = { prog := p ++ code.map (fun e => word (d.opv e.1) e.2), trk := t }) ∧
    (∀ e ∈ code, Instr.Op (word (d.opv e.1) e.2) = d.opv e.1 ∧
      Instr.Iv (word (d.opv e.1) e.2) = (e.2 : Int)) := by
  obtain ⟨hsc, hcode, hlt⟩ := specScalarTable_code d T code hT
  constructor
  · intro u s'
    rw [compileOne_scalar d rf fuel sp T K V S hsc _ _ _ hS, hcode, List.length_map]
  · intro e he
    exact ⟨word_Op _ _, word_Iv _ _ (hlt e he)⟩

/-- C15 at a 32-bit integer compiled at depth 7 after three instructions. -/
theorem C15_scalar_emission_table_witness :
    (∀ (u : Unit) (s' : CState),
      compileOne (sampleDecls 10) sampleResolver (0 + 1) 7 (.node .T_i32 .null .null 3)
          { prog := [768, 2049, 258], trk := {100} } = .ok u s' ↔
        ([768, 2049, 258] : Program).length + [(OpCode.OP_size, 4), (OpCode.OP_copy, 4)].length
            ≤ MaxUint56 ∧
          s' = CState.mk ([768, 2049, 258] ++ [(OpCode.OP_size, 4), (OpCode.OP_copy, 4)].map
              (fun e => word ((sampleDecls 10).opv e.1) e.2)) {100}) ∧
    (∀ e ∈ [(OpCode.OP_size, 4), (OpCode.OP_copy, 4)],
      Instr.Op (word ((sampleDecls 10).opv e.1) e.2) = (sampleDecls 10).opv e.1 ∧
      Instr.Iv (word ((sampleDecls 10).opv e.1) e.2) = (e.2 : Int)) :=
  C15_scalar_emission_table (sampleDecls 10) sampleResolver 0 7 .T_i32 .null .null 3
    [768, 2049, 258] {100} [(.OP_size, 4), (.OP_copy, 4)] rfl (by decide)

/-! ## Pointers and the depth -/

theorem Gen.add_run (d : Decls) (op : OpCode) (p : Program) (t : Compiler)
    (h : p.length < MaxUint56) :
    Gen.add d op { prog := p, trk := t }
      = .ok () { prog := p ++ [word (d.opv op) 0], trk := t } :=
  (Gen.add_ok d op _ _ ()).mpr ⟨h, rfl⟩

/-- One level of `compileOne` on a pointer: the guard is written, the referent is compiled at
the same depth, and if that returns the guard gets the position after the referent. -/
theorem compileOne_ptr (d : Decls) (rf : Resolver) (fuel sp : Nat) (K V : Ty) (S : Nat)
    (p : Program) (t : Compiler) (hroom : p.length < MaxUint56) :
    compileOne d rf (fuel + 1) sp (.node .T_pointer K V S) { prog := p, trk := t } =
      match compileOne d rf fuel sp V { prog := p ++ [word (d.opv .OP_deref) 0], trk := t } with
      | .ok _ s1 =>
        .ok () (CState.mk (s1.prog.set p.length (word (d.opv .OP_deref) s1.prog.length)) s1.trk)
      | .panic v s1 => .panic v s1
      | .stuck => .stuck := by
  rw [compileOne_succ, if_pos rfl]
  simp only [compilePtr, Gen.bind_eq, Gen.andThen, Gen.pc, Program.pc, Gen.add_run d _ p t hroom]
  cases h : compileOne d rf fuel sp V { prog := p ++ [word (d.opv .OP_deref) 0], trk := t } with
  | ok a s1 =>
    obtain ⟨-, hcap, c, hc⟩ := compileOne_grows d rf fuel _ _ _ _ _ h
    dsimp only at hc hcap ⊢
    have hw : s1.prog.get? p.length = some (word (d.opv .OP_deref) 0) := by
      have := get?_app_add p ([word (d.opv .OP_deref) 0] ++ c) 0
      rw [hc]
      simpa using this
    simp only [Gen.pin, Gen.onProg, Program.pin, hw, Program.pc, pinned_word _ _ _ hcap]
  | panic v s1 => rfl
  | stuck => rfl

theorem set_replicate_app (p c : List Nat) (k : Nat) (x y : Nat) :
    (p ++ [x] ++ List.replicate k y ++ c).set p.length y
      = p ++ List.replicate (k + 1) y ++ c := by
  have h := set_app_add p ([x] ++ List.replicate k y ++ c) 0 y
  simp only [Nat.add_zero, List.singleton_append, List.cons_append, List.set_cons_zero] at h
  simp only [List.append_assoc, List.singleton_append, List.cons_append, List.replicate_succ]
  exact h

/-- C17, as amended: a pointer does not add to the depth. Behind `k` levels of pointer the
descriptor `vt` is compiled at the depth `sp` of the outermost pointer, after the `k` guards:
the run of the pointer type ends as that run of `vt` ends, with the same panic (so the depth
guard of a map, list, set or struct with fields behind the pointers fires at `sp` exactly when
it does for `vt` itself at `sp`), and when it returns, each of the `k` guards has got the
position after the code of `vt` as its operand. -/
theorem C17_pointer_keeps_depth (d : Decls) (rf : Resolver) (vt : Ty) (sp fuel : Nat)
    (t : Compiler) : ∀ (k : Nat) (p : Program), p.length + k ≤ MaxUint56 →
    compileOne d rf (fuel + k) sp (ptrN k vt) { prog := p, trk := t } =
      match compileOne d rf fuel sp vt
          { prog := p ++ List.replicate k (word (d.opv .OP_deref) 0), trk := t } with
      | .ok _ s1 =>
        .ok () (CState.mk (p ++ List.replicate k (word (d.opv .OP_deref) s1.prog.length) ++
          s1.prog.drop (p.length + k)) s1.trk)
      | .panic v s1 => .panic v s1
      | .stuck => .stuck := by
  intro k
  induction k with
  | zero =>
    intro p _
    simp only [ptrN, Nat.add_zero, List.replicate_zero, List.append_nil]
    cases h : compileOne d rf fuel sp vt { prog := p, trk := t } with
    | ok a s1 =>
      obtain ⟨-, -, c, hc⟩ := compileOne_grows d rf fuel _ _ _ _ _ h
      obtain ⟨p1, t1⟩ := s1
      dsimp only at hc ⊢
      rw [hc, List.drop_left]
    | panic v s1 => rfl
    | stuck => rfl
  | succ k ih =>
    intro p hroom
    have e1 : fuel + (k + 1) = (fuel + k) + 1 := by omega
    have e2 : p ++ [word (d.opv .OP_deref) 0] ++ List.replicate k (word (d.opv .OP_deref) 0)
        = p ++ List.replicate (k + 1) (word (d.opv .OP_deref) 0) := by
      simp [List.replicate_succ]
    rw [ptrN, e1, compileOne_ptr d rf (fuel + k) sp _ _ _ p t (by omega),
      ih (p ++ [word (d.opv .OP_deref) 0])
        (by simp only [List.length_append, List.length_cons, List.length_nil]; omega), e2]
    cases h : compileOne d rf fuel sp vt
        { prog := p ++ List.replicate (k + 1) (word (d.opv .OP_deref) 0), trk := t } with
    | ok a s1 =>
      obtain ⟨-, -, c, hc⟩ := compileOne_grows d rf fuel _ _ _ _ _ h
      dsimp only at hc ⊢
      have hd : s1.prog.drop (p.length + (k + 1)) = c := by
        have hl : (p ++ List.replicate (k + 1) (word (d.opv .OP_deref) 0)).length
            = p.length + (k + 1) := by simp
        rw [hc, ← hl, List.drop_left]
      have hd' : s1.prog.drop ((p ++ [word (d.opv .OP_deref) 0]).length + k) = c := by
        rw [← hd]
        congr 1
        simp only [List.length_append, List.length_cons, List.length_nil]
        omega
      have hlen : (p ++ [word (d.opv .OP_deref) 0] ++
          List.replicate k (word (d.opv .OP_deref) s1.prog.length) ++ c).length
          = s1.prog.length := by
        simp [hc]
        omega
      rw [hd, hd', hlen, set_replicate_app]
    | panic v s1 => rfl
    | stuck => rfl

/-- Two levels of pointer around the struct `0` of the chain of length one, at depth 3. -/
theorem C17_pointer_keeps_depth_witness :
    compileOne (sampleDecls 10) (chainResolver 1) (3 + 2) 3 (ptrN 2 (leafTy .T_struct 0))
        { prog := [], trk := ∅ } =
      match compileOne (sampleDecls 10) (chainResolver 1) 3 3 (leafTy .T_struct 0)
          { prog := [] ++ List.replicate 2 (word ((sampleDecls 10).opv .OP_deref) 0),
            trk := ∅ } with
      | .ok _ s1 =>
        .ok () (CState.mk ([] ++ List.replicate 2
          (word ((sampleDecls 10).opv .OP_deref) s1.prog.length) ++
            s1.prog.drop (([] : Program).length + 2)) s1.trk)
      | .panic v s1 => .panic v s1
      | .stuck => .stuck :=
  C17_pointer_keeps_depth (sampleDecls 10) (chainResolver 1) (leafTy .T_struct 0) 3 3 ∅ 2 []
    (by decide)

/-- C17 as stated fails: under a budget of one level, a pointer at depth `0 = MaxStack - 1` to
the struct `0`, which has one field, compiles, the depth guard of the struct running at depth
`0`; the struct itself compiled at depth `1` after the guard is what fails the nesting
guard. -/
theorem C17_counterexample :
    compileOne (sampleDecls 1) (chainResolver 0) 4 0 (ptrTo (leafTy .T_struct 0) 50) ⟨[], ∅⟩
      = .ok () ⟨[1799, 768, 513, 258, 256, 260, 1], ∅⟩ ∧
    compileOne (sampleDecls 1) (chainResolver 0) 3 (0 + 1) (leafTy .T_struct 0) ⟨[7], ∅⟩
      = .panic (.str "type nesting too deep") ⟨[7], {0}⟩ ∧
    chainResolver 0 0 = .ok [⟨1, 0, leafTy .T_bool 1⟩] := by
  decide

/-! ## The tracker after a run -/

/-- C18: a run of `compileOne` that returns leaves the tracker equal to the tracker it
started with, for every type, depth, program and tracker; and a `Compile` that is started
with the empty tracker and returns without an error leaves it empty. -/
theorem C18_tracker_pairing (d : Decls) (rf : Resolver) :
    (∀ (fuel sp : Nat) (vt : Ty) (s s' : CState) (u : Unit),
      compileOne d rf fuel sp vt s = .ok u s' → s'.trk = s.trk) ∧
    (∀ (opt : Program → Program) (fuel : Nat) (vtp : Ty) (ret : Program) (trk : Compiler),
      Compile d rf opt fuel vtp ∅ = .returned ret none trk → trk = ∅) := by
  constructor
  · intro fuel sp vt s s' u h
    exact (compileOne_grows d rf fuel sp vt s u s' h).1
  · intro opt fuel vtp ret trk h
    unfold Compile at h
    cases hc : compileOne d rf fuel 0 vtp { prog := [], trk := ∅ } with
    | ok a s =>
      rw [hc] at h
      simp only [Compiler.rescue, CompileResult.returned.injEq, true_and] at h
      rw [← h.2]
      exact (compileOne_grows d rf fuel 0 vtp _ a s hc).1
    | panic v s =>
      rw [hc] at h
      cases v with
      | str m => simp [Compiler.rescue] at h
      | err e => simp [Compiler.rescue] at h
    | stuck =>
      rw [hc] at h
      cases h

/-- C18 at the self-referential struct `300`, compiled under a tracker that holds the mark
`9`, and at `Compile` on the same struct. -/
theorem C18_tracker_pairing_witness :
    compileOne (sampleDecls 10) sampleResolver 5 0 (leafTy .T_struct 300) ⟨[], {9}⟩
      = .ok () ⟨[768, 2049, 258, 1024, 1028, 768, 2053, 33281, 514, 2823, 76808, 1], {9}⟩ ∧
    (⟨[768, 2049, 258, 1024, 1028, 768, 2053, 33281, 514, 2823, 76808, 1], {9}⟩ : CState).trk
      = (⟨[], {9}⟩ : CState).trk ∧
    (∀ ret trk, Compile (sampleDecls 10) sampleResolver id 5 (leafTy .T_struct 300) ∅
      = .returned ret none trk → trk = ∅) :=
  ⟨by decide,
   (C18_tracker_pairing (sampleDecls 10) sampleResolver).1 5 0 (leafTy .T_struct 300) ⟨[], {9}⟩
     ⟨[768, 2049, 258, 1024, 1028, 768, 2053, 33281, 514, 2823, 76808, 1], {9}⟩ () (by decide),
   fun ret trk h =>
     (C18_tracker_pairing (sampleDecls 10) sampleResolver).2 id 5 (leafTy .T_struct 300) ret trk h⟩

/-- C20 at the struct `100`, whose second field is the struct `200` that cannot be resolved:
`Compile`, started with the empty tracker, returns the error of the resolver and leaves the
marks of `100` and `200` in the tracker; the next `Compile` of the same root with that tracker
returns without an error the single instruction `OP_defer` instead of expanding the type. -/
theorem C20_marks_stay_after_error :
    Compile (sampleDecls 10) sampleResolver id 4 (leafTy .T_struct 100) ∅
      = .returned [768, 513, 258, 256, 260, 768, 2053, 3073, 514]
          (some (.resolve "cannot resolve fields")) {200, 100} ∧
    Compile (sampleDecls 10) sampleResolver id 4 (leafTy .T_struct 100) {200, 100}
      = .returned [word ((sampleDecls 10).opv .OP_defer) 100] none {200, 100} ∧
    ({200, 100} : Compiler) ≠ ∅ := by
  decide

/-! ## Jump targets -/

theorem wordOk_plain (d : Decls) (k : Nat) (C : List Nat) (i : Nat) (o : OpCode) (x : Nat)
    (h : PlainOp o) : WordOk d k C i (word (d.opv o) x) :=
  ⟨o, x, rfl, h.1, fun hj => by rcases hj with e | e <;> [exact absurd e h.2.1; exact absurd e h.2.2.1],
    fun hg => absurd hg h.2.2.2⟩

theorem segAt_nil (d : Decls) (k : Nat) (C : List Nat) (a : Nat) : SegAt d k C a [] := by
  intro i w h
  cases h

theorem segAt_cons {d : Decls} {k : Nat} {C : List Nat} {a : Nat} {w : Nat} {c : List Nat}
    (hw : WordOk d k C a w) (hc : SegAt d k C (a + 1) c) : SegAt d k C a (w :: c) := by
  intro i w' h
  cases i with
  | zero =>
    simp only [List.get?_cons_zero, Option.some.injEq] at h
    subst h
    exact hw
  | succ i =>
    simp only [List.get?_cons_succ] at h
    have := hc i w' h
    have e : a + 1 + i = a + (i + 1) := by omega
    rw [e] at this
    exact this

theorem segAt_append {d : Decls} {k : Nat} {C : List Nat} {a : Nat} {x y : List Nat}
    (hx : SegAt d k C a x) (hy : SegAt d k C (a + x.length) y) : SegAt d k C a (x ++ y) := by
  intro i w h
  by_cases hi : i < x.length
  · rw [get?_app_lt _ _ _ hi] at h
    exact hx i w h
  · have e : i = x.length + (i - x.length) := by omega
    rw [get?_app_of_eq x y i (i - x.length) e] at h
    have := hy _ w h
    have e2 : a + x.length + (i - x.length) = a + i := by omega
    rw [e2] at this
    exact this

theorem segAt_plain {d : Decls} (k : Nat) (C : List Nat) (a : Nat) {l : List Nat}
    (h : PlainList d l) : SegAt d k C a l := by
  intro i w hw
  obtain ⟨o, x, rfl, ho⟩ := h w (List.get?_mem hw)
  exact wordOk_plain d k C _ o x ho

theorem get?_app_left_some {α : Type} (l r : List α) (n : Nat) (a : α) (h : l.get? n = some a) :
    (l ++ r).get? n = some a := by
  rw [get?_app_lt _ _ _ (List.get?_eq_some.mp h).1]
  exact h

/-- A code whose words are well placed in it stays well placed inside a longer code. -/
theorem segAt_mono {d : Decls} {k a : Nat} {C c : List Nat} (pre post : List Nat)
    (hC : C = pre ++ c ++ post) (ha : a = pre.length) (H : JumpsIn d (k + a) c) :
    SegAt d k C a c := by
  intro i w h
  obtain ⟨o, x, rfl, h1, hf, hg⟩ := H i w h
  have hlen : C.length = pre.length + c.length + post.length := by
    rw [hC]
    simp only [List.length_append]
  refine ⟨o, x, rfl, h1, fun hj => ?_, fun hj => ?_⟩
  · obtain ⟨h2, h3⟩ := hf hj
    constructor <;> omega
  · obtain ⟨h2, h3, oe, hoe, hget⟩ := hg hj
    refine ⟨by omega, by omega, oe, hoe, ?_⟩
    rw [hC, List.append_assoc,
      get?_app_of_eq pre (c ++ post) (x - k) (x - (k + a)) (by omega)]
    exact get?_app_left_some _ _ _ _ hget

theorem jumpsIn_append {d : Decls} {k : Nat} {x y : List Nat} (hx : JumpsIn d k x)
    (hy : JumpsIn d (k + x.length) y) : JumpsIn d k (x ++ y) := by
  refine segAt_append (segAt_mono [] y (by simp) rfl hx) ?_
  exact segAt_mono x [] (by simp) (by simp) (by simpa using hy)

theorem jumpsIn_plain {d : Decls} (k : Nat) {l : List Nat} (h : PlainList d l) :
    JumpsIn d k l := segAt_plain k l 0 h

theorem plainList_nil (d : Decls) : PlainList d [] := by
  intro w hw
  cases hw

theorem plainList_cons {d : Decls} (o : OpCode) (x : Nat) {l : List Nat} (ho : PlainOp o)
    (hl : PlainList d l) : PlainList d (word (d.opv o) x :: l) := by
  intro w hw
  rcases List.mem_cons.mp hw with rfl | hw
  · exact ⟨o, x, rfl, ho⟩
  · exact hl w hw

theorem plain_scalarCode (d : Decls) (T : Tag) : PlainList d (scalarCode d T) := by
  cases T <;> simp only [scalarCode] <;>
    first
    | exact plainList_cons _ _ (by simp [PlainOp]) (plainList_cons _ _ (by simp [PlainOp])
        (plainList_nil d))
    | exact plainList_cons _ _ (by simp [PlainOp]) (plainList_nil d)
    | exact plainList_nil d

theorem plain_structHead (d : Decls) (f0 : Field) : PlainList d (structHead d f0) :=
  plainList_cons _ _ (by simp [PlainOp]) (plainList_cons _ _ (by simp [PlainOp])
    (plainList_cons _ _ (by simp [PlainOp]) (plainList_nil d)))

theorem plain_fieldHead (d : Decls) (prev : Nat) (fv : Field) :
    PlainList d (fieldHead d prev fv) :=
  plainList_cons _ _ (by simp [PlainOp]) (plainList_cons _ _ (by simp [PlainOp])
    (plainList_cons _ _ (by simp [PlainOp]) (plainList_cons _ _ (by simp [PlainOp])
      (plainList_nil d))))

/-- The code of a pointer is well placed when the code of the referent is. -/
theorem jumpsIn_ptr (d : Decls) (k : Nat) (c : List Nat) (hc : JumpsIn d (k + 1) c) :
    JumpsIn d k (ptrCode d k c) := by
  unfold ptrCode
  refine segAt_cons ⟨.OP_deref, _, rfl, by decide, fun _ => ?_, fun h => by cases h⟩ ?_
  · simp only [List.length_cons]
    omega
  · exact segAt_mono [word (d.opv .OP_deref) (k + 1 + c.length)] []
      (by simp) rfl hc

/-- The code of a set or a list is well placed when the code of the element is. -/
theorem jumpsIn_list (d : Decls) (k ek : Nat) (c : List Nat) (hc : JumpsIn d (k + 5) c) :
    JumpsIn d k (listCode d k ek c) := by
  have hl := (listCode_layout d k ek c).2.2.2.2
  have h3 := (listCode_layout d k ek c).1
  unfold JumpsIn
  generalize hC : listCode d k ek c = C at hl h3 ⊢
  have hC' : C = [word (d.opv .OP_size) 5, word (d.opv .OP_byte) ek,
      word (d.opv .OP_list_begin) 0, word (d.opv .OP_list_is_end) 0,
      word (d.opv .OP_if_true) (k + 7 + c.length)] ++ c ++
      [word (d.opv .OP_list_next) 0, word (d.opv .OP_goto) (k + 3),
        word (d.opv .OP_list_end) 0] := by
    rw [← hC]
    rfl
  nth_rewrite 2 [hC']
  refine segAt_append (segAt_append ?_ ?_) ?_
  · refine segAt_cons (wordOk_plain _ _ _ _ _ _ (by simp [PlainOp]))
      (segAt_cons (wordOk_plain _ _ _ _ _ _ (by simp [PlainOp]))
      (segAt_cons (wordOk_plain _ _ _ _ _ _ (by simp [PlainOp]))
      (segAt_cons (wordOk_plain _ _ _ _ _ _ (by simp [PlainOp]))
      (segAt_cons ⟨.OP_if_true, _, rfl, by decide, fun _ => ?_, fun h => by cases h⟩
        (segAt_nil _ _ _ _)))))
    omega
  · exact segAt_mono _ _ hC' (by simp) hc
  · refine segAt_cons (wordOk_plain _ _ _ _ _ _ (by simp [PlainOp]))
      (segAt_cons ⟨.OP_goto, _, rfl, by decide, fun h => (by rcases h with h | h <;> cases h),
        fun _ => ⟨by omega, ?_, .OP_list_is_end, Or.inr rfl, ?_⟩⟩
      (segAt_cons (wordOk_plain _ _ _ _ _ _ (by simp [PlainOp])) (segAt_nil _ _ _ _)))
    · simp only [List.length_append, List.length_cons, List.length_nil]
      omega
    · rw [Nat.add_sub_cancel_left]
      exact h3

/-- The code of a map is well placed when the codes of the key and of the value are. -/
theorem jumpsIn_map (d : Decls) (k kt vk S : Nat) (cK cV : List Nat)
    (hK : JumpsIn d (k + 7) cK) (hV : JumpsIn d (k + 7 + cK.length + 1) cV) :
    JumpsIn d k (mapCode d k kt vk S cK cV) := by
  have hl := (mapCode_layout d k kt vk S cK cV).2.2.2.2
  have h4 := (mapCode_layout d k kt vk S cK cV).1
  unfold JumpsIn
  generalize hC : mapCode d k kt vk S cK cV = C at hl h4 ⊢
  have hC' : C = [word (d.opv .OP_size) 6, word (d.opv .OP_byte) kt, word (d.opv .OP_byte) vk,
      word (d.opv .OP_map_begin) S, word (d.opv .OP_map_is_end) 0,
      word (d.opv .OP_if_true) (k + 9 + cK.length + cV.length),
      word (d.opv .OP_map_key) 0] ++ cK ++ [word (d.opv .OP_map_value) 0] ++ cV ++
      [word (d.opv .OP_goto) (k + 4), word (d.opv .OP_map_end) 0] := by
    rw [← hC]
    rfl
  nth_rewrite 2 [hC']
  refine segAt_append (segAt_append (segAt_append (segAt_append ?_ ?_) ?_) ?_) ?_
  · refine segAt_cons (wordOk_plain _ _ _ _ _ _ (by simp [PlainOp]))
      (segAt_cons (wordOk_plain _ _ _ _ _ _ (by simp [PlainOp]))
      (segAt_cons (wordOk_plain _ _ _ _ _ _ (by simp [PlainOp]))
      (segAt_cons (wordOk_plain _ _ _ _ _ _ (by simp [PlainOp]))
      (segAt_cons (wordOk_plain _ _ _ _ _ _ (by simp [PlainOp]))
      (segAt_cons ⟨.OP_if_true, _, rfl, by decide, fun _ => ?_, fun h => by cases h⟩
      (segAt_cons (wordOk_plain _ _ _ _ _ _ (by simp [PlainOp]))
        (segAt_nil _ _ _ _)))))))
    omega
  · refine segAt_mono [word (d.opv .OP_size) 6, word (d.opv .OP_byte) kt,
      word (d.opv .OP_byte) vk, word (d.opv .OP_map_begin) S, word (d.opv .OP_map_is_end) 0,
      word (d.opv .OP_if_true) (k + 9 + cK.length + cV.length), word (d.opv .OP_map_key) 0]
      ([word (d.opv .OP_map_value) 0] ++ cV ++
        [word (d.opv .OP_goto) (k + 4), word (d.opv .OP_map_end) 0]) ?_ (by simp) ?_
    · rw [hC']
      simp only [List.append_assoc]
    · simpa using hK
  · exact segAt_plain _ _ _ (plainList_cons _ _ (by simp [PlainOp]) (plainList_nil d))
  · refine segAt_mono ([word (d.opv .OP_size) 6, word (d.opv .OP_byte) kt,
      word (d.opv .OP_byte) vk, word (d.opv .OP_map_begin) S, word (d.opv .OP_map_is_end) 0,
      word (d.opv .OP_if_true) (k + 9 + cK.length + cV.length), word (d.opv .OP_map_key) 0] ++
        cK ++ [word (d.opv .OP_map_value) 0])
      [word (d.opv .OP_goto) (k + 4), word (d.opv .OP_map_end) 0] hC' (by simp) ?_
    have e : k + (0 + ([word (d.opv .OP_size) 6, word (d.opv .OP_byte) kt,
        word (d.opv .OP_byte) vk, word (d.opv .OP_map_begin) S,
        word (d.opv .OP_map_is_end) 0,
        word (d.opv .OP_if_true) (k + 9 + cK.length + cV.length),
        word (d.opv .OP_map_key) 0] ++ cK ++ [word (d.opv .OP_map_value) 0]).length)
        = k + 7 + cK.length + 1 := by
      simp only [List.length_append, List.length_cons, List.length_nil]
      omega
    rw [e]
    exact hV
  · refine segAt_cons ⟨.OP_goto, _, rfl, by decide, fun h => (by rcases h with h | h <;> cases h),
        fun _ => ⟨by omega, ?_, .OP_map_is_end, Or.inl rfl, ?_⟩⟩
      (segAt_cons (wordOk_plain _ _ _ _ _ _ (by simp [PlainOp])) (segAt_nil _ _ _ _))
    · simp only [List.length_append, List.length_cons, List.length_nil]
      omega
    · rw [Nat.add_sub_cancel_left]
      exact h4

/-- The codes of the fields after the first one are well placed when the code of every field
is. -/
theorem jumpsIn_fields (d : Decls) (self : Nat → Ty → Gen Unit) (sp : Nat) (t : Compiler)
    (H : ∀ (sp : Nat) (vt : Ty) (q c : Program),
      self sp vt { prog := q, trk := t } = .ok () { prog := q ++ c, trk := t } →
      JumpsIn d q.length c) :
    ∀ (fvs : List Field) (cs : List (List Nat)) (q : Program) (prev : Nat),
    FieldRuns d self sp t q prev fvs cs → JumpsIn d q.length (fieldsCode d prev fvs cs) := by
  intro fvs
  induction fvs with
  | nil =>
    intro cs q prev _
    cases cs <;> exact segAt_nil _ _ _ _
  | cons fv rest ih =>
    intro cs q prev hr
    cases cs with
    | nil => exact absurd hr (by simp [FieldRuns])
    | cons c cs =>
      simp only [FieldRuns] at hr
      simp only [fieldsCode]
      refine jumpsIn_append (jumpsIn_append (jumpsIn_plain _ (plain_fieldHead d prev fv)) ?_) ?_
      · have := H _ _ _ _ hr.1
        simpa using this
      · have := ih cs _ _ hr.2
        simpa using this

/-- The code of a struct is well placed when the code of every field is. -/
theorem jumpsIn_struct (d : Decls) (self : Nat → Ty → Gen Unit) (sp : Nat) (t : Compiler)
    (H : ∀ (sp : Nat) (vt : Ty) (q c : Program),
      self sp vt { prog := q, trk := t } = .ok () { prog := q ++ c, trk := t } →
      JumpsIn d q.length c)
    (fvs : List Field) (cs : List (List Nat)) (p : Program)
    (hr : StructRuns d self sp t p fvs cs) : JumpsIn d p.length (structCode d fvs cs) := by
  have stop : PlainList d [word (d.opv .OP_byte) 0] :=
    plainList_cons _ _ (by simp [PlainOp]) (plainList_nil d)
  cases fvs with
  | nil => cases cs <;> exact jumpsIn_plain _ stop
  | cons f0 rest =>
    cases cs with
    | nil => exact absurd hr (by simp [StructRuns])
    | cons c0 cs =>
      simp only [StructRuns] at hr
      simp only [structCode]
      refine jumpsIn_append (jumpsIn_append (jumpsIn_append
        (jumpsIn_plain _ (plain_structHead d f0)) ?_) ?_) (jumpsIn_plain _ stop)
      · have := H _ _ _ _ hr.1
        simpa using this
      · have := jumpsIn_fields d self sp t H rest cs _ _ hr.2
        simpa using this

/-- Every word of the code that a returning run of `compileOne` appends is well placed in
that code. -/
theorem compileOne_jumps (d : Decls) (rf : Resolver) : ∀ (fuel sp : Nat) (vt : Ty)
    (q c : Program) (t : Compiler),
    compileOne d rf fuel sp vt { prog := q, trk := t } = .ok () { prog := q ++ c, trk := t } →
    JumpsIn d q.length c := by
  intro fuel
  induction fuel with
  | zero =>
    intro sp vt q c t h
    cases h
  | succ fuel ih =>
    intro sp vt q c t h
    cases vt with
    | null => cases h
    | node T K V S =>
      obtain ⟨-, hc⟩ := compileOne_cases d rf fuel (compileOne_grows d rf fuel) sp T K V S _ _ _ h
      dsimp only at hc
      rcases hc with ⟨-, c1, hrun, he⟩ | ⟨-, -, -, he⟩ | ⟨-, -, -, he⟩ |
        ⟨-, -, fvs, cs, -, hruns, -, he⟩ | ⟨-, -, cK, cV, -, -, -, -, -, hrK, hrV, he⟩ |
        ⟨-, -, c1, -, -, -, hrun, he⟩ <;>
        simp only [CState.mk.injEq, and_true, List.append_cancel_left_eq] at he <;> subst he
      · refine jumpsIn_ptr d _ c1 ?_
        have := ih _ _ _ _ _ hrun
        simpa using this
      · exact jumpsIn_plain _ (plainList_cons _ _ (by simp [PlainOp]) (plainList_nil d))
      · exact jumpsIn_plain _ (plain_scalarCode d T)
      · exact jumpsIn_struct d _ sp _ (fun sp vt q c h => ih sp vt q c _ h) fvs cs q hruns
      · refine jumpsIn_map d _ _ _ _ cK cV ?_ ?_
        · have := ih _ _ _ _ _ hrK
          simpa [mapHead] using this
        · have := ih _ _ _ _ _ hrV
          convert this using 1
          simp only [List.length_append, mapHead, List.length_cons, List.length_nil]
      · refine jumpsIn_list d _ _ c1 ?_
        have := ih _ _ _ _ _ hrun
        simpa [listHead] using this

/-- The prescan and the listing of a program whose branch operands are inside the label
table return. -/
theorem disassemble_ok (d : Decls) (dis : Nat → String) (p : Program)
    (h : ∀ w ∈ p, d.OpBranches (Instr.Op w) = true →
      0 ≤ Instr.Iv w ∧ Instr.Iv w ≤ (p.length : Int)) :
    ∃ txt, Program.Disassemble d dis p = .ok txt := by
  obtain ⟨tab, he, -, -⟩ := disLabels_ok d p (List.replicate (p.length + 1) false) (by
    intro w hw hb
    obtain ⟨h0, h1⟩ := h w hw hb
    simp only [List.length_replicate]
    push_cast
    omega)
  simp only [Program.Disassemble, Program.disassembleLines, he]
  exact ⟨_, rfl⟩

/-- C19: in the program of a returning run of `compileOne` that started on the empty program
(the opcodes being numbered apart), every instruction with the opcode `OP_goto`, `OP_if_true`
or `OP_deref` has in its operand field a position `t ≤ len(program)`, and the operand of every
`OP_goto` is a position before the `OP_goto` that holds an is-end check. When the program is
shorter than `2 ^ 55` instructions, `Iv` decodes each of these operands to the position
itself; then, with a table `_OpBranches` that holds no opcode besides `OP_goto`, `OP_if_nil`,
`OP_if_true` and `OP_deref`, every index `ins.Iv()` that the prescan of `Program.Disassemble`
uses lies in `[0, len(program)]`, inside the label table of `len(program) + 1` entries, and
`Program.Disassemble` returns. -/
theorem C19_jump_targets_in_bounds (d : Decls) (rf : Resolver)
    (hinj : Function.Injective d.opv) (fuel sp : Nat) (vt : Ty) (t : Compiler) (u : Unit)
    (s' : CState) (h : compileOne d rf fuel sp vt { prog := [], trk := t } = .ok u s') :
    (∀ i w, s'.prog.get? i = some w →
      (Instr.Op w = d.opv .OP_goto ∨ Instr.Op w = d.opv .OP_if_true ∨
          Instr.Op w = d.opv .OP_deref →
        Instr.operand w ≤ s'.prog.length ∧
          (s'.prog.length < 2 ^ 55 → Instr.Iv w = (Instr.operand w : Int))) ∧
      (Instr.Op w = d.opv .OP_goto →
        Instr.operand w < i ∧ ∃ wl, s'.prog.get? (Instr.operand w) = some wl ∧
          (Instr.Op wl = d.opv .OP_map_is_end ∨ Instr.Op wl = d.opv .OP_list_is_end))) ∧
    (s'.prog.length < 2 ^ 55 →
      (∀ o, d.OpBranches (d.opv o) = true →
        o = .OP_goto ∨ o = .OP_if_nil ∨ o = .OP_if_true ∨ o = .OP_deref) →
      (∀ w ∈ s'.prog, d.OpBranches (Instr.Op w) = true →
        0 ≤ Instr.Iv w ∧ Instr.Iv w ≤ (s'.prog.length : Int)) ∧
      ∀ dis : Nat → String, ∃ txt, Program.Disassemble d dis s'.prog = .ok txt) := by
  obtain ⟨ht, -, c, hc⟩ := compileOne_grows d rf fuel sp vt _ u s' h
  obtain ⟨p', t'⟩ := s'
  dsimp only at ht hc ⊢
  rw [List.nil_append] at hc
  subst hc ht
  have J : JumpsIn d 0 p' := by
    have := compileOne_jumps d rf fuel sp vt [] p' t' (by simpa using h)
    simpa using this
  have key : ∀ i w, p'.get? i = some w → ∃ (o : OpCode) (x : Nat),
      w = word (d.opv o) x ∧ o ≠ .OP_if_nil ∧
      (o = .OP_goto ∨ o = .OP_if_true ∨ o = .OP_deref → x ≤ p'.length) ∧
      (o = .OP_goto → x < i ∧ ∃ oe, (oe = .OP_map_is_end ∨ oe = .OP_list_is_end) ∧
        p'.get? x = some (word (d.opv oe) 0)) := by
    intro i w hw
    obtain ⟨o, x, rfl, hne, hf, hg⟩ := J i w hw
    refine ⟨o, x, rfl, hne, fun ho => ?_, fun ho => ?_⟩
    · rcases ho with ho | ho | ho
      · have := (hg ho).2.1
        have := (List.get?_eq_some.mp hw).1
        omega
      · have := (hf (Or.inl ho)).2
        omega
      · have := (hf (Or.inr ho)).2
        omega
    · obtain ⟨-, h2, oe, hoe, hget⟩ := hg ho
      exact ⟨by omega, oe, hoe, by simpa using hget⟩
  refine ⟨fun i w hw => ?_, fun hlen hB => ?_⟩
  · obtain ⟨o, x, rfl, -, hb, hg⟩ := key i w hw
    simp only [word_Op, word_operand, hinj.eq_iff]
    refine ⟨fun ho => ⟨hb ho, fun hlen => word_Iv _ _ (by have := hb ho; omega)⟩, fun ho => ?_⟩
    obtain ⟨h1, oe, hoe, hget⟩ := hg ho
    refine ⟨h1, _, hget, ?_⟩
    simp only [word_Op, hinj.eq_iff]
    exact hoe
  · have hall : ∀ w ∈ p', d.OpBranches (Instr.Op w) = true →
        0 ≤ Instr.Iv w ∧ Instr.Iv w ≤ (p'.length : Int) := by
      intro w hw hbr
      obtain ⟨i, hi⟩ := List.get?_of_mem hw
      obtain ⟨o, x, rfl, hne, hb, -⟩ := key i w hi
      rw [word_Op] at hbr
      have ho : o = .OP_goto ∨ o = .OP_if_true ∨ o = .OP_deref := by
        rcases hB o hbr with e | e | e | e
        · exact Or.inl e
        · exact absurd e hne
        · exact Or.inr (Or.inl e)
        · exact Or.inr (Or.inr e)
      have hx := hb ho
      rw [word_Iv _ _ (by omega)]
      omega
    exact ⟨hall, fun dis => disassemble_ok d dis p' hall⟩

/-- C19 at a list of strings compiled into the empty program under the sample declarations,
whose branch table holds `OP_deref`, `OP_goto`, `OP_if_nil` and `OP_if_true`. -/
theorem C19_jump_targets_in_bounds_witness :
    compileOne (sampleDecls 10) sampleResolver 3 0 (listOf (leafTy .T_string 6) 7)
        { prog := [], trk := ∅ }
      = .ok () { prog := [1280, 2817, 17, 18, 2059, 6, 19, 777, 20], trk := ∅ } ∧
    (∀ i w, ([1280, 2817, 17, 18, 2059, 6, 19, 777, 20] : Program).get? i = some w →
      (Instr.Op w = (sampleDecls 10).opv .OP_goto ∨ Instr.Op w = (sampleDecls 10).opv .OP_if_true ∨
          Instr.Op w = (sampleDecls 10).opv .OP_deref →
        Instr.operand w ≤ ([1280, 2817, 17, 18, 2059, 6, 19, 777, 20] : Program).length ∧
          (([1280, 2817, 17, 18, 2059, 6, 19, 777, 20] : Program).length < 2 ^ 55 →
            Instr.Iv w = (Instr.operand w : Int))) ∧
      (Instr.Op w = (sampleDecls 10).opv .OP_goto →
        Instr.operand w < i ∧
          ∃ wl, ([1280, 2817, 17, 18, 2059, 6, 19, 777, 20] : Program).get? (Instr.operand w)
              = some wl ∧
            (Instr.Op wl = (sampleDecls 10).opv .OP_map_is_end ∨
              Instr.Op wl = (sampleDecls 10).opv .OP_list_is_end))) ∧
    ∃ txt, Program.Disassemble (sampleDecls 10) (fun w => toString w)
      [1280, 2817, 17, 18, 2059, 6, 19, 777, 20] = .ok txt :=
  have hC := C19_jump_targets_in_bounds (sampleDecls 10) sampleResolver sampleOpv_injective 3 0
    (listOf (leafTy .T_string 6) 7) ∅ ()
    { prog := [1280, 2817, 17, 18, 2059, 6, 19, 777, 20], trk := ∅ } (by decide)
  ⟨by decide, hC.1, (hC.2 (by decide) (by decide)).2 (fun w => toString w)⟩

/-! ## The layout of a struct -/

theorem sext56_imm56 (iv : Int) (h1 : MinInt56 ≤ iv) (h2 : iv ≤ MaxInt56) :
    sext56 (imm56 iv) = iv := by
  simp only [MinInt56, MaxInt56] at h1 h2
  simp only [sext56, imm56]
  split <;> omega

theorem toInt64_small (x : Int) (h1 : -(2 ^ 63) ≤ x) (h2 : x < 2 ^ 63) : toInt64 x = x := by
  simp only [toInt64]
  omega

/-- The layout read off `compileFields`, in the wording by index. -/
theorem fieldsCode_spec (d : Decls) : ∀ (rest : List Field) (cs : List (List Nat))
    (prev : Field) (c0 : List Nat), rest.length = cs.length →
    fieldsCode d prev.F rest cs
      = ((List.range rest.length).map
          (fun i => specFieldSpan d (prev :: rest) (c0 :: cs) (i + 1))).flatten := by
  intro rest
  induction rest with
  | nil =>
    intro cs prev c0 hl
    cases cs with
    | nil => rfl
    | cons c cs => cases hl
  | cons fv rest ih =>
    intro cs prev c0 hl
    cases cs with
    | nil => cases hl
    | cons c cs =>
      have e : (fun i => specFieldSpan d (prev :: fv :: rest) (c0 :: c :: cs) (i + 1)) ∘ Nat.succ
          = fun i => specFieldSpan d (fv :: rest) (c :: cs) (i + 1) := by
        funext i
        simp [specFieldSpan]
      rw [fieldsCode, ih cs fv c (by simpa using hl), List.length_cons,
        List.range_succ_eq_map, List.map_cons, List.flatten_cons, List.map_map, e]
      simp [specFieldSpan, fieldHead]

/-- The layout read off `compileStruct` is the span that the specification words by index. -/
theorem structCode_spec (d : Decls) (fvs : List Field) (cs : List (List Nat))
    (hl : cs.length = fvs.length) : structCode d fvs cs = specStructSpan d fvs cs := by
  cases fvs with
  | nil =>
    cases cs with
    | nil => rfl
    | cons c cs => cases hl
  | cons f0 rest =>
    cases cs with
    | nil => cases hl
    | cons c0 cs =>
      have e : specFieldSpan d (f0 :: rest) (c0 :: cs) ∘ Nat.succ
          = fun i => specFieldSpan d (f0 :: rest) (c0 :: cs) (i + 1) := rfl
      rw [structCode, specStructSpan, List.length_cons, List.range_succ_eq_map, List.map_cons,
        List.flatten_cons, List.map_map, e,
        ← fieldsCode_spec d rest cs f0 c0 (by simpa using hl.symm)]
      simp [specFieldSpan, structHead]

/-- A returning run of the loop over the fields has found every seek delta and every head
within the range of the immediates. -/
theorem compileFields_fits (d : Decls) (self : Nat → Ty → Gen Unit) (sp : Nat) :
    ∀ (fvs : List Field) (prev : Nat) (s s' : CState) (u : Unit),
    compileFields d self sp prev fvs s = .ok u s' →
    SeeksFit prev fvs ∧ ∀ fv ∈ fvs, HeadFits d fv := by
  intro fvs
  induction fvs with
  | nil =>
    intro prev s s' u _
    exact ⟨trivial, fun fv hfv => absurd hfv (List.not_mem_nil _)⟩
  | cons fv rest ih =>
    intro prev s s' u h
    simp only [compileFields, Gen.bind_eq, Gen.andThen_ok, Gen.i64_ok, Gen.kindOf_ok] at h
    obtain ⟨_, s1, -, _, s2, ⟨hs1, hs2, -, -⟩, k, s3, ⟨hne, rfl, -⟩,
      _, s4, ⟨-, hk, -, -⟩, _, s5, ⟨-, hid, -, -⟩, _, s6, -, hrest⟩ := h
    obtain ⟨hsf, hhf⟩ := ih _ _ _ _ hrest
    refine ⟨⟨hs1, hs2, hsf⟩, fun f hf => ?_⟩
    rcases List.mem_cons.mp hf with rfl | hf
    · exact ⟨hne, hk, hid⟩
    · exact hhf f hf

/-- The seek deltas of consecutive fields, by index. -/
theorem seeksFit_get (fvs : List Field) : ∀ (prev : Field), SeeksFit prev.F fvs →
    ∀ (i : Nat) (fp fv : Field), (prev :: fvs).get? i = some fp →
      (prev :: fvs).get? (i + 1) = some fv →
      MinInt56 ≤ toInt64 ((fv.F : Int) - (fp.F : Int)) ∧
        toInt64 ((fv.F : Int) - (fp.F : Int)) ≤ MaxInt56 := by
  induction fvs with
  | nil =>
    intro prev _ i fp fv _ h2
    simp at h2
  | cons f rest ih =>
    intro prev hs i fp fv h1 h2
    obtain ⟨hs1, hs2, hs3⟩ := hs
    cases i with
    | zero =>
      simp only [List.get?_cons_zero, Option.some.injEq, zero_add, List.get?_cons_succ] at h1 h2
      subst h1 h2
      exact ⟨hs1, hs2⟩
    | succ i =>
      simp only [List.get?_cons_succ] at h1 h2
      exact ih f hs3 i fp fv h1 h2

theorem compileFields_shift (d : Decls) (self : Nat → Ty → Gen Unit) (sp c : Nat) :
    ∀ (rest : List Field) (prev : Nat),
    compileFields d self sp (prev + c) (shiftFields c rest) = compileFields d self sp prev rest := by
  intro rest
  induction rest with
  | nil =>
    intro prev
    rfl
  | cons fv rest ih =>
    intro prev
    have e : (((fv.F + c : Nat) : Int) - ((prev + c : Nat) : Int)) = (fv.F : Int) - (prev : Int) := by
      push_cast
      ring
    have ih' := ih fv.F
    simp only [shiftFields] at ih' ⊢
    simp only [List.map_cons, compileFields, e, ih']

theorem compileStruct_shift (d : Decls) (rf : Resolver) (c : Nat → Nat)
    (self : Nat → Ty → Gen Unit) (sp S : Nat) :
    compileStruct d (shiftResolver rf c) self sp S = compileStruct d rf self sp S := by
  unfold compileStruct shiftResolver
  cases h : rf S with
  | error e => rfl
  | ok fvs =>
    cases fvs with
    | nil => rfl
    | cons f0 rest =>
      have e := compileFields_shift d self sp (c S) rest f0.F
      simp only [shiftFields] at e ⊢
      simp only [List.map_cons, e]

/-- Adding a constant to every offset of a struct changes no run of `compileOne`. -/
theorem compileOne_shift (d : Decls) (rf : Resolver) (c : Nat → Nat) :
    ∀ fuel, compileOne d (shiftResolver rf c) fuel = compileOne d rf fuel := by
  intro fuel
  induction fuel with
  | zero => rfl
  | succ fuel ih =>
    funext sp vt
    cases vt with
    | null => rfl
    | node T K V S =>
      rw [compileOne_succ, compileOne_succ, ih]
      have e : compileSet d (shiftResolver rf c) (compileOne d rf fuel) sp T K V S
          = compileSet d rf (compileOne d rf fuel) sp T K V S := by
        unfold compileSet
        cases T <;> simp only [compileRec, compileStruct_shift]
      rw [e]

/-- C16: a returning run of `compileStruct` at depth `sp` on a struct with the resolved fields
`fvs` has appended exactly the span that the specification words: for the first field the
three instructions `OP_size 3`, `OP_byte kind`, `OP_word id`, for every later field the four
instructions `OP_size 3`, `OP_seek delta`, `OP_byte kind`, `OP_word id`, each time followed by
the code that `compileOne` wrote for the type of the field at depth `sp + 1` right there, and
at the end `OP_byte 0`. The operand of each seek is the 56-bit pattern of the difference
between the offset of its field and the offset of the field before it, taken as an `int64`
(the difference itself when the offsets are below `2 ^ 63`); and no run of `compileOne`
changes when a constant is added to every offset of a struct. -/
theorem C16_struct_emission_layout (d : Decls) (rf : Resolver) (fuel sp S : Nat)
    (s s' : CState) (u : Unit)
    (h : compileStruct d rf (compileOne d rf fuel) sp S s = .ok u s') :
    ∃ fvs cs, rf S = .ok fvs ∧ cs.length = fvs.length ∧
      StructRuns d (compileOne d rf fuel) sp s.trk s.prog fvs cs ∧
      s' = { prog := s.prog ++ specStructSpan d fvs cs, trk := s.trk } ∧
      (∀ (i : Nat) (fp fv : Field), fvs.get? i = some fp → fvs.get? (i + 1) = some fv →
        sext56 (imm56 (toInt64 ((fv.F : Int) - (fp.F : Int))))
            = toInt64 ((fv.F : Int) - (fp.F : Int)) ∧
          (fp.F < 2 ^ 63 → fv.F < 2 ^ 63 →
            toInt64 ((fv.F : Int) - (fp.F : Int)) = (fv.F : Int) - (fp.F : Int))) ∧
      (∀ (c : Nat → Nat) (fuel' sp' : Nat) (vt : Ty) (s0 : CState),
        compileOne d (shiftResolver rf c) fuel' sp' vt s0 = compileOne d rf fuel' sp' vt s0) := by
  obtain ⟨fvs, cs, hrf, hruns, hs', -, -⟩ :=
    compileStruct_shape d rf _ (compileOne_grows d rf fuel) sp S s s' u h
  have hl : cs.length = fvs.length :=
    (structRuns_forall₂ d _ sp s.trk s.prog fvs cs hruns).length_eq.symm
  refine ⟨fvs, cs, hrf, hl, hruns, by rw [← structCode_spec d fvs cs hl]; exact hs', ?_, ?_⟩
  · intro i fp fv h1 h2
    have hfit : MinInt56 ≤ toInt64 ((fv.F : Int) - (fp.F : Int)) ∧
        toInt64 ((fv.F : Int) - (fp.F : Int)) ≤ MaxInt56 := by
      cases fvs with
      | nil => cases h1
      | cons f0 rest =>
        unfold compileStruct at h
        rw [hrf] at h
        simp only [Gen.bind_eq, Gen.andThen_ok] at h
        obtain ⟨_, _, -, _, _, -, _, _, -, _, _, -, _, _, -, _, _, -, _, _, hrest, -⟩ := h
        exact seeksFit_get rest f0 (compileFields_fits d _ sp rest _ _ _ _ hrest).1 i fp fv h1 h2
    refine ⟨sext56_imm56 _ hfit.1 hfit.2, fun hp hv => toInt64_small _ ?_ ?_⟩ <;> omega
  · intro c fuel' sp' vt s0
    rw [compileOne_shift]

/-- C16 at the struct `600`, whose second field lies eight bytes before the first one: the
operand field of the seek holds the 56-bit pattern of `-8`. -/
theorem C16_struct_emission_layout_witness :
    ∃ fvs cs, sampleResolver 600 = .ok fvs ∧ cs.length = fvs.length ∧
      StructRuns (sampleDecls 10) (compileOne (sampleDecls 10) sampleResolver 2) 0 {600} [] fvs cs ∧
      (⟨[768, 513, 258, 256, 260, 768, 18446744073709549573, 513, 514, 256, 260, 1], {600}⟩ : CState)
        = { prog := [] ++ specStructSpan (sampleDecls 10) fvs cs, trk := {600} } ∧
      (∀ (i : Nat) (fp fv : Field), fvs.get? i = some fp → fvs.get? (i + 1) = some fv →
        sext56 (imm56 (toInt64 ((fv.F : Int) - (fp.F : Int))))
            = toInt64 ((fv.F : Int) - (fp.F : Int)) ∧
          (fp.F < 2 ^ 63 → fv.F < 2 ^ 63 →
            toInt64 ((fv.F : Int) - (fp.F : Int)) = (fv.F : Int) - (fp.F : Int))) ∧
      (∀ (c : Nat → Nat) (fuel' sp' : Nat) (vt : Ty) (s0 : CState),
        compileOne (sampleDecls 10) (shiftResolver sampleResolver c) fuel' sp' vt s0
          = compileOne (sampleDecls 10) sampleResolver fuel' sp' vt s0) :=
  C16_struct_emission_layout (sampleDecls 10) sampleResolver 2 0 600 ⟨[], {600}⟩
    ⟨[768, 513, 258, 256, 260, 768, 18446744073709549573, 513, 514, 256, 260, 1], {600}⟩ ()
    (by decide)

/-! ## The error of the resolver -/

theorem Gen.onProg_panic (f : Program → Except PanicVal Program) (s s' : CState) (v : PanicVal) :
    Gen.onProg f s = .panic v s' ↔ f s.prog = .error v ∧ s' = s := by
  unfold Gen.onProg
  cases h : f s.prog with
  | ok p => simp
  | error w => simp [eq_comm]

/-- The failure values of `mkins` and of `Program.ins` are strings, never errors. -/
theorem mkins_not_err (op : Fin 256) (iv : Int) (vt : Nat) (e : GoError) :
    mkins op iv vt ≠ .error (.err e) := by
  intro h
  unfold mkins at h
  cases h1 : mkiv64 iv with
  | error v =>
    rw [h1] at h
    have := guard_values.1 iv v h1
    subst this
    cases h
  | ok a =>
    rw [h1] at h
    cases h2 : mktype vt with
    | error v =>
      rw [h2] at h
      have := guard_values.2.1 vt v h2
      subst this
      cases h
    | ok b =>
      rw [h2] at h
      cases h

theorem Program.ins_not_err (p : Program) (w : Nat) (e : GoError) :
    Program.ins p w ≠ .error (.err e) := by
  intro h
  have := guard_values.2.2.2 p w _ h
  cases this

theorem Gen.i64_err (d : Decls) (op : OpCode) (iv : Int) (s s' : CState) (e : GoError) :
    Gen.i64 d op iv s = .panic (.err e) s' ↔ False := by
  unfold Gen.i64
  rw [Gen.onProg_panic, iff_false]
  rintro ⟨h, -⟩
  unfold Program.i64 at h
  cases h1 : mkins (d.opv op) iv 0 with
  | error v =>
    rw [h1] at h
    cases h
    exact mkins_not_err _ _ _ _ h1
  | ok w =>
    rw [h1] at h
    exact Program.ins_not_err _ _ _ h

theorem Gen.add_err (d : Decls) (op : OpCode) (s s' : CState) (e : GoError) :
    Gen.add d op s = .panic (.err e) s' ↔ False := by
  unfold Gen.add
  rw [Gen.onProg_panic, iff_false]
  rintro ⟨h, -⟩
  unfold Program.add at h
  cases h1 : mkins (d.opv op) 0 0 with
  | error v =>
    rw [h1] at h
    cases h
    exact mkins_not_err _ _ _ _ h1
  | ok w =>
    rw [h1] at h
    exact Program.ins_not_err _ _ _ h

theorem Gen.rtt_err (d : Decls) (op : OpCode) (S : Nat) (s s' : CState) (e : GoError) :
    Gen.rtt d op S s = .panic (.err e) s' ↔ False := by
  unfold Gen.rtt
  rw [Gen.onProg_panic, iff_false]
  rintro ⟨h, -⟩
  unfold Program.rtt at h
  cases h1 : mkins (d.opv op) 0 S with
  | error v =>
    rw [h1] at h
    cases h
    exact mkins_not_err _ _ _ _ h1
  | ok w =>
    rw [h1] at h
    exact Program.ins_not_err _ _ _ h

theorem Gen.tag_err (d : Decls) (n : Nat) (s s' : CState) (e : GoError) :
    Gen.tag d n s = .panic (.err e) s' ↔ False := by
  unfold Gen.tag Program.tag
  by_cases h : n ≥ d.MaxStack <;> simp [h]

theorem Gen.pc_err (s s' : CState) (v : PanicVal) : Gen.pc s = .panic v s' ↔ False := by
  simp [Gen.pc]

theorem Gen.marked_err (S : Nat) (s s' : CState) (v : PanicVal) :
    Gen.marked S s = .panic v s' ↔ False := by
  simp [Gen.marked]

theorem Gen.mark_err (S : Nat) (s s' : CState) (v : PanicVal) :
    Gen.mark S s = .panic v s' ↔ False := by
  simp [Gen.mark]

theorem Gen.unmark_err (S : Nat) (s s' : CState) (v : PanicVal) :
    Gen.unmark S s = .panic v s' ↔ False := by
  simp [Gen.unmark]

theorem Gen.ret_err {α : Type} (a : α) (s s' : CState) (v : PanicVal) :
    Gen.ret a s = .panic v s' ↔ False := by
  simp [Gen.ret]

theorem Gen.kindOf_err (d : Decls) (vt : Ty) (s s' : CState) (e : GoError) :
    Gen.kindOf d vt s = .panic (.err e) s' ↔ vt = .null ∧ e = .nilDereference ∧ s' = s := by
  cases vt with
  | null => simp [Gen.kindOf, Gen.raise, eq_comm]
  | node T K V S => simp [Gen.kindOf, Gen.ret]

theorem Gen.pin_err (i : Nat) (s s' : CState) (e : GoError) :
    Gen.pin i s = .panic (.err e) s' ↔ s.prog.length ≤ i ∧ e = .indexOutOfRange ∧ s' = s := by
  unfold Gen.pin
  rw [Gen.onProg_panic]
  unfold Program.pin
  cases h : s.prog.get? i with
  | none =>
    have := List.get?_eq_none.mp h
    simp [this, eq_comm]
  | some w =>
    have := (List.get?_eq_some.mp h).1
    simp
    intro h2
    omega

/-- A pointer: an error-valued panic is one of the referent. -/
theorem compilePtr_err (d : Decls) (self : Nat → Ty → Gen Unit) (hg : Grows self)
    (Q : GoError → CState → Prop)
    (hs : ∀ sp vt s e s', self sp vt s = .panic (.err e) s' → Q e s')
    (sp : Nat) (et : Ty) (s s' : CState) (e : GoError)
    (h : compilePtr d self sp et s = .panic (.err e) s') : Q e s' := by
  simp only [compilePtr, Gen.bind_eq, Gen.andThen_panic, Gen.andThen_ok, Gen.pc_ok, Gen.add_ok,
    Gen.pc_err, Gen.add_err, Gen.pin_err, false_or] at h
  obtain ⟨i, s1, ⟨rfl, rfl⟩, _, s2, ⟨hl, rfl⟩, h | ⟨_, s3, hself, hlen, -, -⟩⟩ := h
  · exact hs _ _ _ _ _ h
  · obtain ⟨-, -, c, hc⟩ := hg _ _ _ _ _ hself
    rw [hc] at hlen
    simp only [List.length_append, List.length_cons, List.length_nil] at hlen
    omega

/-- A set or a list: an error-valued panic is the nil element descriptor or one of the
element. -/
theorem compileSetList_err (d : Decls) (self : Nat → Ty → Gen Unit) (hg : Grows self)
    (Q : GoError → CState → Prop) (hnil : ∀ s, Q .nilDereference s)
    (hs : ∀ sp vt s e s', self sp vt s = .panic (.err e) s' → Q e s')
    (sp : Nat) (et : Ty) (s s' : CState) (e : GoError)
    (h : compileSetList d self sp et s = .panic (.err e) s') : Q e s' := by
  simp only [compileSetList, Gen.bind_eq, Gen.andThen_panic, Gen.andThen_ok, Gen.pc_ok,
    Gen.add_ok, Gen.i64_ok, Gen.tag_ok, Gen.kindOf_ok, Gen.pc_err, Gen.add_err, Gen.pin_err,
    Gen.i64_err, Gen.tag_err, Gen.kindOf_err, false_or, or_false, and_false, exists_false] at h
  obtain ⟨_, s1, ⟨hsp, rfl⟩, _, s2, ⟨-, -, hl1, rfl⟩, h⟩ := h
  rcases h with ⟨-, rfl, rfl⟩ | ⟨ek, s3, ⟨hne, rfl, rfl⟩,
    _, s4, ⟨-, hek, hl2, rfl⟩, _, s5, ⟨hl3, rfl⟩, i, s6, ⟨rfl, rfl⟩, _, s7, ⟨hl4, rfl⟩,
    j, s8, ⟨rfl, rfl⟩, _, s9, ⟨hl5, rfl⟩, h⟩
  · exact hnil _
  · rcases h with h | ⟨_, s10, hself, _, s11, ⟨hl6, rfl⟩, _, s12, ⟨-, hgoto, hl7, rfl⟩, hlen, -, -⟩
    · exact hs _ _ _ _ _ h
    · obtain ⟨-, -, c, hc⟩ := hg _ _ _ _ _ hself
      dsimp only at hlen hc
      rw [hc] at hlen
      simp only [List.length_append, List.length_cons, List.length_nil] at hlen
      omega

/-- A map: an error-valued panic is a nil key or value descriptor, or one of the key or of
the value. -/
theorem compileMap_err (d : Decls) (self : Nat → Ty → Gen Unit) (hg : Grows self)
    (Q : GoError → CState → Prop) (hnil : ∀ s, Q .nilDereference s)
    (hs : ∀ sp vt s e s', self sp vt s = .panic (.err e) s' → Q e s')
    (sp : Nat) (K V : Ty) (S : Nat) (s s' : CState) (e : GoError)
    (h : compileMap d self sp K V S s = .panic (.err e) s') : Q e s' := by
  simp only [compileMap, Gen.bind_eq, Gen.andThen_panic, Gen.andThen_ok, Gen.pc_ok,
    Gen.add_ok, Gen.i64_ok, Gen.tag_ok, Gen.kindOf_ok, Gen.rtt_ok, Gen.pc_err, Gen.add_err,
    Gen.pin_err, Gen.i64_err, Gen.tag_err, Gen.kindOf_err, Gen.rtt_err, false_or, or_false,
    and_false, exists_false] at h
  obtain ⟨_, s1, ⟨hsp, rfl⟩, _, s2, ⟨-, -, hl1, rfl⟩, h⟩ := h
  rcases h with ⟨-, rfl, rfl⟩ | ⟨kt, s3, ⟨hneK, rfl, rfl⟩, _, s4, ⟨-, hkt, hl2, rfl⟩, h⟩
  · exact hnil _
  rcases h with ⟨-, rfl, rfl⟩ | ⟨vk, s5, ⟨hneV, rfl, rfl⟩, _, s6, ⟨-, hvk, hl3, rfl⟩,
    _, s7, ⟨hS, hl4, rfl⟩, i, s8, ⟨rfl, rfl⟩, _, s9, ⟨hl5, rfl⟩,
    j, s10, ⟨rfl, rfl⟩, _, s11, ⟨hl6, rfl⟩, _, s12, ⟨hl7, rfl⟩, h⟩
  · exact hnil _
  rcases h with h | ⟨_, s13, hK, _, s14, ⟨hl8, rfl⟩, h⟩
  · exact hs _ _ _ _ _ h
  rcases h with h | ⟨_, s15, hV, _, s16, ⟨-, hgoto, hl9, rfl⟩, hlen, -, -⟩
  · exact hs _ _ _ _ _ h
  · obtain ⟨-, -, cK, hcK⟩ := hg _ _ _ _ _ hK
    obtain ⟨-, -, cV, hcV⟩ := hg _ _ _ _ _ hV
    dsimp only at hlen hcK hcV
    rw [hcV, hcK] at hlen
    simp only [List.length_append, List.length_cons, List.length_nil] at hlen
    omega

/-- The fields after the first one: an error-valued panic is a nil field descriptor or one of
a field. -/
theorem compileFields_err (d : Decls) (self : Nat → Ty → Gen Unit)
    (Q : GoError → CState → Prop) (hnil : ∀ s, Q .nilDereference s)
    (hs : ∀ sp vt s e s', self sp vt s = .panic (.err e) s' → Q e s')
    (sp : Nat) : ∀ (fvs : List Field) (prev : Nat) (s s' : CState) (e : GoError),
    compileFields d self sp prev fvs s = .panic (.err e) s' → Q e s' := by
  intro fvs
  induction fvs with
  | nil =>
    intro prev s s' e h
    simp only [compileFields, Gen.ret_err] at h
  | cons fv rest ih =>
    intro prev s s' e h
    simp only [compileFields, Gen.bind_eq, Gen.andThen_panic, Gen.andThen_ok, Gen.i64_ok,
      Gen.kindOf_ok, Gen.i64_err, Gen.kindOf_err, false_or, or_false] at h
    obtain ⟨_, s1, ⟨-, -, -, rfl⟩, _, s2, ⟨-, -, -, rfl⟩, h⟩ := h
    rcases h with ⟨-, rfl, rfl⟩ | ⟨k, s3, ⟨hne, rfl, rfl⟩, _, s4, ⟨-, hk, -, rfl⟩,
      _, s5, ⟨-, hid, -, rfl⟩, h⟩
    · exact hnil _
    rcases h with h | ⟨_, s6, -, h⟩
    · exact hs _ _ _ _ _ h
    · exact ih _ _ _ _ h

/-- A struct: an error-valued panic is the error of the resolver for this struct, a nil field
descriptor, or one of a field. -/
theorem compileStruct_err (d : Decls) (rf : Resolver) (self : Nat → Ty → Gen Unit)
    (Q : GoError → CState → Prop) (hnil : ∀ s, Q .nilDereference s)
    (hs : ∀ sp vt s e s', self sp vt s = .panic (.err e) s' → Q e s')
    (sp S : Nat) (s s' : CState) (e : GoError) (hres : rf S = .error e → Q e s)
    (h : compileStruct d rf self sp S s = .panic (.err e) s') : Q e s' := by
  unfold compileStruct at h
  cases hrf : rf S with
  | error e1 =>
    rw [hrf] at h
    simp only [Gen.raise, Outcome.panic.injEq, PanicVal.err.injEq] at h
    obtain ⟨rfl, rfl⟩ := h
    exact hres hrf
  | ok fvs =>
    rw [hrf] at h
    cases fvs with
    | nil => simp only [Gen.i64_err] at h
    | cons f0 rest =>
      simp only [Gen.bind_eq, Gen.andThen_panic, Gen.andThen_ok, Gen.i64_ok,
        Gen.kindOf_ok, Gen.tag_ok, Gen.i64_err, Gen.kindOf_err, Gen.tag_err, false_or,
        or_false, and_false, exists_false] at h
      obtain ⟨_, s1, ⟨-, rfl⟩, _, s2, ⟨-, -, -, rfl⟩, h⟩ := h
      rcases h with ⟨-, rfl, rfl⟩ | ⟨k, s3, ⟨hne, rfl, rfl⟩, _, s4, ⟨-, hk, -, rfl⟩,
        _, s5, ⟨-, hid, -, rfl⟩, h⟩
      · exact hnil _
      rcases h with h | ⟨_, s6, -, h⟩
      · exact hs _ _ _ _ _ h
      · exact compileFields_err d self Q hnil hs sp _ _ _ _ _ h

/-- Every panic of the generator whose value is an error is the run-time error of reading a
nil descriptor, or carries the error that the resolver gives for a struct that is marked in
the tracker when the generator stops. -/
theorem compileOne_err (d : Decls) (rf : Resolver) : ∀ (fuel sp : Nat) (vt : Ty)
    (s : CState) (e : GoError) (s' : CState), compileOne d rf fuel sp vt s = .panic (.err e) s' →
    e = .nilDereference ∨ ∃ S, S ∈ s'.trk ∧ rf S = .error e := by
  intro fuel
  induction fuel with
  | zero =>
    intro sp vt s e s' h
    cases h
  | succ fuel ih =>
    intro sp vt s e s' h
    cases vt with
    | null =>
      simp only [compileOne, Gen.raise, Outcome.panic.injEq, PanicVal.err.injEq] at h
      exact Or.inl h.1.symm
    | node T K V S =>
      rw [compileOne_succ] at h
      have hg := compileOne_grows d rf fuel
      have hnil : ∀ s : CState, (GoError.nilDereference = GoError.nilDereference ∨
          ∃ S, S ∈ s.trk ∧ rf S = .error GoError.nilDereference) := fun _ => Or.inl rfl
      by_cases hT : T = .T_pointer
      · rw [if_pos hT] at h
        exact compilePtr_err d _ hg
          (fun e s => e = .nilDereference ∨ ∃ S, S ∈ s.trk ∧ rf S = .error e) ih _ _ _ _ _ h
      · rw [if_neg hT] at h
        simp only [Gen.andThen_panic, Gen.marked_err, Gen.marked_ok, false_or] at h
        obtain ⟨ok, s1, ⟨rfl, rfl⟩, h⟩ := h
        by_cases hS : S ∈ s1.trk
        · simp only [hS, decide_True, Bool.not_true, Bool.false_eq_true, if_false,
            Gen.rtt_err] at h
        · simp only [hS, decide_False, Bool.not_false, if_true, compileSet, Gen.bind_eq,
            Gen.andThen_panic, Gen.andThen_ok, Gen.mark_ok, Gen.mark_err, Gen.unmark_err,
            false_or, or_false, and_false, exists_false] at h
          obtain ⟨_, s2, rfl, h⟩ := h
          cases T <;> simp only [compileRec, Gen.bind_eq, Gen.andThen_panic, Gen.i64_err,
            Gen.add_err, Gen.raise, false_or, and_false, exists_false, reduceCtorEq,
            Outcome.panic.injEq, false_and] at h
          · exact compileStruct_err d rf _
              (fun e s => e = .nilDereference ∨ ∃ S, S ∈ s.trk ∧ rf S = .error e) hnil ih
              _ _ _ _ _ (fun hr => Or.inr ⟨S, Finset.mem_insert_self _ _, hr⟩) h
          · exact compileMap_err d _ hg
              (fun e s => e = .nilDereference ∨ ∃ S, S ∈ s.trk ∧ rf S = .error e) hnil ih
              _ _ _ _ _ _ _ h
          · exact compileSetList_err d _ hg
              (fun e s => e = .nilDereference ∨ ∃ S, S ∈ s.trk ∧ rf S = .error e) hnil ih
              _ _ _ _ _ h
          · exact compileSetList_err d _ hg
              (fun e s => e = .nilDereference ∨ ∃ S, S ∈ s.trk ∧ rf S = .error e) hnil ih
              _ _ _ _ _ h

/-- C4: when the generator stops on a panic whose value is an error `e`, `Compile` returns
(no panic leaves it) and its error result is `e` itself. That value is not made by the
generator: it is the run-time error of reading a nil descriptor, or it is the very error that
`ResolveFields` gives for a struct that is marked in the tracker at the stop, the struct being
expanded. In the other direction, at every struct whose fields cannot be resolved,
`compileStruct` panics with the error of the resolver before anything is written, and so does
`compileOne` at any depth and state where the struct is not marked, leaving its mark; `Compile`
of such a struct returns that error with the empty program. -/
theorem C4_resolve_error_returned_as_is (d : Decls) (rf : Resolver) (opt : Program → Program)
    (fuel : Nat) (vt : Ty) (trk : Compiler) (e : GoError) (s : CState)
    (h : compileOne d rf fuel 0 vt { prog := [], trk := trk } = .panic (.err e) s) :
    Compile d rf opt fuel vt trk = .returned s.prog (some e) s.trk ∧
    (e = .nilDereference ∨ ∃ S, S ∈ s.trk ∧ rf S = .error e) ∧
    (∀ (self : Nat → Ty → Gen Unit) (sp S : Nat) (s1 : CState) (e1 : GoError),
      rf S = .error e1 → compileStruct d rf self sp S s1 = .panic (.err e1) s1) ∧
    (∀ (n sp : Nat) (K V : Ty) (S : Nat) (s1 : CState) (e1 : GoError),
      rf S = .error e1 → S ∉ s1.trk →
      compileOne d rf (n + 1) sp (.node .T_struct K V S) s1
        = .panic (.err e1) { prog := s1.prog, trk := insert S s1.trk }) ∧
    (∀ (n : Nat) (K V : Ty) (S : Nat) (t : Compiler) (e1 : GoError),
      rf S = .error e1 → S ∉ t →
      Compile d rf opt (n + 1) (.node .T_struct K V S) t = .returned [] (some e1) (insert S t)) := by
  have hcs : ∀ (self : Nat → Ty → Gen Unit) (sp S : Nat) (s1 : CState) (e1 : GoError),
      rf S = .error e1 → compileStruct d rf self sp S s1 = .panic (.err e1) s1 := by
    intro self sp S s1 e1 hr
    unfold compileStruct
    rw [hr]
    rfl
  have hone : ∀ (n sp : Nat) (K V : Ty) (S : Nat) (s1 : CState) (e1 : GoError),
      rf S = .error e1 → S ∉ s1.trk →
      compileOne d rf (n + 1) sp (.node .T_struct K V S) s1
        = .panic (.err e1) { prog := s1.prog, trk := insert S s1.trk } := by
    intro n sp K V S s1 e1 hr hS
    obtain ⟨p1, t1⟩ := s1
    rw [compileOne_unmarked d rf n sp _ K V S (by decide) p1 t1 hS]
    simp only [compileRec, hcs _ sp S _ e1 hr]
  refine ⟨?_, compileOne_err d rf fuel 0 vt _ e s h, hcs, hone, ?_⟩
  · unfold Compile
    rw [h]
    rfl
  · intro n K V S t e1 hr hS
    unfold Compile
    rw [hone n 0 K V S { prog := [], trk := t } e1 hr hS]
    rfl

/-- C4 at the struct `100`, whose second field is the struct `200` that cannot be resolved:
the error that `Compile` returns is the one that the resolver gives for `200`. The same at a
struct `1` under a resolver that fails with another error on every struct. -/
theorem C4_resolve_error_returned_as_is_witness :
    sampleResolver 200 = .error (.resolve "cannot resolve fields") ∧
    compileOne (sampleDecls 10) sampleResolver 4 0 (leafTy .T_struct 100) { prog := [], trk := ∅ }
      = .panic (.err (.resolve "cannot resolve fields"))
          { prog := [768, 513, 258, 256, 260, 768, 2053, 3073, 514], trk := {200, 100} } ∧
    Compile (sampleDecls 10) sampleResolver id 4 (leafTy .T_struct 100) ∅
      = .returned [768, 513, 258, 256, 260, 768, 2053, 3073, 514]
          (some (.resolve "cannot resolve fields")) {200, 100} ∧
    (GoError.resolve "cannot resolve fields" = .nilDereference ∨
      ∃ S, S ∈ ({200, 100} : Compiler) ∧
        sampleResolver S = .error (.resolve "cannot resolve fields")) ∧
    Compile (sampleDecls 10) (fun _ => .error (.resolve "unsupported host layout")) id 1
        (leafTy .T_struct 1) ∅
      = .returned [] (some (.resolve "unsupported host layout")) {1} :=
  have hC := C4_resolve_error_returned_as_is (sampleDecls 10) sampleResolver id 4
    (leafTy .T_struct 100) ∅ (.resolve "cannot resolve fields")
    { prog := [768, 513, 258, 256, 260, 768, 2053, 3073, 514], trk := {200, 100} } (by decide)
  have hD := C4_resolve_error_returned_as_is (sampleDecls 10)
    (fun _ => .error (.resolve "unsupported host layout")) id 1
    (leafTy .T_struct 1) ∅ (.resolve "unsupported host layout")
    { prog := [], trk := {1} } (by decide)
  ⟨by decide, by decide, hC.1, hC.2.1, hD.1⟩

end Frugal
